import Mathlib

/-!
# derby-parsing: the template parser of `index.js`

A shallow embedding of the template parser and the properties settled for it.

Conventions of the embedding

* A JavaScript string is a `Str`, a list of characters (one `Char` per code unit).
* An index result that JavaScript reports as `-1` is `none`.
* A thrown exception is `Except.error`; the constructors of `Error` name the
  `throw` sites of the source.
* Loops run on an iteration budget; `Error.fuel` is the only result that the
  source cannot produce, and the theorems below never end in it.
-/

namespace DerbyParsing

/-- A JavaScript string, as the list of its characters. -/
abbrev Str := List Char

/-! ## String primitives of the JavaScript runtime -/

/-- The characters matched by `\s` in a regular expression and removed by
`String.prototype.trim`: white space and line terminators. -/
def isSpace (c : Char) : Bool :=
  let n := c.toNat
  n == 9 || n == 10 || n == 11 || n == 12 || n == 13 || n == 32 || n == 160 ||
  n == 5760 || (8192 ≤ n && n ≤ 8202) || n == 8232 || n == 8233 || n == 8239 ||
  n == 8287 || n == 12288 || n == 65279

/-- JS `String.prototype.trim`. -/
def trim (s : Str) : Str :=
  ((s.dropWhile isSpace).reverse.dropWhile isSpace).reverse

/-- Search for `pat` in `s`, where `s` starts at absolute offset `off`. -/
def indexOfFrom (pat : Str) : Str → Nat → Option Nat
  | [], off => if pat = [] then some off else none
  | c :: cs, off =>
    if pat.isPrefixOf (c :: cs) then some off else indexOfFrom pat cs (off + 1)

/-- JS `text.indexOf(pat, pos)`: the first index at or after `pos` where `pat`
occurs in `text`, `none` for `-1`. -/
def indexOf (text pat : Str) (pos : Nat) : Option Nat :=
  indexOfFrom pat (text.drop pos) (min pos text.length)

/-- JS `s.slice(a, b)` for non-negative `a` and `b`. -/
def slice (s : Str) (a b : Nat) : Str := (s.take b).drop a

/-- JS `s.slice(a)` for non-negative `a`. -/
def sliceFrom (s : Str) (a : Nat) : Str := s.drop a

/-- JS `s.charAt(i)`: the one-character string at `i`, or the empty string. -/
def charAt (s : Str) (i : Nat) : Str := (s.drop i).take 1

/-- JS `s.split(sep)` for a one-character separator. -/
def splitOn (sep : Char) : Str → List Str
  | [] => [[]]
  | c :: cs =>
    if c = sep then [] :: splitOn sep cs
    else match splitOn sep cs with
      | [] => [[c]]
      | w :: ws => (c :: w) :: ws

/-! ## Errors -/

/-- The exceptions the parser can raise. -/
inductive Error where
  /-- JS `'Error parsing template text: ' + data`, the forward-progress guard of `parseText`. -/
  | parsingTemplateText (data : Str)
  /-- JS `'Mismatched braces in: ' + data`. -/
  | mismatchedBraces (data : Str)
  /-- JS `'Mismatched closing HTML tag: ' + tag`. -/
  | mismatchedClosingHtmlTag (tag : Str)
  /-- JS `'Mismatched closing template tag: ' + source`. -/
  | mismatchedClosingTemplateTag (source : Str)
  /-- JS `unexpected(source)`: `'Error parsing template: ' + source`. -/
  | parsingTemplate (source : Option Str)
  /-- JS `'Error parsing ' + key + ' attribute: ' + value`. -/
  | parsingAttribute (key value : Str)
  /-- JS `'The <view> element requires a name attribute'`. -/
  | viewRequiresName
  /-- JS `'No view found for "' + name + '"'`. -/
  | noViewFound (name : Str)
  /-- JS `'The <' + tagName + '> element requires a literal name attribute'`. -/
  | requiresLiteralName (tagName : Str)
  /-- An error of the expression grammar, with `'\n\nWithin expression: ' + source` appended. -/
  | withinExpression (err : Str) (source : Str)
  /-- An error thrown by the expression grammar, as it is. -/
  | grammar (err : Str)
  /-- A `TypeError` of the JavaScript runtime: a property read or a call on `undefined`. -/
  | typeError (what : String)
  /-- The iteration budget of the model ran out (not a result of the source). -/
  | fuel
  deriving DecidableEq, Repr

/-! ## Brace matching -/

/-- The `while (num)` loop of `matchBraces`, with an iteration budget. -/
def matchBracesLoop (text : Str) (openChar closeChar : Char) :
    Nat → Nat → Nat → Except Error (Option Nat)
  | _, 0, i => .ok (some i)
  | 0, _ + 1, _ => .error .fuel
  | fuel + 1, num + 1, i =>
    let close := indexOf text [closeChar] i
    let «open» := indexOf text [openChar] i
    match close, «open» with
    | some c, none => matchBracesLoop text openChar closeChar fuel num (c + 1)
    | some c, some o =>
      if c < o then matchBracesLoop text openChar closeChar fuel num (c + 1)
      else matchBracesLoop text openChar closeChar fuel (num + 2) (o + 1)
    | none, some o => matchBracesLoop text openChar closeChar fuel (num + 2) (o + 1)
    | none, none => .ok none

/-- JS `matchBraces(text, num, i, openChar, closeChar)`: the index just after the
brace that brings the depth `num` back to zero, `none` for `-1`. -/
def matchBraces (text : Str) (num i : Nat) (openChar closeChar : Char) :
    Except Error (Option Nat) :=
  matchBracesLoop text openChar closeChar (text.length + 1) num (i + num)

/-! ## Regular expressions

The two regular expressions of the source are anchored at the start of the
input (`^`, no `m` flag), so `exec` can only match at index 0. They are run by
a backtracking matcher with the priorities of the JavaScript one: alternatives
left to right, greedy quantifiers longest first, lazy ones shortest first. -/

/-- A character class: `\s`, `\S` or `[\s\S]`. -/
inductive CharClass where
  | space
  | nonSpace
  | any
  deriving DecidableEq, Repr

/-- Membership of a character in a class. -/
def CharClass.test : CharClass → Char → Bool
  | .space, c => isSpace c
  | .nonSpace, c => !isSpace c
  | .any, _ => true

/-- The regular expressions used by the source. -/
inductive Re where
  /-- A literal string. -/
  | lit (s : Str)
  /-- One or more characters of a class: `c+` when `greedy`, else `c+?`. -/
  | plus (c : CharClass) (greedy : Bool)
  /-- Zero or more characters of a class, greedy: `c*`. -/
  | star (c : CharClass)
  /-- Concatenation. -/
  | seq (a b : Re)
  /-- Alternation `a|b`. -/
  | alt (a b : Re)
  /-- An optional non-capturing group `(?:a)?`. -/
  | opt (a : Re)
  /-- The capturing group number `n`. -/
  | group (n : Nat) (a : Re)
  /-- The end of the input, `$`. -/
  | eos
  deriving Repr

/-- The captured groups of a match, latest first. -/
abbrev Captures := List (Nat × Str)

/-- Zero or more characters of the class, longest first, then the continuation. -/
def manyGreedy {α : Type} (c : CharClass) : Str → (Str → Option α) → Option α
  | [], k => k []
  | x :: xs, k =>
    if c.test x then
      match manyGreedy c xs k with
      | some r => some r
      | none => k (x :: xs)
    else k (x :: xs)

/-- Zero or more characters of the class, shortest first, then the continuation. -/
def manyLazy {α : Type} (c : CharClass) : Str → (Str → Option α) → Option α
  | [], k => k []
  | x :: xs, k =>
    match k (x :: xs) with
    | some r => some r
    | none => if c.test x then manyLazy c xs k else none

/-- Backtracking match of a regular expression at the head of `inp`, in
continuation-passing style. -/
def Re.run : Re → Str → Captures → (Str → Captures → Option Captures) → Option Captures
  | .lit s, inp, caps, k => if s.isPrefixOf inp then k (inp.drop s.length) caps else none
  | .plus _ _, [], _, _ => none
  | .plus c true, x :: xs, caps, k =>
    if c.test x then manyGreedy c xs (fun r => k r caps) else none
  | .plus c false, x :: xs, caps, k =>
    if c.test x then manyLazy c xs (fun r => k r caps) else none
  | .star c, inp, caps, k => manyGreedy c inp (fun r => k r caps)
  | .seq a b, inp, caps, k => a.run inp caps (fun r caps1 => b.run r caps1 k)
  | .alt a b, inp, caps, k =>
    match a.run inp caps k with
    | some r => some r
    | none => b.run inp caps k
  | .opt a, inp, caps, k =>
    match a.run inp caps k with
    | some r => some r
    | none => k inp caps
  | .group n a, inp, caps, k =>
    a.run inp caps (fun r caps1 => k r ((n, inp.take (inp.length - r.length)) :: caps1))
  | .eos, inp, caps, k => if inp = [] then k [] caps else none

/-- JS `re.exec(s)` for a regular expression anchored with `^`: the captured
groups of the match, `none` for `null`. -/
def Re.exec (re : Re) (s : Str) : Option Captures :=
  re.run s [] (fun _ caps => some caps)

/-- The element `match[n]` of a match: `none` for `undefined`. -/
def Captures.get (m : Captures) (n : Nat) : Option Str := m.lookup n

/-- The keywords of `blockRegExp`: `if|unless|else if|each|with`. -/
def blockKeyword : Re :=
  .alt (.lit ['i', 'f']) (.alt (.lit ['u', 'n', 'l', 'e', 's', 's'])
    (.alt (.lit ['e', 'l', 's', 'e', ' ', 'i', 'f']) (.alt (.lit ['e', 'a', 'c', 'h'])
      (.lit ['w', 'i', 't', 'h']))))

/-- The alias of `blockRegExp`, inside its optional group: `\s+as\s+(\S+)`. -/
def blockAlias : Re :=
  .seq (.plus .space true) (.seq (.lit ['a', 's'])
    (.seq (.plus .space true) (.group 3 (.plus .nonSpace true))))

/-- The end of `blockRegExp`: `(?:\s+as\s+(\S+))?$`. -/
def blockTail : Re := .seq (.opt blockAlias) .eos

/-- What follows the keyword in `blockRegExp`: `\s+([\s\S]+?)(?:\s+as\s+(\S+))?$`. -/
def blockRest : Re := .seq (.plus .space true) (.seq (.group 2 (.plus .any false)) blockTail)

/-- The source regular expression
`/^(if|unless|else if|each|with)\s+([\s\S]+?)(?:\s+as\s+(\S+))?$/`. -/
def blockRegExp : Re := .seq (.group 1 blockKeyword) blockRest

/-- The keywords of `valueRegExp`: `view|unbound|bound|unescaped`. -/
def valueKeyword : Re :=
  .alt (.lit ['v', 'i', 'e', 'w'])
    (.alt (.lit ['u', 'n', 'b', 'o', 'u', 'n', 'd']) (.alt (.lit ['b', 'o', 'u', 'n', 'd'])
      (.lit ['u', 'n', 'e', 's', 'c', 'a', 'p', 'e', 'd'])))

/-- The source regular expression
`/^(?:(view|unbound|bound|unescaped)\s+)?([\s\S]*)/`. -/
def valueRegExp : Re :=
  .seq (.opt (.seq (.group 1 valueKeyword) (.plus .space true))) (.group 2 (.star .any))

/-! ## Expressions

The expression classes and the path grammar `createPathExpression` belong to
the package `derby-expressions`; the grammar is a parameter of the parser. -/

/-- The values a literal can hold. -/
inductive JsValue where
  | undefined
  | null
  | bool (b : Bool)
  | num (n : Int)
  | str (s : Str)
  | object (fields : List (Str × JsValue))

/-- JS `ExpressionMeta`: what `createExpression` records about an expression
body. An absent property (`undefined`) is `none`, or `false` for a flag. -/
structure ExpressionMeta where
  source : Str
  blockType : Option Str
  isEnd : Bool
  as : Option Str
  unescaped : Bool
  bindType : Option Str
  valueType : Option Str
  deriving DecidableEq, Repr

/-- JS `new expressions.ExpressionMeta(source)`. -/
def ExpressionMeta.new (source : Str) : ExpressionMeta :=
  ⟨source, none, false, none, false, none, none⟩

/-- An expression object: `blank` is `new expressions.Expression()`, `other`
stands for every class the parser does not look into (paths, function calls). -/
inductive Expression where
  | blank (meta : Option ExpressionMeta)
  | literal (value : JsValue) (meta : Option ExpressionMeta)
  | sequence (args : List Expression) (meta : Option ExpressionMeta)
  | operator (name : Str) (args : List Expression) (meta : Option ExpressionMeta)
  | other (source : Str) (meta : Option ExpressionMeta)

/-- The property `expression.meta`. -/
def Expression.meta : Expression → Option ExpressionMeta
  | .blank m => m
  | .literal _ m => m
  | .sequence _ m => m
  | .operator _ _ m => m
  | .other _ m => m

/-- The assignment `expression.meta = meta`. -/
def Expression.setMeta (meta : ExpressionMeta) : Expression → Expression
  | .blank _ => .blank (some meta)
  | .literal v _ => .literal v (some meta)
  | .sequence a _ => .sequence a (some meta)
  | .operator n a _ => .operator n a (some meta)
  | .other s _ => .other s (some meta)

/-- The path grammar `createPathExpression` of `derby-expressions`: an
expression, or the message of the error it throws. -/
abbrev Grammar := Str → Except Str Expression

/-- Truthiness of a string-or-undefined value: defined and not empty. -/
def truthy : Option Str → Bool
  | some (_ :: _) => true
  | _ => false

/-- The body of the `do ... while (keyword)` loop of `createExpression`, with
an iteration budget. -/
def valueLoop : Nat → Option Str → ExpressionMeta → Except Error (Option Str × ExpressionMeta)
  | 0, _, _ => .error .fuel
  | fuel + 1, path, meta =>
    match valueRegExp.exec (path.getD []) with
    | none => .error (.typeError "match[1]")
    | some m =>
      let keyword := m.get 1
      let path := m.get 2
      let meta :=
        if keyword = some ['u', 'n', 'e', 's', 'c', 'a', 'p', 'e', 'd'] then
          { meta with unescaped := true }
        else if keyword = some ['u', 'n', 'b', 'o', 'u', 'n', 'd'] ∨
            keyword = some ['b', 'o', 'u', 'n', 'd'] then
          { meta with bindType := keyword }
        else if truthy keyword then
          { meta with valueType := keyword }
        else meta
      if truthy keyword then valueLoop fuel path meta else .ok (path, meta)

/-- The classification part of `createExpression`: the path to hand to the
grammar and the metadata, from the trimmed source. -/
def classify (source : Str) : Except Error (Option Str × ExpressionMeta) :=
  let meta := ExpressionMeta.new source
  match blockRegExp.exec source with
  | some m => .ok (m.get 2, { meta with blockType := m.get 1, as := m.get 3 })
  | none =>
    if source = ['e', 'l', 's', 'e'] ∨ source = ['u', 'n', 'b', 'o', 'u', 'n', 'd'] ∨
        source = ['b', 'o', 'u', 'n', 'd'] then
      .ok (none, { meta with blockType := some source })
    else if charAt source 0 = ['/'] then
      let rest := trim (sliceFrom source 1)
      .ok (none, { meta with isEnd := true,
                             blockType := some (if rest ≠ [] then rest else ['e', 'n', 'd']) })
    else valueLoop (source.length + 1) (some source) meta

/-- JS `createExpression(source)`. -/
def createExpression (createPathExpression : Grammar) (source : Str) : Except Error Expression :=
  let source := trim source
  match classify source with
  | .error e => .error e
  | .ok (path, meta) =>
    if truthy path then
      match createPathExpression (path.getD []) with
      | .ok expression => .ok (expression.setMeta meta)
      | .error err => .error (.withinExpression err source)
    else .ok (Expression.blank (some meta))

/-! ## The scanner -/

/-- The `while (current)` loop of `parseText`, with an iteration budget. The
callbacks act on a state `σ` and may throw. -/
def parseTextLoop {σ : Type} (createPathExpression : Grammar) (data : Str)
    (onLiteral : Str → σ → Except Error σ) (onExpression : Expression → σ → Except Error σ) :
    Nat → Str → Option Str → σ → Except Error σ
  | 0, _, _, _ => .error .fuel
  | fuel + 1, current, last, st =>
    if current = [] then .ok st
    else if some current = last then .error (.parsingTemplateText data)
    else
      match indexOf current ['{', '{'] 0 with
      | none => onLiteral current st
      | some start =>
        match matchBraces current 2 start '{' '}' with
        | .error e => .error e
        | .ok none => .error (.mismatchedBraces data)
        | .ok (some «end») =>
          match (if start > 0 then onLiteral (slice current 0 start) st else .ok st) with
          | .error e => .error e
          | .ok st1 =>
            let inside := slice current (start + 2) («end» - 2)
            match (if inside ≠ [] then
                (createExpression createPathExpression inside).bind (fun expression =>
                  onExpression expression st1)
              else .ok st1) with
            | .error e => .error e
            | .ok st2 =>
              parseTextLoop createPathExpression data onLiteral onExpression fuel
                (sliceFrom current «end») (some current) st2

/-- JS `parseText(data, onLiteral, onExpression)`. -/
def parseText {σ : Type} (createPathExpression : Grammar) (data : Str)
    (onLiteral : Str → σ → Except Error σ) (onExpression : Expression → σ → Except Error σ)
    (st : σ) : Except Error σ :=
  parseTextLoop createPathExpression data onLiteral onExpression (data.length + 1) data none st

/-- A callback invocation of the scanner. -/
inductive Span where
  | literal (data : Str)
  | expression (expression : Expression)

/-! ## Template nodes

The node classes belong to the package `derby-templates`; they are modelled by
the constructor arguments the parser passes and the properties it reads. -/

/-- A view of the registry: its name and the attribute and array names it
declares (`attributesMap`, `arraysMap`; `none` when the map is absent). -/
structure View where
  name : Str
  attributesMap : Option (List Str)
  arraysMap : Option (List Str)
  deriving DecidableEq, Repr

/-- A property value that is either a plain value or an expression object. -/
inductive Value where
  | js (v : JsValue)
  | expression (e : Expression)

/-- The hooks: `MarkupAs(segments)`, `ElementOn(name, expression)` and
`ComponentOn(name, expression)`. -/
inductive Hook where
  | markupAs (segments : List Str)
  | elementOn (name : Str) (expression : Value)
  | componentOn (name : Str) (expression : Value)

mutual
/-- A template node. The content lists are the arrays the parser fills. -/
inductive Node where
  /-- JS `Template(content)`. -/
  | template (content : Option (List Node))
  /-- JS `Text(data)`. -/
  | text (data : Str)
  /-- JS `DynamicText(expression)`. -/
  | dynamicText (expression : Expression)
  /-- JS `ConditionalBlock(expressions, contents)`. -/
  | conditionalBlock (expressions : List Expression) (contents : List (List Node))
  /-- JS `EachBlock(expression, content)` and its property `elseContent`. -/
  | eachBlock (expression : Expression) (content : List Node) (elseContent : Option (List Node))
  /-- JS `Block(expression, content)`. -/
  | block (expression : Expression) (content : List Node)
  /-- JS `Element(tagName, attributes, content, selfClosing, hooks)`. -/
  | element (tagName : Str) (attributes : Option (List (Str × Attribute)))
      (content : Option (List Node)) (selfClosing : Bool) (hooks : Option (List Hook))
  /-- JS `ViewPointer(name, attributes, hooks, view)`. -/
  | viewPointer (name : JsValue) (attributes : Option (List (Str × ViewValue)))
      (hooks : Option (List Hook)) (view : View)
  /-- JS `DynamicViewPointer(template, attributes, hooks)`, with whatever the
  caller passes in the second and third position. -/
  | dynamicViewPointer (template : Dynamic) (attributes : ViewSlot) (hooks : ViewSlot)
  /-- JS `Comment(data)`. -/
  | comment (data : Str)
  /-- JS `Doctype(name, publicId, systemId)`. -/
  | doctype (name : Option Str) (publicId : Option Str) (systemId : Option Str)
/-- What a `DynamicAttribute` or a `DynamicViewPointer` wraps: an expression,
a template, or `undefined`. -/
inductive Dynamic where
  | undefined
  | expression (e : Expression)
  | template (t : Node)
/-- An entry of an `AttributesMap`: `Attribute(data)` or `DynamicAttribute(template)`. -/
inductive Attribute where
  | attribute (data : JsValue)
  | dynamicAttribute (template : Dynamic)
/-- A value of a `ViewAttributes` object: a plain value, an expression object,
a `ParentWrapper(template, expression)`, or an array of attribute objects. -/
inductive ViewValue where
  | value (v : JsValue)
  | parentWrapper (template : Node) (expression : Option Expression)
  | array (items : List (List (Str × ViewValue)))
/-- An argument of `DynamicViewPointer` after the first. -/
inductive ViewSlot where
  | attributes (a : Option (List (Str × ViewValue)))
  | hooks (h : Option (List Hook))
end

/-- JS `AttributesMap`: attribute name to attribute, in insertion order. -/
abbrev AttributesMap := List (Str × Attribute)

/-- JS `ViewAttributes`: attribute name to value, in insertion order. -/
abbrev ViewAttributes := List (Str × ViewValue)

/-- The property `node.expression`: defined for `DynamicText`, `EachBlock` and `Block`. -/
def Node.expression : Node → Option Expression
  | .dynamicText e => some e
  | .eachBlock e _ _ => some e
  | .block e _ => some e
  | _ => none

/-- The property `node.expressions`: defined for `ConditionalBlock`. -/
def Node.expressions : Node → Option (List Expression)
  | .conditionalBlock es _ => some es
  | _ => none

/-- The property `node.content` of an element or a block (`none` for
`null` or `undefined`). -/
def Node.content : Node → Option (List Node)
  | .template c => c
  | .eachBlock _ c _ => some c
  | .block _ c => some c
  | .element _ _ c _ _ => c
  | _ => none

/-! ## Objects as property lists -/

/-- The assignment `object[key] = value`: an existing property keeps its
place, a new one goes last. -/
def setProp {α : Type} (key : Str) (value : α) : List (Str × α) → List (Str × α)
  | [] => [(key, value)]
  | (k, v) :: rest => if k = key then (k, value) :: rest else (k, v) :: setProp key value rest

/-- The statement `delete object[key]`. -/
def deleteProp {α : Type} (key : Str) (object : List (Str × α)) : List (Str × α) :=
  object.filter (fun kv => kv.1 ≠ key)

/-- The read `object[key]`, `none` for `undefined`. -/
def getProp {α : Type} (key : Str) (object : List (Str × α)) : Option α :=
  (object.find? (fun kv => kv.1 = key)).map (fun kv => kv.2)

/-! ## The parser state -/

/-- A `ParseNode`, one frame of the parser: its `content` array. The array
object of a frame is also held by the node that the frame was opened for
(`shared`): that node is the last item of the parent frame, and it sees the
items of the frame when the parser goes back to the parent. -/
structure ParseNode where
  content : List Node
  shared : Bool

/-- The view that is parsed: the registry lookups `views.find(name, at)` and
`views.elementMap[tagName]`. -/
structure ViewContext where
  find : Str → Option View
  elementMap : Str → Option View

/-- The module variable `parseNode` as the chain `parseNode`,
`parseNode.parent`, ... (empty when `parseNode` is `undefined`), with the
view that every frame of the chain carries. -/
structure State where
  view : Option ViewContext
  frames : List ParseNode

/-- What the parser takes from outside: the path grammar, the entity
decoder `htmlUtil.unescapeEntities` and the table `templates.VOID_ELEMENTS`. -/
structure Env where
  createPathExpression : Grammar
  unescapeEntities : Str → Str
  voidElements : Str → Bool

/-- The node `n` once the array it shares with a frame holds `items`. -/
def Node.withShared (items : List Node) : Node → Node
  | .conditionalBlock es contents => .conditionalBlock es (contents.dropLast ++ [items])
  | .eachBlock e _ none => .eachBlock e items none
  | .eachBlock e c (some _) => .eachBlock e c (some items)
  | .block e _ => .block e items
  | .element t a (some _) s h => .element t a (some items) s h
  | n => n

/-- JS `new ParseNode(view)`, the root frame. -/
def State.new (view : Option ViewContext) : State := ⟨view, [⟨[], false⟩]⟩

/-- JS `parseNode = parseNode.parent`. The frame that is left is out of reach
from then on; when its array is shared, the last item of the parent frame is
shown with the items of that array. At the root frame the parent is
`undefined`. -/
def State.toParent (st : State) : Except Error State :=
  match st.frames with
  | [] => .error (.typeError "parseNode.parent")
  | [_] => .ok { st with frames := [] }
  | f :: p :: rest =>
    if f.shared then
      match p.content.getLast? with
      | some n => .ok { st with frames := { p with content := p.content.dropLast ++ [n.withShared f.content] } :: rest }
      | none => .ok { st with frames := p :: rest }
    else .ok { st with frames := p :: rest }

/-- JS `parseNode.last()`: the last item of the current frame, `none` for `undefined`. -/
def State.last (st : State) : Except Error (Option Node) :=
  match st.frames with
  | [] => .error (.typeError "parseNode.last")
  | f :: _ => .ok f.content.getLast?

/-- JS `parseNode.content.push(node)`. -/
def State.push (node : Node) (st : State) : Except Error State :=
  match st.frames with
  | [] => .error (.typeError "parseNode.content")
  | f :: rest => .ok { st with frames := { f with content := f.content ++ [node] } :: rest }

/-- JS `parseNode.content.pop()`: the removed item, `none` for `undefined`. -/
def State.pop (st : State) : Except Error (Option Node × State) :=
  match st.frames with
  | [] => .error (.typeError "parseNode.content")
  | f :: rest => .ok (f.content.getLast?, { st with frames := { f with content := f.content.dropLast } :: rest })

/-- JS `parseNode = parseNode.child()`; `shared` tells whether a node of the
parent frame is built on the new content array. -/
def State.child (shared : Bool) (st : State) : Except Error State :=
  match st.frames with
  | [] => .error (.typeError "parseNode.child")
  | f :: rest => .ok { st with frames := ⟨[], shared⟩ :: f :: rest }

/-- The replacement of the last item of the current frame, for a node that
is modified in place. -/
def State.setLast (node : Node) (st : State) : State :=
  match st.frames with
  | [] => st
  | f :: rest => { st with frames := { f with content := f.content.dropLast ++ [node] } :: rest }

/-! ## Text and block handlers -/

/-- JS `parseTextLiteral(data)`. -/
def parseTextLiteral (data : Str) (st : State) : Except Error State :=
  st.push (.text data)

/-- JS `parseValueExpression(expression)`. -/
def parseValueExpression (expression : Expression) (st : State) : Except Error State :=
  st.push (.dynamicText expression)

/-- JS `unexpected(source)`. -/
def unexpected {α : Type} (source : Option Str) : Except Error α :=
  .error (.parsingTemplate source)

/-- JS `parseBlockExpression(expression)`. -/
def parseBlockExpression (expression : Expression) (st : State) : Except Error State :=
  match expression.meta with
  | none => .error (.typeError "expression.meta.blockType")
  | some meta =>
    let blockType := meta.blockType
    if meta.isEnd then
      -- Block ending
      match st.toParent with
      | .error e => .error e
      | .ok st1 =>
        match st1.last with
        | .error e => .error e
        | .ok last =>
          -- last && (last.expression || (last.expressions && last.expressions[0]))
          let lastExpression : Option Expression :=
            match last with
            | none => none
            | some l =>
              match l.expression with
              | some e => some e
              | none =>
                match l.expressions with
                | some es => es.head?
                | none => none
          match lastExpression with
          | none => .error (.typeError "lastExpression.meta")
          | some le =>
            match le.meta with
            | none => .error (.typeError "lastExpression.meta.blockType")
            | some lastMeta =>
              if (blockType = some ['e', 'n', 'd'] ∧ truthy lastMeta.blockType = true) ∨
                  blockType = lastMeta.blockType then .ok st1
              else .error (.mismatchedClosingTemplateTag meta.source)
    else if blockType = some ['e', 'l', 's', 'e'] ∨
        blockType = some ['e', 'l', 's', 'e', ' ', 'i', 'f'] then
      -- Continuing block
      match st.toParent with
      | .error e => .error e
      | .ok st1 =>
        match st1.last with
        | .error e => .error e
        | .ok last =>
          match last with
          | some (.conditionalBlock expressions contents) =>
            (st1.setLast (.conditionalBlock (expressions ++ [expression]) (contents ++ [[]]))).child true
          | some (.eachBlock e content _) =>
            if blockType ≠ some ['e', 'l', 's', 'e'] then unexpected (some meta.source)
            else (st1.setLast (.eachBlock e content (some []))).child true
          | _ => unexpected (some meta.source)
    else
      -- Block start
      let block : Node :=
        if blockType = some ['i', 'f'] ∨ blockType = some ['u', 'n', 'l', 'e', 's', 's'] then
          .conditionalBlock [expression] [[]]
        else if blockType = some ['e', 'a', 'c', 'h'] then .eachBlock expression [] none
        else .block expression []
      match st.push block with
      | .error e => .error e
      | .ok st1 => st1.child true

/-! ## Views -/

/-- JS `String(value)`. -/
def jsString : JsValue → Str
  | .undefined => ['u', 'n', 'd', 'e', 'f', 'i', 'n', 'e', 'd']
  | .null => ['n', 'u', 'l', 'l']
  | .bool true => ['t', 'r', 'u', 'e']
  | .bool false => ['f', 'a', 'l', 's', 'e']
  | .num n => (toString n).toList
  | .str s => s
  | .object _ => "[object Object]".toList

/-- Truthiness of a value. -/
def jsTruthy : JsValue → Bool
  | .undefined => false
  | .null => false
  | .bool b => b
  | .num n => n ≠ 0
  | .str s => s ≠ []
  | .object _ => true

/-- The property `expression.value`, as a property key. -/
def keyOf : Expression → Str
  | .literal v _ => jsString v
  | _ => jsString .undefined

/-- The loop of `objectFromObjectExpression` over the arguments of an object
operator, two at a time: key, then value. -/
def objectFromArgs : List Expression → List (Str × Value) → List (Str × Value)
  | [], object => object
  | [k], object => setProp (keyOf k) (Value.js .undefined) object
  | k :: v :: rest, object => objectFromArgs rest (setProp (keyOf k) (Value.expression v) object)

/-- JS `objectFromObjectExpression(expression)`: the properties of the object
(none for `null`). -/
def objectFromObjectExpression (expression : Expression) : Except Error (List (Str × Value)) :=
  match expression with
  | .literal (.object fields) _ => .ok (fields.map (fun kv => (kv.1, Value.js kv.2)))
  | .literal .null _ => .ok []
  | .literal _ _ => unexpected none
  | .operator name args _ =>
    if name = ['{', '}'] then .ok (objectFromArgs args []) else unexpected none
  | _ => unexpected none

/-- JS `attributesFromExpression(expression)`. -/
def attributesFromExpression (expression : Option Expression) :
    Except Error (Option ViewAttributes) :=
  match expression with
  | none => .ok none
  | some e =>
    match objectFromObjectExpression e with
    | .error err => .error err
    | .ok object =>
      .ok (some (object.foldl (fun viewAttributes kv =>
        setProp kv.1
          (match kv.2 with
            | .expression (.literal v _) => ViewValue.value v
            | .expression value => ViewValue.parentWrapper (.dynamicText value) none
            | .js v => ViewValue.value v)
          viewAttributes) []))

/-- The `type` argument of `hooksFromAttributes`: `'Element'` or `'Component'`. -/
inductive HookType where
  | element
  | component
  deriving DecidableEq, Repr

/-- JS `new templates[type + 'On'](name, expression)`. -/
def HookType.on (type : HookType) (name : Str) (expression : Value) : Hook :=
  match type with
  | .element => .elementOn name expression
  | .component => .componentOn name expression

/-- Truthiness of an entry of an `AttributesMap`: it is an object. -/
def Attribute.truthy (_ : Attribute) : Bool := true

/-- The property `attribute.data` of an entry of an `AttributesMap`. -/
def Attribute.data : Attribute → JsValue
  | .attribute d => d
  | .dynamicAttribute _ => .undefined

/-- The property `attribute.template` of an entry of an `AttributesMap`. -/
def Attribute.template : Attribute → Dynamic
  | .attribute _ => .undefined
  | .dynamicAttribute t => t

/-- Truthiness of a value of a `ViewAttributes` object. -/
def ViewValue.truthy : ViewValue → Bool
  | .value v => jsTruthy v
  | _ => true

/-- The property `data` of a value of a `ViewAttributes` object. -/
def ViewValue.data : ViewValue → JsValue
  | .value (.object fields) => (getProp ['d', 'a', 't', 'a'] fields).getD .undefined
  | _ => .undefined

/-- JS `hooksFromAttributes(attributes, type)`: the hooks, and the attributes
after the deletions. `truthyOf` and `dataOf` read a value of the given map. -/
def hooksFromAttributes {α : Type} (truthyOf : α → Bool) (dataOf : α → JsValue) (env : Env)
    (attributes : Option (List (Str × α))) (type : HookType) :
    Except Error (Option (List Hook) × Option (List (Str × α))) :=
  match attributes with
  | none => .ok (none, none)
  | some attrs =>
    let afterAs : Except Error (List Hook × List (Str × α)) :=
      match getProp ['a', 's'] attrs with
      | none => .ok ([], attrs)
      | some a =>
        if truthyOf a then
          match dataOf a with
          | .str s => .ok ([Hook.markupAs (splitOn '.' s)], deleteProp ['a', 's'] attrs)
          | _ => .error (.typeError "attributes.as.data.split")
        else .ok ([], attrs)
    match afterAs with
    | .error e => .error e
    | .ok (hooks, attrs1) =>
      let afterOn : Except Error (List Hook × List (Str × α)) :=
        match getProp ['o', 'n'] attrs1 with
        | none => .ok (hooks, attrs1)
        | some o =>
          if truthyOf o then
            match env.createPathExpression (['{'] ++ jsString (dataOf o) ++ ['}']) with
            | .error err => .error (.grammar err)
            | .ok expression =>
              match objectFromObjectExpression expression with
              | .error e => .error e
              | .ok events =>
                .ok (hooks ++ events.map (fun kv => type.on kv.1 kv.2),
                  deleteProp ['o', 'n'] attrs1)
          else .ok (hooks, attrs1)
      match afterOn with
      | .error e => .error e
      | .ok (hooks2, attrs2) => .ok (if hooks2.isEmpty then none else some hooks2, some attrs2)

/-- A line terminator, which `.` of a regular expression does not match. -/
def isLineTerminator (c : Char) : Bool :=
  c.toNat == 10 || c.toNat == 13 || c.toNat == 8232 || c.toNat == 8233

/-- JS `dashToCamelCase(string)`: each `-` with the character after it becomes
that character in upper case. -/
def dashToCamelCase : Str → Str
  | [] => []
  | [c] => [c]
  | c :: d :: rest =>
    if c = '-' ∧ isLineTerminator d = false then d.toUpper :: dashToCamelCase rest
    else c :: dashToCamelCase (d :: rest)

/-- The property `element.attributes` of an element. -/
def Node.attributes : Node → Option AttributesMap
  | .element _ a _ _ _ => a
  | _ => none

/-- The property `element.tagName` of an element. -/
def Node.tagName : Node → Option Str
  | .element t _ _ _ _ => some t
  | _ => none

/-- The element after `delete element.attributes.name`. -/
def Node.deleteName : Node → Node
  | .element t (some a) c s h => .element t (some (deleteProp ['n', 'a', 'm', 'e'] a)) c s h
  | n => n

/-- JS `viewAttributesFromElement(element)`. -/
def viewAttributesFromElement (element : Node) : ViewAttributes :=
  (element.attributes.getD []).foldl (fun viewAttributes kv =>
    setProp (dashToCamelCase kv.1)
      (match kv.2 with
        | .dynamicAttribute (.template t) => ViewValue.parentWrapper t none
        | .dynamicAttribute (.expression e) => ViewValue.parentWrapper (.dynamicText e) (some e)
        | attr => ViewValue.value attr.data)
      viewAttributes) []

/-- JS `parseNameAttribute(element)`: the name, and the element after the deletion. -/
def parseNameAttribute (element : Node) : Except Error (JsValue × Node) :=
  match element.attributes with
  | none => .error (.typeError "element.attributes.name")
  | some attributes =>
    match getProp ['n', 'a', 'm', 'e'] attributes with
    | none => .error (.typeError "nameAttribute.data")
    | some nameAttribute =>
      let name := nameAttribute.data
      if jsTruthy name = false then .error (.requiresLiteralName (element.tagName.getD []))
      else .ok (name, element.deleteName)

/-- JS `parseAttributeElement(element, name, viewAttributes)`. -/
def parseAttributeElement (element : Node) (name : Str) (viewAttributes : ViewAttributes) :
    ViewAttributes :=
  setProp name (ViewValue.parentWrapper (.template element.content) none) viewAttributes

/-- JS `parseArrayElement(element, name, viewAttributes)`. -/
def parseArrayElement (element : Node) (name : Str) (viewAttributes : ViewAttributes) :
    Except Error ViewAttributes :=
  let item := viewAttributesFromElement element
  let withContent : Except Error ViewAttributes :=
    match getProp ['c', 'o', 'n', 't', 'e', 'n', 't'] item with
    | some _ => .ok item
    | none =>
      match element.content with
      | none => .error (.typeError "element.content.length")
      | some [] => .ok item
      | some content =>
        .ok (setProp ['c', 'o', 'n', 't', 'e', 'n', 't']
          (ViewValue.parentWrapper (.template (some content)) none) item)
  match withContent with
  | .error e => .error e
  | .ok item1 =>
    match getProp name viewAttributes with
    | some (.array items) => .ok (setProp name (ViewValue.array (items ++ [item1])) viewAttributes)
    | some v =>
      if v.truthy then .error (.typeError "viewAttribute.push")
      else .ok (setProp name (ViewValue.array [item1]) viewAttributes)
    | none => .ok (setProp name (ViewValue.array [item1]) viewAttributes)

/-- The test `map && map[name]` on a map of declared names. -/
def declares (map : Option (List Str)) (name : Str) : Bool :=
  match map with
  | none => false
  | some names => decide (name ∈ names)

/-- The loop of `parseContentAttributes` over the items of `content`. -/
def parseContentLoop (view : View) :
    List Node → List Node → ViewAttributes → Except Error (List Node × ViewAttributes)
  | [], remaining, viewAttributes => .ok (remaining, viewAttributes)
  | item :: rest, remaining, viewAttributes =>
    -- (item instanceof templates.Element) && item.tagName, as a property key
    let name : Str := item.tagName.getD ['f', 'a', 'l', 's', 'e']
    if item.tagName = some ['a', 't', 't', 'r', 'i', 'b', 'u', 't', 'e'] then
      match parseNameAttribute item with
      | .error e => .error e
      | .ok (name1, item1) =>
        parseContentLoop view rest remaining
          (parseAttributeElement item1 (jsString name1) viewAttributes)
    else if declares view.attributesMap name then
      parseContentLoop view rest remaining (parseAttributeElement item name viewAttributes)
    else if item.tagName = some ['a', 'r', 'r', 'a', 'y'] then
      match parseNameAttribute item with
      | .error e => .error e
      | .ok (name1, item1) =>
        match parseArrayElement item1 (jsString name1) viewAttributes with
        | .error e => .error e
        | .ok viewAttributes1 => parseContentLoop view rest remaining viewAttributes1
    else if declares view.arraysMap name then
      match parseArrayElement item name viewAttributes with
      | .error e => .error e
      | .ok viewAttributes1 => parseContentLoop view rest remaining viewAttributes1
    else parseContentLoop view rest (remaining ++ [item]) viewAttributes

/-- JS `parseContentAttributes(content, view, viewAttributes)`: the remaining
items, and the view attributes after the assignments. -/
def parseContentAttributes (content : Option (List Node)) (view : View)
    (viewAttributes : ViewAttributes) : Except Error (List Node × ViewAttributes) :=
  match content with
  | none => .ok ([], viewAttributes)
  | some items => parseContentLoop view items [] viewAttributes

/-- JS `finishParseViewElement(viewAttributes, remaining, viewPointer)`; the
pointer holds the object `viewAttributes`, so it is built from its final value. -/
def finishParseViewElement (viewAttributes : ViewAttributes) (remaining : List Node)
    (viewPointer : ViewAttributes → Node) (st : State) : Except Error State :=
  let viewAttributes1 :=
    if (getProp ['c', 'o', 'n', 't', 'e', 'n', 't'] viewAttributes).isNone ∧ remaining.isEmpty = false then
      setProp ['c', 'o', 'n', 't', 'e', 'n', 't']
        (ViewValue.parentWrapper (.template (some remaining)) none) viewAttributes
    else viewAttributes
  st.push (viewPointer viewAttributes1)

/-- JS `findView(name)`. -/
def findView (name : JsValue) (st : State) : Except Error View :=
  match st.frames with
  | [] => .error (.typeError "parseNode.view")
  | _ :: _ =>
    match st.view with
    | none => .error (.typeError "parseNode.view.views")
    | some ctx =>
      match ctx.find (jsString name) with
      | none => .error (.noViewFound (jsString name))
      | some view => .ok view

/-- JS `parseNamedViewElement(element, view, name)`. -/
def parseNamedViewElement (env : Env) (element : Node) (view : View) (_name : JsValue)
    (st : State) : Except Error State :=
  let viewAttributes := viewAttributesFromElement element
  match hooksFromAttributes ViewValue.truthy ViewValue.data env (some viewAttributes) .component with
  | .error e => .error e
  | .ok (hooks, viewAttributes1) =>
    match parseContentAttributes element.content view (viewAttributes1.getD []) with
    | .error e => .error e
    | .ok (remaining, viewAttributes2) =>
      finishParseViewElement viewAttributes2 remaining
        (fun va => .viewPointer (.str view.name) (some va) hooks view) st

/-- JS `parseViewElement(element)`; `none` is an `undefined` element. -/
def parseViewElement (env : Env) (element : Option Node) (st : State) : Except Error State :=
  match element with
  | none => .error (.typeError "element.attributes")
  | some element =>
    match element.attributes with
    | none => .error (.typeError "element.attributes.name")
    | some attributes =>
      match getProp ['n', 'a', 'm', 'e'] attributes with
      | none => .error .viewRequiresName
      | some nameAttribute =>
        let element1 := element.deleteName
        match nameAttribute.template with
        | .undefined =>
          let name := nameAttribute.data
          match findView name st with
          | .error e => .error e
          | .ok view => parseNamedViewElement env element1 view name st
        | template =>
          let viewAttributes := viewAttributesFromElement element1
          match hooksFromAttributes ViewValue.truthy ViewValue.data env (some viewAttributes)
              .component with
          | .error e => .error e
          | .ok (hooks, viewAttributes1) =>
            let remaining := element1.content.getD []
            finishParseViewElement (viewAttributes1.getD []) remaining
              (fun va => .dynamicViewPointer template (.attributes (some va)) (.hooks hooks)) st

/-- JS `parseViewExpression(expression)`. -/
def parseViewExpression (env : Env) (expression : Expression) (st : State) :
    Except Error State :=
  let (nameExpression, attributesExpression) : Option Expression × Option Expression :=
    match expression with
    | .sequence args _ => (args.head?, args.tail.head?)
    | e => (some e, none)
  match attributesFromExpression attributesExpression with
  | .error e => .error e
  | .ok viewAttributes =>
    match hooksFromAttributes ViewValue.truthy ViewValue.data env viewAttributes .component with
    | .error e => .error e
    | .ok (hooks, viewAttributes1) =>
      match nameExpression with
      | some (.literal name _) =>
        match findView name st with
        | .error e => .error e
        | .ok view => st.push (.viewPointer name viewAttributes1 hooks view)
      | some e =>
        st.push (.dynamicViewPointer (.expression e) (.hooks hooks) (.attributes viewAttributes1))
      | none =>
        st.push (.dynamicViewPointer .undefined (.hooks hooks) (.attributes viewAttributes1))

/-- JS `parseTextExpression(expression)`. -/
def parseTextExpression (env : Env) (expression : Expression) (st : State) :
    Except Error State :=
  match expression.meta with
  | none => .error (.typeError "expression.meta.blockType")
  | some meta =>
    if truthy meta.blockType then parseBlockExpression expression st
    else if meta.valueType = some ['v', 'i', 'e', 'w'] then parseViewExpression env expression st
    else parseValueExpression expression st

/-! ## Elements and attributes -/

/-- JS `parseElementClose(tagName)`. -/
def parseElementClose (env : Env) (tagName : Str) (st : State) : Except Error State :=
  if tagName = ['v', 'i', 'e', 'w'] then
    match st.pop with
    | .error e => .error e
    | .ok (element, st1) => parseViewElement env element st1
  else
    match st.frames with
    | [] => .error (.typeError "parseNode.view")
    | _ :: _ =>
      match st.view with
      | none => .ok st
      | some ctx =>
        match ctx.elementMap tagName with
        | none => .ok st
        | some view =>
          match st.pop with
          | .error e => .error e
          | .ok (none, _) => .error (.typeError "element.attributes")
          | .ok (some element, st1) => parseNamedViewElement env element view (.str view.name) st1

/-- JS `parseHtmlEnd(tag, tagName)`. -/
def parseHtmlEnd (env : Env) (tag tagName : Str) (st : State) : Except Error State :=
  match st.toParent with
  | .error e => .error e
  | .ok st1 =>
    match st1.last with
    | .error e => .error e
    | .ok last =>
      match last with
      | some (.element t _ _ _ _) =>
        if t = tagName then parseElementClose env tagName st1
        else .error (.mismatchedClosingHtmlTag tag)
      | _ => .error (.mismatchedClosingHtmlTag tag)

/-- The attribute built from the items that scanning an attribute value
left in the frame, `none` when there is no item. -/
def attributeFromContent (content : List Node) : Option Attribute :=
  match content with
  | [] => none
  | [item] =>
    match item with
    | .text data => some (.attribute (.str data))
    | _ =>
      match item.expression with
      | some (.literal value _) => some (.attribute value)
      | some e => some (.dynamicAttribute (.expression e))
      | none => some (.dynamicAttribute .undefined)
  | _ => some (.dynamicAttribute (.template (.template (some content))))

/-- The loop of `parseAttributes` over the attributes of a start tag. -/
def parseAttributesLoop (env : Env) :
    List (Str × JsValue) → Option AttributesMap → State → Except Error (Option AttributesMap × State)
  | [], attributesMap, st => .ok (attributesMap, st)
  | (key, value) :: rest, attributesMap, st =>
    let map := attributesMap.getD []
    match value with
    | .str (c :: cs) =>
      match st.child false with
      | .error e => .error e
      | .ok st1 =>
        match parseText env.createPathExpression (env.unescapeEntities (c :: cs))
            parseTextLiteral (parseTextExpression env) st1 with
        | .error e => .error e
        | .ok st2 =>
          match st2.frames with
          | [] => .error (.typeError "parseNode.content")
          | f :: _ =>
            match attributeFromContent f.content with
            | none => .error (.parsingAttribute key (c :: cs))
            | some attr =>
              match st2.toParent with
              | .error e => .error e
              | .ok st3 => parseAttributesLoop env rest (some (setProp key attr map)) st3
    | _ => parseAttributesLoop env rest (some (setProp key (.attribute value) map)) st

/-- JS `parseAttributes(attributes)`: the attributes map (`none` when the tag
has no attribute), and the state after the scans. -/
def parseAttributes (env : Env) (attributes : List (Str × JsValue)) (st : State) :
    Except Error (Option AttributesMap × State) :=
  parseAttributesLoop env attributes none st

/-- JS `parseHtmlStart(tag, tagName, attributes, selfClosing)`. -/
def parseHtmlStart (env : Env) (_tag tagName : Str) (attributes : List (Str × JsValue))
    (selfClosing : Bool) (st : State) : Except Error State :=
  match parseAttributes env attributes st with
  | .error e => .error e
  | .ok (attributesMap, st1) =>
    match hooksFromAttributes Attribute.truthy Attribute.data env attributesMap .element with
    | .error e => .error e
    | .ok (hooks, attributesMap1) =>
      if selfClosing ∨ env.voidElements tagName = true then
        match st1.push (.element tagName attributesMap1 none selfClosing hooks) with
        | .error e => .error e
        | .ok st2 => if selfClosing then parseElementClose env tagName st2 else .ok st2
      else
        match st1.push (.element tagName attributesMap1 (some []) selfClosing hooks) with
        | .error e => .error e
        | .ok st2 => st2.child true

/-- JS `parseHtmlText(data)`. -/
def parseHtmlText (env : Env) (data : Str) (st : State) : Except Error State :=
  parseText env.createPathExpression (env.unescapeEntities data)
    parseTextLiteral (parseTextExpression env) st

/-- JS `parseHtmlComment(tag, data)`; `conditional` is the answer of
`htmlUtil.isConditionalComment(tag)`. -/
def parseHtmlComment (conditional : Bool) (data : Str) (st : State) : Except Error State :=
  if conditional = false then .ok st
  else st.push (.comment data)

/-- JS `String.prototype.toLowerCase`, on the letters of a keyword. -/
def toLowerCase (s : Str) : Str := s.map Char.toLower

/-- JS `parseHtmlOther(tag)`; `doctypeMatch` is the match of `doctypeRegExp` on
the tag, `none` for `null`. -/
def parseHtmlOther (tag : Str) (doctypeMatch : Option Captures) (st : State) :
    Except Error State :=
  match doctypeMatch with
  | some m =>
    let name := m.get 1
    let idType := (m.get 2).map toLowerCase
    let (publicId, systemId) : Option Str × Option Str :=
      if idType = some ['p', 'u', 'b', 'l', 'i', 'c'] then (m.get 3, m.get 4)
      else if idType = some ['s', 'y', 's', 't', 'e', 'm'] then (none, m.get 3)
      else (none, none)
    st.push (.doctype name publicId systemId)
  | none => unexpected (some tag)

/-- JS `createStringTemplate(source, view)`. -/
def createStringTemplate (env : Env) (source : Str) (view : Option ViewContext) :
    Except Error Node :=
  match parseText env.createPathExpression source parseTextLiteral (parseTextExpression env)
      (State.new view) with
  | .error e => .error e
  | .ok st =>
    match st.frames with
    | [] => .error (.typeError "parseNode.content")
    | f :: _ => .ok (.template (some f.content))

/-! ## Auxiliary definitions for the proofs -/

/-- Character-by-character reading of brace matching: from depth `num`, the
offset just after the brace that brings the depth to zero. Used to reason
about `matchBraces`. -/
def scanDepth : Nat → Str → Nat → Option Nat
  | 0, _, off => some off
  | _ + 1, [], _ => none
  | num + 1, c :: cs, off =>
    if c = '}' then scanDepth num cs (off + 1)
    else if c = '{' then scanDepth (num + 2) cs (off + 1)
    else scanDepth (num + 1) cs (off + 1)

/-- A brace-balanced expression body: every prefix has at least as many `{`
as `}`, and the whole has equally many of each. -/
def Balanced (body : Str) : Prop :=
  (∀ pre, pre <+: body → pre.count '}' ≤ pre.count '{') ∧ body.count '{' = body.count '}'

/-- The callback invocations of `parseText` on `data`, in order: each literal
and each expression handed to a callback is appended to a log. -/
def scanSpans (createPathExpression : Grammar) (data : Str) : Except Error (List Span) :=
  parseText createPathExpression data
    (fun d log => .ok (log ++ [Span.literal d]))
    (fun e log => .ok (log ++ [Span.expression e])) []

/-- A grammar that accepts every path and builds an expression of the class
`other` from it; used for concrete runs. -/
def anyPath : Grammar := fun s => .ok (Expression.other s none)

/-- A piece of template text: literal text, or an expression `{{body}}`. -/
inductive Piece where
  | literal (s : Str)
  | expression (body : Str)

/-- The text of a piece. -/
def Piece.render : Piece → Str
  | .literal s => s
  | .expression body => '{' :: '{' :: (body ++ ['}', '}'])

/-- The text of a sequence of pieces. -/
def renderPieces : List Piece → Str
  | [] => []
  | p :: ps => p.render ++ renderPieces ps

/-- The pieces are the ones the scanner sees: a literal is not empty, holds
no `{{`, does not end in `{` when an expression follows and is not followed by
another literal; an expression body is brace-balanced. -/
def WellFormed : List Piece → Prop
  | [] => True
  | [.literal s] => s ≠ [] ∧ ¬ ['{', '{'] <:+: s
  | .literal _ :: .literal _ :: _ => False
  | .literal s :: .expression body :: rest =>
    s ≠ [] ∧ ¬ ['{', '{'] <:+: s ++ ['{'] ∧ Balanced body ∧ WellFormed rest
  | .expression body :: rest => Balanced body ∧ WellFormed rest

/-- The callbacks of `parseText` applied to the pieces in order; an
expression with an empty body is skipped. -/
def runPieces {σ : Type} (createPathExpression : Grammar)
    (onLiteral : Str → σ → Except Error σ) (onExpression : Expression → σ → Except Error σ) :
    List Piece → σ → Except Error σ
  | [], st => .ok st
  | .literal s :: ps, st =>
    (onLiteral s st).bind (runPieces createPathExpression onLiteral onExpression ps)
  | .expression body :: ps, st =>
    (if body ≠ [] then
        (createExpression createPathExpression body).bind (fun e => onExpression e st)
      else .ok st).bind (runPieces createPathExpression onLiteral onExpression ps)

/-- A string without white space. -/
def NoSpace (s : Str) : Prop := ∀ c ∈ s, isSpace c = false

/-- A string without braces. -/
def NoBrace (s : Str) : Prop := '{' ∉ s ∧ '}' ∉ s

instance (s : Str) : Decidable (NoSpace s) :=
  inferInstanceAs (Decidable (∀ c ∈ s, isSpace c = false))

instance (s : Str) : Decidable (NoBrace s) :=
  inferInstanceAs (Decidable ('{' ∉ s ∧ '}' ∉ s))

/-- The block-start keywords `if`, `unless`, `each` and `with`. -/
def startKeywords : List Str :=
  [['i', 'f'], ['u', 'n', 'l', 'e', 's', 's'], ['e', 'a', 'c', 'h'], ['w', 'i', 't', 'h']]

/-- The metadata of a block expression: its source, its keyword and its alias. -/
def blockMeta (source keyword : Str) (aliasName : Option Str) : ExpressionMeta :=
  ⟨source, some keyword, false, aliasName, false, none, none⟩

/-- The metadata of the end marker `{{/name}}`: `end` stands for an empty name. -/
def endMeta (name : Str) : ExpressionMeta :=
  ⟨'/' :: name, some (if name ≠ [] then name else ['e', 'n', 'd']), true, none, false, none, none⟩

/-- The node that a block start with keyword `t` builds, with the given body. -/
def blockNode (t : Str) (e : Expression) (content : List Node) : Node :=
  if t = ['i', 'f'] ∨ t = ['u', 'n', 'l', 'e', 's', 's'] then .conditionalBlock [e] [content]
  else if t = ['e', 'a', 'c', 'h'] then .eachBlock e content none
  else .block e content

/-- An environment for concrete runs: every path is accepted, no entity is
decoded, no element is void. -/
def plainEnv : Env := ⟨anyPath, id, fun _ => false⟩

/-- The targets a continuation with the given block type attaches to: a
`ConditionalBlock`, or an `EachBlock` when the block type is `else`. -/
def isContinuationTarget (blockType : Option Str) : Option Node → Bool
  | some (.conditionalBlock _ _) => true
  | some (.eachBlock _ _ _) => decide (blockType = some ['e', 'l', 's', 'e'])
  | _ => false

/-- A plain value expression: one that `parseTextExpression` hands to
`parseValueExpression`, neither a block expression nor a view expression. -/
def isPlain (e : Expression) : Bool :=
  match e.meta with
  | some m => !truthy m.blockType && decide (m.valueType ≠ some ['v', 'i', 'e', 'w'])
  | none => false

/-- The nodes of a sequence of pieces made of literals and plain value
expressions, in source order: `Text` for a literal, `DynamicText` for an
expression. `none` when a piece is of another kind. -/
def plainNodes (createPathExpression : Grammar) : List Piece → Option (List Node)
  | [] => some []
  | .literal s :: ps => (plainNodes createPathExpression ps).map (fun ns => Node.text s :: ns)
  | .expression body :: ps =>
    if body = [] then none
    else
      match createExpression createPathExpression body with
      | .ok e =>
        if isPlain e then
          (plainNodes createPathExpression ps).map (fun ns => Node.dynamicText e :: ns)
        else none
      | .error _ => none

/-- A grammar for concrete runs with views: the path `name, {a: b}` is the
sequence of the path `name` and the object `{a: b}`, a quoted path is the
literal string between the quotes, and every other path is accepted as it is. -/
def sampleGrammar : Grammar := fun s =>
  if s = "name, \x7ba: b\x7d".toList then
    .ok (.sequence [.other "name".toList none,
      .operator ['{', '}'] [.literal (.str ['a']) none, .other ['b'] none] none] none)
  else
    match s with
    | c :: rest =>
      if c = Char.ofNat 39 then .ok (.literal (.str rest.dropLast) none)
      else .ok (.other s none)
    | [] => .ok (.other s none)

/-- An environment for concrete runs with views, over `sampleGrammar`. -/
def sampleEnv : Env := ⟨sampleGrammar, id, fun _ => false⟩

/-- A view named `foo` that declares no attribute and no array. -/
def fooView : View := ⟨"foo".toList, none, none⟩

/-- A registry that holds the one view `foo`. -/
def fooRegistry : ViewContext :=
  ⟨fun name => if name = "foo".toList then some fooView else none, fun _ => none⟩

/-- A child that stays in the body of a view element: not an element, or an
element that is neither `<attribute>` nor `<array>` and whose tag is none of
the names the view declares. -/
def remainsInBody (view : View) (item : Node) : Bool :=
  match item.tagName with
  | none => true
  | some t =>
    decide (t ≠ ['a', 't', 't', 'r', 'i', 'b', 'u', 't', 'e']) &&
      decide (t ≠ ['a', 'r', 'r', 'a', 'y']) &&
      !declares view.attributesMap t && !declares view.arraysMap t

/-- A view named `bar` that declares the attribute name `false`. -/
def barView : View := ⟨"bar".toList, some ["false".toList], none⟩

/-- A registry that holds the one view `bar`. -/
def barRegistry : ViewContext :=
  ⟨fun name => if name = "bar".toList then some barView else none, fun _ => none⟩

/-- The keyword prefixes of a value expression: `view`, `unbound`, `bound`
and `unescaped`. -/
def valueKeywords : List Str :=
  [['v', 'i', 'e', 'w'], ['u', 'n', 'b', 'o', 'u', 'n', 'd'], ['b', 'o', 'u', 'n', 'd'],
    ['u', 'n', 'e', 's', 'c', 'a', 'p', 'e', 'd']]

/-- The text of a sequence of prefixes, each a keyword with the white space
after it, followed by the remainder. -/
def renderPrefixes : List (Str × Str) → Str → Str
  | [], remainder => remainder
  | (keyword, space) :: ps, remainder => keyword ++ (space ++ renderPrefixes ps remainder)

/-- The last of `bound` and `unbound` among the keywords, if any. -/
def lastBind (keywords : List Str) : Option Str :=
  (keywords.filter (fun k =>
    decide (k = ['u', 'n', 'b', 'o', 'u', 'n', 'd'] ∨ k = ['b', 'o', 'u', 'n', 'd']))).getLast?

/-- The effect of one keyword prefix on the metadata, as in the loop of
`createExpression`. -/
def applyKeyword (meta : ExpressionMeta) (kw : Str) : ExpressionMeta :=
  if kw = ['u', 'n', 'e', 's', 'c', 'a', 'p', 'e', 'd'] then { meta with unescaped := true }
  else if kw = ['u', 'n', 'b', 'o', 'u', 'n', 'd'] ∨ kw = ['b', 'o', 'u', 'n', 'd'] then
    { meta with bindType := some kw }
  else { meta with valueType := some kw }

/-! ### The parallel lists of a conditional block -/

mutual
/-- Every `ConditionalBlock` in the node, at any depth, has as many
expressions as content lists, and at least one. -/
def Node.balanced : Node → Bool
  | .template none => true
  | .template (some c) => balancedNodes c
  | .text _ => true
  | .dynamicText _ => true
  | .conditionalBlock es cs => decide (es.length = cs.length ∧ 0 < cs.length) && balancedLists cs
  | .eachBlock _ c none => balancedNodes c
  | .eachBlock _ c (some el) => balancedNodes c && balancedNodes el
  | .block _ c => balancedNodes c
  | .element _ none none _ _ => true
  | .element _ none (some c) _ _ => balancedNodes c
  | .element _ (some a) none _ _ => balancedAttributes a
  | .element _ (some a) (some c) _ _ => balancedAttributes a && balancedNodes c
  | .viewPointer _ none _ _ => true
  | .viewPointer _ (some a) _ _ => balancedViewAttributes a
  | .dynamicViewPointer t a h => t.balanced && a.balanced && h.balanced
  | .comment _ => true
  | .doctype _ _ _ => true
/-- The same for every node of a list. -/
def balancedNodes : List Node → Bool
  | [] => true
  | n :: ns => n.balanced && balancedNodes ns
/-- The same for every node of every list. -/
def balancedLists : List (List Node) → Bool
  | [] => true
  | c :: cs => balancedNodes c && balancedLists cs
/-- The same for what a dynamic attribute or pointer wraps. -/
def Dynamic.balanced : Dynamic → Bool
  | .undefined => true
  | .expression _ => true
  | .template t => t.balanced
/-- The same for an entry of an attributes map. -/
def Attribute.balanced : Attribute → Bool
  | .attribute _ => true
  | .dynamicAttribute t => t.balanced
/-- The same for every entry of an attributes map. -/
def balancedAttributes : List (Str × Attribute) → Bool
  | [] => true
  | (_, a) :: rest => a.balanced && balancedAttributes rest
/-- The same for a value of a view attributes object. -/
def ViewValue.balanced : ViewValue → Bool
  | .value _ => true
  | .parentWrapper t _ => t.balanced
  | .array items => balancedViewItems items
/-- The same for every value of a view attributes object. -/
def balancedViewAttributes : List (Str × ViewValue) → Bool
  | [] => true
  | (_, v) :: rest => v.balanced && balancedViewAttributes rest
/-- The same for every object of an array of view attributes. -/
def balancedViewItems : List (List (Str × ViewValue)) → Bool
  | [] => true
  | i :: rest => balancedViewAttributes i && balancedViewItems rest
/-- The same for an argument of a dynamic view pointer. -/
def ViewSlot.balanced : ViewSlot → Bool
  | .attributes none => true
  | .attributes (some a) => balancedViewAttributes a
  | .hooks _ => true
end

/-- Every `ConditionalBlock` held by a frame of the state, at any depth, has
as many expressions as content lists, and at least one. -/
def State.balanced (st : State) : Bool :=
  st.frames.all (fun f => balancedNodes f.content)

/-- The parser states that can arise from the root frame of a view: after
any accepted call of a handler of the HTML tokenizer (start tag, end tag, text,
comment, other) or of a handler of the text scanner (literal, expression), and
inside `parseAttributes`, after the move to the frame of an attribute value
or back to the parent frame. -/
inductive Reachable (env : Env) (view : Option ViewContext) : State → Prop where
  | root : Reachable env view (State.new view)
  | htmlStart (tag tagName : Str) (attributes : List (Str × JsValue)) (selfClosing : Bool)
      (st st1 : State) : Reachable env view st →
      parseHtmlStart env tag tagName attributes selfClosing st = .ok st1 → Reachable env view st1
  | htmlEnd (tag tagName : Str) (st st1 : State) : Reachable env view st →
      parseHtmlEnd env tag tagName st = .ok st1 → Reachable env view st1
  | htmlText (data : Str) (st st1 : State) : Reachable env view st →
      parseHtmlText env data st = .ok st1 → Reachable env view st1
  | htmlComment (conditional : Bool) (data : Str) (st st1 : State) : Reachable env view st →
      parseHtmlComment conditional data st = .ok st1 → Reachable env view st1
  | htmlOther (tag : Str) (doctypeMatch : Option Captures) (st st1 : State) :
      Reachable env view st → parseHtmlOther tag doctypeMatch st = .ok st1 →
      Reachable env view st1
  | frameOpen (st st1 : State) : Reachable env view st →
      st.child false = .ok st1 → Reachable env view st1
  | frameClose (st st1 : State) : Reachable env view st →
      st.toParent = .ok st1 → Reachable env view st1
  | textLiteral (data : Str) (st st1 : State) : Reachable env view st →
      parseTextLiteral data st = .ok st1 → Reachable env view st1
  | textExpression (expression : Expression) (st st1 : State) : Reachable env view st →
      parseTextExpression env expression st = .ok st1 → Reachable env view st1

/-- The errors of the loop of `parseText` itself: its forward-progress guard
`Error parsing template text`, and the exhausted iteration budget. -/
def Error.isLoopError : Error → Bool
  | .fuel => true
  | .parsingTemplateText _ => true
  | _ => false

/-! ## Facts about `indexOf` -/

theorem indexOf_of_drop_nil (text pat : Str) (i : Nat) (h : text.drop i = []) (hp : pat ≠ []) :
    indexOf text pat i = none := by
  simp [indexOf, h, indexOfFrom, hp]

theorem min_eq_of_drop_cons {text : Str} {i : Nat} {c : Char} {cs : Str}
    (h : text.drop i = c :: cs) : min i text.length = i := by
  have : i < text.length := by
    by_contra hlt
    rw [List.drop_of_length_le (by omega)] at h
    cases h
  omega

theorem drop_succ_of_drop_cons {text : Str} {i : Nat} {c : Char} {cs : Str}
    (h : text.drop i = c :: cs) : text.drop (i + 1) = cs := by
  have := List.drop_drop 1 i text
  rw [h] at this
  simpa [Nat.add_comm] using this.symm

theorem length_of_drop_cons {text : Str} {i : Nat} {c : Char} {cs : Str}
    (h : text.drop i = c :: cs) : i + 1 ≤ text.length := by
  by_contra hlt
  rw [List.drop_of_length_le (by omega)] at h
  cases h

/-- Searching one character from `i` looks at the character at `i` first. -/
theorem indexOf_char_step (text : Str) (x : Char) (i : Nat) (c : Char) (cs : Str)
    (h : text.drop i = c :: cs) :
    indexOf text [x] i = if c = x then some i else indexOf text [x] (i + 1) := by
  have h1 := drop_succ_of_drop_cons h
  have h2 := min_eq_of_drop_cons h
  have h3 := length_of_drop_cons h
  simp only [indexOf, h, h1, h2, indexOfFrom, Nat.min_eq_left h3]
  by_cases hc : c = x
  · simp [hc, List.isPrefixOf]
  · have : (x == c) = false := by simpa using fun h => hc h.symm
    simp [hc, List.isPrefixOf, this]

theorem indexOfFrom_ge (pat : Str) (s : Str) (off r : Nat) (h : indexOfFrom pat s off = some r) :
    off ≤ r := by
  induction s generalizing off with
  | nil =>
    simp only [indexOfFrom] at h
    split at h
    · cases h; exact Nat.le_refl _
    · cases h
  | cons c cs ih =>
    simp only [indexOfFrom] at h
    split at h
    · cases h; exact Nat.le_refl _
    · have := ih _ h
      omega

theorem indexOf_ge (text pat : Str) (i r : Nat) (hi : i ≤ text.length)
    (h : indexOf text pat i = some r) : i ≤ r := by
  have := indexOfFrom_ge pat _ _ _ h
  rwa [Nat.min_eq_left hi] at this

/-! ## `matchBraces` reads the text brace by brace -/

theorem matchBracesLoop_eq_scanDepth (text : Str) (rest : Str) :
    ∀ (i fuel num : Nat), text.drop i = rest → rest.length < fuel →
      matchBracesLoop text '{' '}' fuel num i = .ok (scanDepth num rest i) := by
  induction rest with
  | nil =>
    intro i fuel num h hf
    cases num with
    | zero => cases fuel <;> simp [matchBracesLoop, scanDepth]
    | succ n =>
      cases fuel with
      | zero => simp at hf
      | succ f =>
        simp [matchBracesLoop, scanDepth, indexOf_of_drop_nil text _ i h]
  | cons c cs ih =>
    intro i fuel num h hf
    cases num with
    | zero => cases fuel <;> simp [matchBracesLoop, scanDepth]
    | succ n =>
      cases fuel with
      | zero => simp at hf
      | succ f =>
        have h1 := drop_succ_of_drop_cons h
        have hlen := length_of_drop_cons h
        have hf1 : cs.length < f := by simpa using hf
        have hc := indexOf_char_step text '}' i c cs h
        have ho := indexOf_char_step text '{' i c cs h
        by_cases hcl : c = '}'
        · have hne : ¬ c = '{' := by rw [hcl]; decide
          rw [if_pos hcl] at hc
          rw [if_neg hne] at ho
          simp only [matchBracesLoop, hc, scanDepth, if_pos hcl]
          cases hopen : indexOf text ['{'] i with
          | none => simpa using ih (i + 1) f n h1 hf1
          | some o =>
            have hge := indexOf_ge text _ (i + 1) o hlen (ho ▸ hopen)
            have hlt : i < o := by omega
            simpa [hlt] using ih (i + 1) f n h1 hf1
        · rw [if_neg hcl] at hc
          by_cases hop : c = '{'
          · rw [if_pos hop] at ho
            simp only [matchBracesLoop, ho, scanDepth, if_neg hcl, if_pos hop]
            cases hclose : indexOf text ['}'] i with
            | none => simpa using ih (i + 1) f (n + 2) h1 hf1
            | some k =>
              have hge := indexOf_ge text _ (i + 1) k hlen (hc ▸ hclose)
              have hlt : ¬ k < i := by omega
              simpa [hlt] using ih (i + 1) f (n + 2) h1 hf1
          · rw [if_neg hop] at ho
            have hstep := ih (i + 1) (f + 1) (n + 1) h1 (by omega)
            simp only [scanDepth, if_neg hcl, if_neg hop]
            rw [← hstep]
            simp only [matchBracesLoop, hc, ho]

/-- About `matchBraces` with the braces of the source never runs out of budget, and
its result is the character-by-character reading from `i + num`. -/
theorem matchBraces_eq_scanDepth (text : Str) (num i : Nat) :
    matchBraces text num i '{' '}' = .ok (scanDepth num (text.drop (i + num)) (i + num)) := by
  unfold matchBraces
  apply matchBracesLoop_eq_scanDepth
  · rfl
  · simp
    omega

/-! ## Depth counting on balanced bodies -/

theorem scanDepth_append (body : Str) :
    ∀ (n : Nat) (tail : Str) (off : Nat),
      (∀ pre, pre <+: body → pre.count '}' < n + pre.count '{') →
      scanDepth n (body ++ tail) off
        = scanDepth (n + body.count '{' - body.count '}') tail (off + body.length) := by
  induction body with
  | nil => intro n tail off _; simp
  | cons c cs ih =>
    intro n tail off h
    have h0 := h [] (List.nil_prefix)
    have h1 := h [c] (by simp)
    have hcs := h (c :: cs) (List.prefix_refl _)
    cases n with
    | zero => simp at h0
    | succ m =>
      have hpre : ∀ pre, pre <+: cs → (c :: pre) <+: (c :: cs) := by
        intro pre hp
        exact (List.prefix_cons_inj c).2 hp
      by_cases hcl : c = '}'
      · subst hcl
        have c1 : ∀ l : Str, ('}' :: l).count '{' = l.count '{' := by
          intro l; simp [List.count_cons]
        have c2 : ∀ l : Str, ('}' :: l).count '}' = l.count '}' + 1 := by
          intro l; simp [List.count_cons]
        rw [c1, c2] at hcs h1
        have hm : 0 < m := by
          simp at h1
          omega
        have hih := ih m tail (off + 1) (by
          intro pre hp
          have := h _ (hpre pre hp)
          rw [c1, c2] at this
          omega)
        rw [c1, c2, List.length_cons]
        rw [List.cons_append]
        simp only [scanDepth, if_true]
        rw [hih]
        have e1 : m + 1 + cs.count '{' - (cs.count '}' + 1) = m + cs.count '{' - cs.count '}' := by
          omega
        have e2 : off + (cs.length + 1) = off + 1 + cs.length := by omega
        rw [e1, e2]
      · by_cases hop : c = '{'
        · subst hop
          have c1 : ∀ l : Str, ('{' :: l).count '{' = l.count '{' + 1 := by
            intro l; simp [List.count_cons]
          have c2 : ∀ l : Str, ('{' :: l).count '}' = l.count '}' := by
            intro l; simp [List.count_cons]
          rw [c1, c2] at hcs
          have hih := ih (m + 2) tail (off + 1) (by
            intro pre hp
            have := h _ (hpre pre hp)
            rw [c1, c2] at this
            omega)
          rw [c1, c2, List.length_cons]
          rw [List.cons_append]
          simp only [scanDepth, if_neg hcl, if_true]
          rw [hih]
          have e1 : m + 1 + (cs.count '{' + 1) - cs.count '}' = m + 2 + cs.count '{' - cs.count '}' := by
            omega
          have e2 : off + (cs.length + 1) = off + 1 + cs.length := by omega
          rw [e1, e2]
        · have c1 : ∀ l : Str, (c :: l).count '{' = l.count '{' := by
            intro l; simp [List.count_cons, hop]
          have c2 : ∀ l : Str, (c :: l).count '}' = l.count '}' := by
            intro l; simp [List.count_cons, hcl]
          have hih := ih (m + 1) tail (off + 1) (by
            intro pre hp
            have := h _ (hpre pre hp)
            rw [c1, c2] at this
            omega)
          rw [c1, c2, List.length_cons]
          rw [List.cons_append]
          simp only [scanDepth, if_neg hcl, if_neg hop]
          rw [hih]
          have e2 : off + (cs.length + 1) = off + 1 + cs.length := by omega
          rw [e2]

theorem scanDepth_no_close (b : Str) (h : '}' ∉ b) :
    ∀ (n off : Nat), scanDepth (n + 1) b off = none := by
  induction b with
  | nil => intro n off; simp [scanDepth]
  | cons c cs ih =>
    intro n off
    have hc : ¬ c = '}' := fun e => h (by simp [e])
    have hcs : '}' ∉ cs := fun e => h (by simp [e])
    by_cases hop : c = '{'
    · simp only [scanDepth, if_neg hc, if_pos hop]
      exact ih hcs _ _
    · simp only [scanDepth, if_neg hc, if_neg hop]
      exact ih hcs _ _

/-! ## Locating the opening delimiter -/

theorem indexOfFrom_none (pat s : Str) (hp : pat ≠ []) (h : ¬ pat <:+: s) :
    ∀ off, indexOfFrom pat s off = none := by
  induction s with
  | nil => intro off; simp [indexOfFrom, hp]
  | cons c cs ih =>
    intro off
    rw [List.infix_cons_iff] at h
    push_neg at h
    have h1 : pat.isPrefixOf (c :: cs) = false := by
      rw [Bool.eq_false_iff]
      intro hh
      exact h.1 (List.isPrefixOf_iff_prefix.1 hh)
    simp only [indexOfFrom, h1]
    exact ih h.2 _

theorem indexOf_none (text pat : Str) (hp : pat ≠ []) (h : ¬ pat <:+: text) :
    indexOf text pat 0 = none := by
  simp only [indexOf, List.drop_zero]
  exact indexOfFrom_none pat text hp h _

theorem indexOfFrom_first (a b : Str) (h : ¬ ['{', '{'] <:+: a ++ ['{']) :
    ∀ off, indexOfFrom ['{', '{'] (a ++ '{' :: '{' :: b) off = some (off + a.length) := by
  induction a with
  | nil => intro off; simp [indexOfFrom, List.isPrefixOf]
  | cons c cs ih =>
    intro off
    rw [List.cons_append, List.infix_cons_iff] at h
    push_neg at h
    have h1 : List.isPrefixOf ['{', '{'] (c :: (cs ++ '{' :: '{' :: b)) = false := by
      rw [Bool.eq_false_iff]
      intro hh
      apply h.1
      cases cs with
      | nil =>
        simp [List.isPrefixOf] at hh
        subst hh
        simp
      | cons d ds =>
        simp [List.isPrefixOf] at hh
        obtain ⟨e1, e2⟩ := hh
        subst e1
        subst e2
        exact ⟨ds ++ ['{'], by simp⟩
    rw [List.cons_append]
    simp only [indexOfFrom, h1, List.length_cons]
    rw [ih h.2]
    simp
    omega

theorem indexOf_first (a b : Str) (h : ¬ ['{', '{'] <:+: a ++ ['{']) :
    indexOf (a ++ '{' :: '{' :: b) ['{', '{'] 0 = some a.length := by
  simp only [indexOf, List.drop_zero]
  simpa using indexOfFrom_first a b h 0

/-! ## One iteration of the scanner -/

theorem scanDepth_balanced (body rest : Str) (off : Nat) (hb : Balanced body) :
    scanDepth 2 (body ++ '}' :: '}' :: rest) off = some (off + body.length + 2) := by
  rw [scanDepth_append body 2 _ off (by
    intro pre hp
    have := hb.1 pre hp
    omega)]
  have : 2 + body.count '{' - body.count '}' = 2 := by
    have := hb.2
    omega
  rw [this]
  simp [scanDepth]

/-- A text without `{{` is one literal. -/
theorem parseTextLoop_literal {σ : Type} (G : Grammar) (data : Str)
    (onLiteral : Str → σ → Except Error σ) (onExpression : Expression → σ → Except Error σ)
    (fuel : Nat) (current : Str) (last : Option Str) (st : σ)
    (hne : current ≠ []) (hlast : last ≠ some current) (hno : ¬ ['{', '{'] <:+: current) :
    parseTextLoop G data onLiteral onExpression (fuel + 1) current last st
      = onLiteral current st := by
  have hl : ¬ (some current = last) := fun e => hlast e.symm
  simp only [parseTextLoop, if_neg hne, if_neg hl, indexOf_none current _ (by simp) hno]

/-- An iteration that meets the expression `{{body}}` after the literal `a`. -/
theorem parseTextLoop_expression {σ : Type} (G : Grammar) (data : Str)
    (onLiteral : Str → σ → Except Error σ) (onExpression : Expression → σ → Except Error σ)
    (fuel : Nat) (a body rest : Str) (last : Option Str) (st : σ)
    (hlast : last ≠ some (a ++ '{' :: '{' :: (body ++ '}' :: '}' :: rest)))
    (ha : ¬ ['{', '{'] <:+: a ++ ['{']) (hb : Balanced body) :
    parseTextLoop G data onLiteral onExpression (fuel + 1)
        (a ++ '{' :: '{' :: (body ++ '}' :: '}' :: rest)) last st
      = ((if a ≠ [] then onLiteral a st else .ok st).bind (fun st1 =>
          (if body ≠ [] then (createExpression G body).bind (fun e => onExpression e st1)
            else .ok st1))).bind (fun st2 =>
          parseTextLoop G data onLiteral onExpression fuel rest
            (some (a ++ '{' :: '{' :: (body ++ '}' :: '}' :: rest))) st2) := by
  have hl : ¬ (some (a ++ '{' :: '{' :: (body ++ '}' :: '}' :: rest)) = last) :=
    fun e => hlast e.symm
  have hne : a ++ '{' :: '{' :: (body ++ '}' :: '}' :: rest) ≠ [] := by simp
  have hdrop : (a ++ '{' :: '{' :: (body ++ '}' :: '}' :: rest)).drop (a.length + 2)
      = body ++ '}' :: '}' :: rest := by
    rw [show a ++ '{' :: '{' :: (body ++ '}' :: '}' :: rest)
        = (a ++ ['{', '{']) ++ (body ++ '}' :: '}' :: rest) by simp]
    rw [List.drop_left' (by simp)]
  have hm : matchBraces (a ++ '{' :: '{' :: (body ++ '}' :: '}' :: rest)) 2 a.length '{' '}'
      = .ok (some (a.length + 2 + body.length + 2)) := by
    rw [matchBraces_eq_scanDepth, hdrop, scanDepth_balanced _ _ _ hb]
  have hs1 : slice (a ++ '{' :: '{' :: (body ++ '}' :: '}' :: rest)) 0 a.length = a := by
    simp [slice]
  have hs2 : slice (a ++ '{' :: '{' :: (body ++ '}' :: '}' :: rest)) (a.length + 2)
      (a.length + 2 + body.length + 2 - 2) = body := by
    unfold slice
    rw [show a ++ '{' :: '{' :: (body ++ '}' :: '}' :: rest)
        = (a ++ ['{', '{'] ++ body) ++ ('}' :: '}' :: rest) by simp]
    rw [List.take_left' (by simp; omega)]
    rw [List.drop_left' (by simp)]
  have hs3 : sliceFrom (a ++ '{' :: '{' :: (body ++ '}' :: '}' :: rest))
      (a.length + 2 + body.length + 2) = rest := by
    unfold sliceFrom
    rw [show a ++ '{' :: '{' :: (body ++ '}' :: '}' :: rest)
        = (a ++ ['{', '{'] ++ body ++ ['}', '}']) ++ rest by simp]
    rw [List.drop_left' (by simp; omega)]
  have hpos : (a.length > 0) ↔ a ≠ [] := by
    cases a <;> simp
  rw [parseTextLoop]
  simp only [if_neg hne, if_neg hl, indexOf_first a _ ha, hm, hs1, hs2, hs3]
  by_cases hae : a = []
  · subst hae
    by_cases hbe : body = []
    · subst hbe
      simp [Except.bind]
    · simp only [List.length_nil, gt_iff_lt, Nat.lt_irrefl, if_false, ne_eq, not_true_eq_false,
        hbe, not_false_eq_true, if_true, Except.bind]
      cases createExpression G body with
      | error e => rfl
      | ok e => simp only [Except.bind]; cases onExpression e st <;> rfl
  · have hp : a.length > 0 := hpos.2 hae
    simp only [hp, if_true, ne_eq, hae, not_false_eq_true]
    cases onLiteral a st with
    | error e => rfl
    | ok st1 =>
      by_cases hbe : body = []
      · subst hbe
        simp [Except.bind]
      · simp only [hbe, not_false_eq_true, if_true, Except.bind]
        cases createExpression G body with
        | error e => rfl
        | ok e => simp only [Except.bind]; cases onExpression e st1 <;> rfl

theorem parseTextLoop_done {σ : Type} (G : Grammar) (data : Str)
    (onLiteral : Str → σ → Except Error σ) (onExpression : Expression → σ → Except Error σ)
    (fuel : Nat) (last : Option Str) (st : σ) :
    parseTextLoop G data onLiteral onExpression (fuel + 1) [] last st = .ok st := by
  simp [parseTextLoop]

theorem except_bind_ok {ε α : Type} (x : Except ε α) : x.bind (fun a => .ok a) = x := by
  cases x <;> rfl

/-! ## The scanner: claims C1, C2, C3 -/

/-- C1. For a non-empty brace-balanced `body` (every prefix has at least as
many `{` as `}`, the whole has equally many), `parseText` on `{{body}}` is one
invocation of the expression callback on `createExpression body`, whatever the
callbacks and the state are: the literal callback is not invoked and the body
is not truncated. (When `createExpression` itself throws, that error is the
result.) -/
theorem parseText_balanced_expression {σ : Type} (G : Grammar) (body : Str)
    (onLiteral : Str → σ → Except Error σ) (onExpression : Expression → σ → Except Error σ)
    (st : σ) (hne : body ≠ [])
    (hpre : ∀ pre, pre <+: body → pre.count '}' ≤ pre.count '{')
    (hbal : body.count '{' = body.count '}') :
    parseText G (['{', '{'] ++ body ++ ['}', '}']) onLiteral onExpression st
      = (createExpression G body).bind (fun e => onExpression e st) := by
  have hb : Balanced body := ⟨hpre, hbal⟩
  have h := parseTextLoop_expression G (['{', '{'] ++ body ++ ['}', '}']) onLiteral onExpression
    (body.length + 4) [] body [] none st (by simp) (by decide) hb
  unfold parseText
  have hl : (['{', '{'] ++ body ++ ['}', '}']).length + 1 = body.length + 4 + 1 := by
    simp
  have hd : (['{', '{'] ++ body ++ ['}', '}'] : Str) = [] ++ '{' :: '{' :: (body ++ '}' :: '}' :: [])
    := by simp
  rw [hl]
  conv_lhs => arg 6; rw [hd]
  rw [h]
  simp only [ne_eq, not_true_eq_false, if_false, hne, not_false_eq_true, if_true, Except.bind]
  cases createExpression G body with
  | error e => rfl
  | ok e =>
    simp only [Except.bind]
    cases onExpression e st with
    | error e => rfl
    | ok s => simp [parseTextLoop]

/-- C1, witness: the body ` {a: {b: 1}} ` of `{{ {a: {b: 1}} }}` reaches the
expression callback whole, and no literal is reported. -/
theorem parseText_balanced_expression_witness :
    scanSpans anyPath "\x7b\x7b \x7ba: \x7bb: 1\x7d\x7d \x7d\x7d".toList
      = .ok [Span.expression (Expression.other "\x7ba: \x7bb: 1\x7d\x7d".toList
          (some ⟨"\x7ba: \x7bb: 1\x7d\x7d".toList, none, false, none, false, none, none⟩))] :=
  (parseText_balanced_expression anyPath " \x7ba: \x7bb: 1\x7d\x7d ".toList _ _ []
    (by decide)
    (fun pre hp => (by decide : ∀ p ∈ (" \x7ba: \x7bb: 1\x7d\x7d ".toList).inits,
      p.count '}' ≤ p.count '{') pre ((List.mem_inits _ _).2 hp))
    (by decide)).trans (by rfl)

/-- C2, as stated, fails on the empty string: it contains no `{{`, and the
literal callback is not invoked at all. -/
theorem parseText_empty_counterexample :
    ¬ (['{', '{'] <:+: ([] : Str)) ∧
    scanSpans anyPath [] = .ok [] ∧
    scanSpans anyPath [] ≠ .ok [Span.literal []] := by
  refine ⟨by decide, rfl, ?_⟩
  intro h
  have : scanSpans anyPath [] = .ok [] := rfl
  rw [this] at h
  cases h

/-- C2, amended. For a non-empty string without `{{`, `parseText` is one
invocation of the literal callback on the unmodified string, whatever the
callbacks and the state are; the expression callback is not invoked. -/
theorem parseText_literal_only {σ : Type} (G : Grammar) (data : Str)
    (onLiteral : Str → σ → Except Error σ) (onExpression : Expression → σ → Except Error σ)
    (st : σ) (hne : data ≠ []) (hno : ¬ ['{', '{'] <:+: data) :
    parseText G data onLiteral onExpression st = onLiteral data st := by
  unfold parseText
  exact parseTextLoop_literal G data onLiteral onExpression _ data none st hne (by simp) hno

/-- C2, witness: `a {b} c` is reported as one literal. -/
theorem parseText_literal_only_witness :
    scanSpans anyPath "a \x7bb\x7d c".toList = .ok [Span.literal "a \x7bb\x7d c".toList] :=
  parseText_literal_only anyPath "a \x7bb\x7d c".toList _ _ [] (by decide) (by decide)

/-- C3. When the text after the first `{{` of `data` holds no `}`, `parseText`
fails with `Mismatched braces in: data`, whatever the callbacks and the state
are; in particular with callbacks that throw, so no callback ran before the
failure. The first `{{` stands after `a`: no `{{` starts inside `a`. -/
theorem parseText_unclosed {σ : Type} (G : Grammar) (a b : Str)
    (onLiteral : Str → σ → Except Error σ) (onExpression : Expression → σ → Except Error σ)
    (st : σ) (hfirst : ¬ ['{', '{'] <:+: a ++ ['{']) (hclose : '}' ∉ b) :
    parseText G (a ++ ['{', '{'] ++ b) onLiteral onExpression st
      = .error (.mismatchedBraces (a ++ ['{', '{'] ++ b)) := by
  have hd : (a ++ ['{', '{'] ++ b : Str) = a ++ '{' :: '{' :: b := by simp
  have hne : a ++ '{' :: '{' :: b ≠ [] := by simp
  have hdrop : (a ++ '{' :: '{' :: b).drop (a.length + 2) = b := by
    rw [show a ++ '{' :: '{' :: b = (a ++ ['{', '{']) ++ b by simp]
    rw [List.drop_left' (by simp)]
  have hm : matchBraces (a ++ '{' :: '{' :: b) 2 a.length '{' '}' = .ok none := by
    rw [matchBraces_eq_scanDepth, hdrop, scanDepth_no_close b hclose]
  unfold parseText
  rw [hd, parseTextLoop]
  simp only [if_neg hne, indexOf_first a b hfirst, hm]
  simp

/-- C3, witness: `{{if x` fails with the lexical error, also when both
callbacks would throw an error of their own. -/
theorem parseText_unclosed_witness :
    parseText anyPath "\x7b\x7bif x".toList
        (fun _ (_ : Unit) => .error (.typeError "literal callback"))
        (fun _ (_ : Unit) => .error (.typeError "expression callback")) ()
      = .error (.mismatchedBraces "\x7b\x7bif x".toList) :=
  parseText_unclosed anyPath [] "if x".toList _ _ () (by decide) (by decide)

/-! ## The scanner on a sequence of pieces -/

theorem except_bind_assoc {ε α β γ : Type} (x : Except ε α) (f : α → Except ε β)
    (g : β → Except ε γ) : (x.bind f).bind g = x.bind (fun a => (f a).bind g) := by
  cases x <;> rfl

theorem renderPieces_expression (body : Str) (rest : List Piece) :
    renderPieces (.expression body :: rest)
      = [] ++ '{' :: '{' :: (body ++ '}' :: '}' :: renderPieces rest) := by
  simp [renderPieces, Piece.render]

theorem renderPieces_literal_expression (s body : Str) (rest : List Piece) :
    renderPieces (.literal s :: .expression body :: rest)
      = s ++ '{' :: '{' :: (body ++ '}' :: '}' :: renderPieces rest) := by
  simp [renderPieces, Piece.render]

/-- On well-formed pieces the loop of `parseText` invokes the callbacks piece
by piece, within its budget and without reaching the forward-progress guard. -/
theorem parseTextLoop_pieces {σ : Type} (G : Grammar) (data : Str)
    (onLiteral : Str → σ → Except Error σ) (onExpression : Expression → σ → Except Error σ) :
    ∀ (ps : List Piece), WellFormed ps → ∀ (fuel : Nat) (last : Option Str) (st : σ),
      (renderPieces ps).length < fuel →
      (∀ l, last = some l → (renderPieces ps).length < l.length) →
      parseTextLoop G data onLiteral onExpression fuel (renderPieces ps) last st
        = runPieces G onLiteral onExpression ps st
  | [], _, fuel, last, st, hf, _ => by
    cases fuel with
    | zero => simp at hf
    | succ f => simp [renderPieces, runPieces, parseTextLoop]
  | [.literal s], hw, fuel, last, st, hf, hl => by
    cases fuel with
    | zero => simp at hf
    | succ f =>
      have hr : renderPieces [.literal s] = s := by simp [renderPieces, Piece.render]
      rw [hr] at hl ⊢
      rw [parseTextLoop_literal G data onLiteral onExpression f s last st hw.1
        (fun e => Nat.lt_irrefl _ (hl s e)) hw.2]
      simp only [runPieces]
      cases onLiteral s st <;> rfl
  | .literal _ :: .literal _ :: _, hw, _, _, _, _, _ => by
    exact absurd hw (by simp [WellFormed])
  | .literal s :: .expression body :: rest, hw, fuel, last, st, hf, hl => by
    cases fuel with
    | zero => simp at hf
    | succ f =>
      obtain ⟨hs, hno, hb, hrest⟩ := hw
      rw [renderPieces_literal_expression] at hf hl ⊢
      rw [parseTextLoop_expression G data onLiteral onExpression f s body (renderPieces rest)
        last st (fun e => Nat.lt_irrefl _ (hl _ e)) hno hb]
      simp only [ne_eq, hs, not_false_eq_true, if_true, runPieces]
      rw [except_bind_assoc]
      congr 1
      funext st1
      congr 1
      funext st2
      exact parseTextLoop_pieces G data onLiteral onExpression rest hrest f _ st2
        (by simp at hf; omega) (by intro l e; cases e; simp; omega)
  | .expression body :: rest, hw, fuel, last, st, hf, hl => by
    cases fuel with
    | zero => simp at hf
    | succ f =>
      obtain ⟨hb, hrest⟩ := hw
      rw [renderPieces_expression] at hf hl ⊢
      rw [parseTextLoop_expression G data onLiteral onExpression f [] body (renderPieces rest)
        last st (fun e => Nat.lt_irrefl _ (hl _ e)) (by decide) hb]
      simp only [ne_eq, not_true_eq_false, if_false, runPieces]
      rw [except_bind_assoc]
      simp only [Except.bind]
      congr 1
      funext st2
      exact parseTextLoop_pieces G data onLiteral onExpression rest hrest f _ st2
        (by simp at hf; omega) (by intro l e; cases e; simp; omega)

/-- On well-formed pieces `parseText` invokes the callbacks piece by piece. -/
theorem parseText_pieces {σ : Type} (G : Grammar)
    (onLiteral : Str → σ → Except Error σ) (onExpression : Expression → σ → Except Error σ)
    (ps : List Piece) (hw : WellFormed ps) (st : σ) :
    parseText G (renderPieces ps) onLiteral onExpression st
      = runPieces G onLiteral onExpression ps st :=
  parseTextLoop_pieces G _ onLiteral onExpression ps hw _ none st (by simp) (by simp)

/-! ## The block regular expression on a keyword, a path and an alias -/

theorem manyGreedy_stop {α : Type} (c : CharClass) (s : Str) (k : Str → Option α)
    (h : ∀ x ∈ s.head?, c.test x = false) : manyGreedy c s k = k s := by
  cases s with
  | nil => rfl
  | cons x xs =>
    have := h x (by simp)
    simp [manyGreedy, this]

theorem manyGreedy_all {α : Type} (c : CharClass) (s : Str) (k : Str → Option α)
    (h : ∀ x ∈ s, c.test x = true) (hk : (k []).isSome) : manyGreedy c s k = k [] := by
  induction s with
  | nil => rfl
  | cons x xs ih =>
    have hx := h x (by simp)
    have hxs := ih (fun y hy => h y (by simp [hy]))
    simp only [manyGreedy, hx, if_true, hxs]
    cases hk0 : k [] with
    | none => simp [hk0] at hk
    | some r => rfl

theorem manyLazy_first {α : Type} (s r : Str) (k : Str → Option α)
    (hfail : ∀ u, u ≠ [] → u <:+ s → k (u ++ r) = none) (hk : (k r).isSome) :
    manyLazy .any (s ++ r) k = k r := by
  induction s with
  | nil =>
    cases r with
    | nil => rfl
    | cons x xs =>
      cases hk0 : k (x :: xs) with
      | none => simp [hk0] at hk
      | some v => simp [manyLazy, hk0]
  | cons x xs ih =>
    have h1 := hfail (x :: xs) (by simp) (List.suffix_refl _)
    have h2 := ih (fun u hu hs => hfail u hu (hs.trans (List.suffix_cons x xs)))
    rw [List.cons_append] at h1 ⊢
    simp only [manyLazy, h1, CharClass.test, if_true]
    exact h2

theorem blockTail_nil (caps : Captures) (k : Str → Captures → Option Captures) :
    blockTail.run [] caps k = k [] caps := by
  simp [blockTail, blockAlias, Re.run]

theorem blockTail_nonSpace (d : Char) (ds : Str) (caps : Captures)
    (k : Str → Captures → Option Captures) (hd : isSpace d = false) :
    blockTail.run (d :: ds) caps k = none := by
  simp [blockTail, blockAlias, Re.run, CharClass.test, hd]

theorem blockTail_alias (a : Str) (caps : Captures) (ha : a ≠ []) (hs : NoSpace a) :
    blockTail.run (' ' :: 'a' :: 's' :: ' ' :: a) caps (fun _ c => some c)
      = some ((3, a) :: caps) := by
  cases a with
  | nil => exact absurd rfl ha
  | cons x xs =>
    have hx : isSpace x = false := hs x (by simp)
    have hsp : isSpace ' ' = true := by decide
    have hna : isSpace 'a' = false := by decide
    have hall : ∀ y ∈ xs, CharClass.nonSpace.test y = true := by
      intro y hy
      simp [CharClass.test, hs y (by simp [hy])]
    simp only [blockTail, blockAlias, Re.run, CharClass.test, hsp, if_true]
    rw [manyGreedy_stop _ _ _ (by simp [CharClass.test, hna])]
    simp only [List.isPrefixOf, beq_self_eq_true, Bool.and_self, Bool.true_and, if_true,
      List.length_cons, List.length_nil, List.drop_succ_cons, List.drop_zero, Re.run,
      CharClass.test, hsp]
    rw [manyGreedy_stop _ _ _ (by simp [CharClass.test, hx])]
    simp only [Re.run, CharClass.test, hx, Bool.not_false, if_true]
    rw [manyGreedy_all _ _ _ hall (by simp)]
    simp

theorem run_seq (a b : Re) (inp : Str) (caps : Captures)
    (k : Str → Captures → Option Captures) :
    (Re.seq a b).run inp caps k = a.run inp caps (fun r c => b.run r c k) := by
  rw [Re.run]

theorem run_group (n : Nat) (a : Re) (inp : Str) (caps : Captures)
    (k : Str → Captures → Option Captures) :
    (Re.group n a).run inp caps k
      = a.run inp caps (fun r c => k r ((n, inp.take (inp.length - r.length)) :: c)) := by
  rw [Re.run]

theorem run_plus_greedy (c : CharClass) (x : Char) (xs : Str) (caps : Captures)
    (k : Str → Captures → Option Captures) (h : c.test x = true) :
    (Re.plus c true).run (x :: xs) caps k = manyGreedy c xs (fun r => k r caps) := by
  rw [Re.run, if_pos h]

theorem run_plus_lazy (c : CharClass) (x : Char) (xs : Str) (caps : Captures)
    (k : Str → Captures → Option Captures) (h : c.test x = true) :
    (Re.plus c false).run (x :: xs) caps k = manyLazy c xs (fun r => k r caps) := by
  rw [Re.run, if_pos h]

theorem run_lit (s rest : Str) (caps : Captures) (k : Str → Captures → Option Captures) :
    (Re.lit s).run (s ++ rest) caps k = k rest caps := by
  have h : s.isPrefixOf (s ++ rest) = true := List.isPrefixOf_iff_prefix.2 (List.prefix_append _ _)
  rw [Re.run, if_pos h, List.drop_left]

theorem run_lit_fail (s inp : Str) (caps : Captures) (k : Str → Captures → Option Captures)
    (h : s.isPrefixOf inp = false) : (Re.lit s).run inp caps k = none := by
  rw [Re.run, h]
  simp

theorem run_alt (a b : Re) (inp : Str) (caps : Captures)
    (k : Str → Captures → Option Captures) :
    (Re.alt a b).run inp caps k
      = match a.run inp caps k with
        | some r => some r
        | none => b.run inp caps k := by
  rw [Re.run]

theorem blockRest_path (p : Str) (caps : Captures) (hp : p ≠ []) (hs : NoSpace p) :
    blockRest.run (' ' :: p) caps (fun _ c => some c) = some ((2, p) :: caps) := by
  cases p with
  | nil => exact absurd rfl hp
  | cons x xs =>
    have hx : isSpace x = false := hs x (by simp)
    rw [blockRest, run_seq, run_plus_greedy _ _ _ _ _ (by decide),
      manyGreedy_stop _ _ _ (by simp [CharClass.test, hx]), run_seq, run_group,
      run_plus_lazy _ _ _ _ _ (by rfl)]
    have h := manyLazy_first xs []
      (fun r => blockTail.run r ((2, List.take ((x :: xs).length - r.length) (x :: xs)) :: caps)
        (fun _ c => some c))
      (by
        intro u hu hsuf
        cases u with
        | nil => exact absurd rfl hu
        | cons d ds =>
          rw [List.append_nil]
          apply blockTail_nonSpace
          exact hs d (List.mem_cons_of_mem _ (hsuf.subset (by simp))))
      (by simp [blockTail_nil])
    rw [List.append_nil] at h
    rw [h]
    simp only []
    rw [blockTail_nil]
    simp

theorem blockRest_path_alias (p a : Str) (caps : Captures) (hp : p ≠ []) (hs : NoSpace p)
    (ha : a ≠ []) (has : NoSpace a) :
    blockRest.run (' ' :: (p ++ ' ' :: 'a' :: 's' :: ' ' :: a)) caps (fun _ c => some c)
      = some ((3, a) :: (2, p) :: caps) := by
  cases p with
  | nil => exact absurd rfl hp
  | cons x xs =>
    have hx : isSpace x = false := hs x (by simp)
    rw [List.cons_append, blockRest, run_seq, run_plus_greedy _ _ _ _ _ (by decide),
      manyGreedy_stop _ _ _ (by simp [CharClass.test, hx]), run_seq, run_group,
      run_plus_lazy _ _ _ _ _ (by rfl)]
    have hlen : (x :: (xs ++ ' ' :: 'a' :: 's' :: ' ' :: a)).length
        - (' ' :: 'a' :: 's' :: ' ' :: a).length = (x :: xs).length := by
      simp
      omega
    have h := manyLazy_first xs (' ' :: 'a' :: 's' :: ' ' :: a)
      (fun r => blockTail.run r
        ((2, List.take ((x :: (xs ++ ' ' :: 'a' :: 's' :: ' ' :: a)).length - r.length)
          (x :: (xs ++ ' ' :: 'a' :: 's' :: ' ' :: a))) :: caps)
        (fun _ c => some c))
      (by
        intro u hu hsuf
        cases u with
        | nil => exact absurd rfl hu
        | cons d ds =>
          rw [List.cons_append]
          apply blockTail_nonSpace
          exact hs d (List.mem_cons_of_mem _ (hsuf.subset (by simp))))
      (by simp [blockTail_alias a _ ha has])
    rw [h]
    simp only []
    rw [blockTail_alias a _ ha has, hlen]
    rw [show x :: (xs ++ ' ' :: 'a' :: 's' :: ' ' :: a) = (x :: xs) ++ ' ' :: 'a' :: 's' :: ' ' :: a
      by simp, List.take_left]

theorem blockKeyword_run (t rest : Str) (caps : Captures)
    (k : Str → Captures → Option Captures) (ht : t ∈ startKeywords)
    (hk : (k rest caps).isSome) :
    blockKeyword.run (t ++ rest) caps k = k rest caps := by
  obtain ⟨v, hv⟩ := Option.isSome_iff_exists.1 hk
  simp only [startKeywords, List.mem_cons, List.mem_singleton, List.not_mem_nil, or_false] at ht
  rcases ht with h | h | h | h <;> subst h
  · rw [blockKeyword, run_alt, run_lit, hv]
  · rw [blockKeyword, run_alt, run_lit_fail _ _ _ _ (by simp [List.isPrefixOf])]
    simp only []
    rw [run_alt, run_lit, hv]
  · rw [blockKeyword, run_alt, run_lit_fail _ _ _ _ (by simp [List.isPrefixOf])]
    simp only []
    rw [run_alt, run_lit_fail _ _ _ _ (by simp [List.isPrefixOf])]
    simp only []
    rw [run_alt, run_lit_fail _ _ _ _ (by simp [List.isPrefixOf])]
    simp only []
    rw [run_alt, run_lit, hv]
  · rw [blockKeyword, run_alt, run_lit_fail _ _ _ _ (by simp [List.isPrefixOf])]
    simp only []
    rw [run_alt, run_lit_fail _ _ _ _ (by simp [List.isPrefixOf])]
    simp only []
    rw [run_alt, run_lit_fail _ _ _ _ (by simp [List.isPrefixOf])]
    simp only []
    rw [run_alt, run_lit_fail _ _ _ _ (by simp [List.isPrefixOf])]
    simp only []
    rw [run_lit]

theorem blockRegExp_path (t p : Str) (ht : t ∈ startKeywords) (hp : p ≠ []) (hs : NoSpace p) :
    blockRegExp.exec (t ++ ' ' :: p) = some [(2, p), (1, t)] := by
  have hlen : (t ++ ' ' :: p).length - (' ' :: p).length = t.length := by simp
  rw [Re.exec, blockRegExp, run_seq, run_group, blockKeyword_run t _ _ _ ht]
  · rw [blockRest_path p _ hp hs, hlen, List.take_left]
  · rw [blockRest_path p _ hp hs]
    rfl

theorem blockRegExp_path_alias (t p a : Str) (ht : t ∈ startKeywords) (hp : p ≠ [])
    (hs : NoSpace p) (ha : a ≠ []) (has : NoSpace a) :
    blockRegExp.exec (t ++ ' ' :: (p ++ ' ' :: 'a' :: 's' :: ' ' :: a))
      = some [(3, a), (2, p), (1, t)] := by
  have hlen : (t ++ ' ' :: (p ++ ' ' :: 'a' :: 's' :: ' ' :: a)).length
      - (' ' :: (p ++ ' ' :: 'a' :: 's' :: ' ' :: a)).length = t.length := by simp
  rw [Re.exec, blockRegExp, run_seq, run_group, blockKeyword_run t _ _ _ ht]
  · rw [blockRest_path_alias p a _ hp hs ha has, hlen, List.take_left]
  · rw [blockRest_path_alias p a _ hp hs ha has]
    rfl

/-! ## `trim` and `createExpression` on block expressions -/

theorem trim_eq_self (s : Str) (hh : ∀ c ∈ s.head?, isSpace c = false)
    (hl : ∀ c ∈ s.getLast?, isSpace c = false) : trim s = s := by
  cases s with
  | nil => rfl
  | cons c cs =>
    have hc := hh c (by simp)
    obtain ⟨l, hlast⟩ : ∃ l, (c :: cs).getLast? = some l := by
      cases h : (c :: cs).getLast? with
      | none => simp at h
      | some l => exact ⟨l, rfl⟩
    have hl1 := hl l (by simp [hlast])
    have hd : (c :: cs).dropLast ++ [l] = c :: cs := List.dropLast_append_getLast? l hlast
    unfold trim
    rw [List.dropWhile_cons_of_neg (by simp [hc])]
    conv_lhs => rw [← hd]
    rw [List.reverse_append, List.reverse_singleton, List.singleton_append,
      List.dropWhile_cons_of_neg (by simp [hl1]), List.reverse_cons, List.reverse_reverse]
    exact hd

theorem startKeywords_head (t : Str) (ht : t ∈ startKeywords) :
    ∃ c cs, t = c :: cs ∧ isSpace c = false := by
  simp only [startKeywords, List.mem_cons, List.mem_singleton, List.not_mem_nil, or_false] at ht
  rcases ht with h | h | h | h <;> subst h <;> exact ⟨_, _, rfl, by decide⟩

theorem getLast?_append_ne_nil (x s : Str) (hs : s ≠ []) :
    (x ++ s).getLast? = s.getLast? := by
  rw [List.getLast?_append]
  cases h : s.getLast? with
  | none => exact absurd (List.getLast?_eq_none_iff.1 h) hs
  | some l => rfl

theorem NoSpace_getLast (s : Str) (hs : NoSpace s) : ∀ c ∈ s.getLast?, isSpace c = false := by
  intro c hc
  exact hs c (List.mem_of_getLast?_eq_some hc)

theorem trim_keyword_path (t p : Str) (ht : t ∈ startKeywords) (hp : p ≠ []) (hs : NoSpace p) :
    trim (t ++ ' ' :: p) = t ++ ' ' :: p := by
  obtain ⟨c, cs, rfl, hc⟩ := startKeywords_head t ht
  apply trim_eq_self
  · intro x hx
    simp at hx
    rw [← hx]
    exact hc
  · rw [getLast?_append_ne_nil _ _ (by simp), show ' ' :: p = [' '] ++ p by rfl,
      getLast?_append_ne_nil _ _ hp]
    exact NoSpace_getLast p hs

theorem classify_path (t p : Str) (ht : t ∈ startKeywords) (hp : p ≠ []) (hs : NoSpace p) :
    classify (t ++ ' ' :: p) = .ok (some p, blockMeta (t ++ ' ' :: p) t none) := by
  rw [classify, blockRegExp_path t p ht hp hs]
  rfl

theorem classify_path_alias (t p a : Str) (ht : t ∈ startKeywords) (hp : p ≠ [])
    (hs : NoSpace p) (ha : a ≠ []) (has : NoSpace a) :
    classify (t ++ ' ' :: (p ++ ' ' :: 'a' :: 's' :: ' ' :: a))
      = .ok (some p, blockMeta (t ++ ' ' :: (p ++ ' ' :: 'a' :: 's' :: ' ' :: a)) t (some a)) := by
  rw [classify, blockRegExp_path_alias t p a ht hp hs ha has]
  rfl

/-- About `createExpression` on `keyword path`: the expression the grammar builds
for the path, with the keyword as block type. -/
theorem createExpression_path (G : Grammar) (t p : Str) (e : Expression)
    (ht : t ∈ startKeywords) (hp : p ≠ []) (hs : NoSpace p) (hG : G p = .ok e) :
    createExpression G (t ++ ' ' :: p)
      = .ok (e.setMeta (blockMeta (t ++ ' ' :: p) t none)) := by
  cases p with
  | nil => exact absurd rfl hp
  | cons x xs =>
    rw [createExpression, trim_keyword_path t _ ht hp hs]
    simp only [classify_path t _ ht hp hs, truthy, if_true, Option.getD_some, hG]

/-- About `createExpression` on `keyword path as alias`. -/
theorem createExpression_path_alias (G : Grammar) (t p a : Str) (e : Expression)
    (ht : t ∈ startKeywords) (hp : p ≠ []) (hs : NoSpace p) (ha : a ≠ []) (has : NoSpace a)
    (hG : G p = .ok e) :
    createExpression G (t ++ ' ' :: (p ++ ' ' :: 'a' :: 's' :: ' ' :: a))
      = .ok (e.setMeta
          (blockMeta (t ++ ' ' :: (p ++ ' ' :: 'a' :: 's' :: ' ' :: a)) t (some a))) := by
  have htrim : trim (t ++ ' ' :: (p ++ ' ' :: 'a' :: 's' :: ' ' :: a))
      = t ++ ' ' :: (p ++ ' ' :: 'a' :: 's' :: ' ' :: a) := by
    obtain ⟨c, cs, rfl, hc⟩ := startKeywords_head t ht
    apply trim_eq_self
    · intro x hx
      simp at hx
      rw [← hx]
      exact hc
    · rw [getLast?_append_ne_nil _ _ (by simp),
        show ' ' :: (p ++ ' ' :: 'a' :: 's' :: ' ' :: a)
          = (' ' :: (p ++ [' ', 'a', 's', ' '])) ++ a by simp,
        getLast?_append_ne_nil _ _ ha]
      exact NoSpace_getLast a has
  cases p with
  | nil => exact absurd rfl hp
  | cons x xs =>
    rw [createExpression, htrim]
    simp only [classify_path_alias t _ a ht hp hs ha has, truthy, if_true, Option.getD_some, hG]

theorem blockRegExp_slash (u : Str) : blockRegExp.exec ('/' :: u) = none := by
  rw [Re.exec, blockRegExp, run_seq, run_group, blockKeyword]
  simp [run_alt, Re.run, List.isPrefixOf]

/-- About `createExpression` on the end marker `/name`. -/
theorem createExpression_end (G : Grammar) (u : Str) (hs : NoSpace u) :
    createExpression G ('/' :: u) = .ok (Expression.blank (some (endMeta u))) := by
  have htrim : trim ('/' :: u) = '/' :: u := by
    apply trim_eq_self
    · intro x hx
      simp at hx
      rw [← hx]
      decide
    · cases u with
      | nil =>
        intro c hc
        simp at hc
        rw [← hc]
        decide
      | cons y ys =>
        rw [show '/' :: y :: ys = ['/'] ++ (y :: ys) by rfl, getLast?_append_ne_nil _ _ (by simp)]
        exact NoSpace_getLast _ hs
  have htu : trim u = u := by
    apply trim_eq_self
    · intro c hc
      exact hs c (List.mem_of_mem_head? hc)
    · exact NoSpace_getLast _ hs
  rw [createExpression, htrim]
  simp only [classify, blockRegExp_slash, charAt, sliceFrom, List.drop_zero, List.take_succ_cons,
    List.take_zero, List.drop_succ_cons, htu, ExpressionMeta.new]
  simp [truthy, endMeta]

theorem createExpression_else (G : Grammar) :
    createExpression G ['e', 'l', 's', 'e']
      = .ok (Expression.blank (some (blockMeta ['e', 'l', 's', 'e'] ['e', 'l', 's', 'e'] none))) := by
  rfl

/-! ## Blocks in string templates: claims C4 to C8 -/

@[simp] theorem meta_setMeta (e : Expression) (m : ExpressionMeta) :
    (e.setMeta m).meta = some m := by
  cases e <;> rfl

@[simp] theorem meta_blank (m : Option ExpressionMeta) : (Expression.blank m).meta = m := rfl

theorem balanced_of_noBrace (s : Str) (h : NoBrace s) : Balanced s := by
  have hc : ∀ pre, pre <+: s → pre.count '}' = 0 := by
    intro pre hp
    exact List.count_eq_zero.2 (fun hm => h.2 (hp.subset hm))
  constructor
  · intro pre hp
    rw [hc pre hp]
    exact Nat.zero_le _
  · rw [hc s (List.prefix_refl _), List.count_eq_zero.2 h.1]

theorem noBrace_keyword_path (t p : Str) (ht : t ∈ startKeywords) (hp : NoBrace p) :
    NoBrace (t ++ ' ' :: p) := by
  simp only [startKeywords, List.mem_cons, List.mem_singleton, List.not_mem_nil, or_false] at ht
  obtain ⟨h1, h2⟩ := hp
  rcases ht with h | h | h | h <;> subst h <;> constructor <;> simp [h1, h2]

/-- The text `{{if p}}A{{else}}B{{/if}}`. -/
theorem conditional_text (p A B : Str) :
    ['{', '{', 'i', 'f', ' '] ++ p ++ ['}', '}'] ++ A ++ ['{', '{', 'e', 'l', 's', 'e', '}', '}']
        ++ B ++ ['{', '{', '/', 'i', 'f', '}', '}']
      = renderPieces [.expression (['i', 'f'] ++ ' ' :: p), .literal A,
          .expression ['e', 'l', 's', 'e'], .literal B, .expression ('/' :: ['i', 'f'])] := by
  simp [renderPieces, Piece.render]

/-- C4, as stated, fails when `A` ends in `{`: with `A` the string `{`, the
scanner takes `{{{else}}` from its first two braces and the parse ends in the
lexical error. -/
theorem conditional_counterexample :
    createStringTemplate plainEnv
        "\x7b\x7bif x\x7d\x7d\x7b\x7b\x7belse\x7d\x7dB\x7b\x7b/if\x7d\x7d".toList none
      = .error (.mismatchedBraces
          "\x7b\x7bif x\x7d\x7d\x7b\x7b\x7belse\x7d\x7dB\x7b\x7b/if\x7d\x7d".toList) := by
  rfl

/-- C4, amended. For a non-empty path `p` without white space or braces that
the grammar accepts, and non-empty `A` and `B` that hold no `{{` and do not
end in `{`, `createStringTemplate` on `{{if p}}A{{else}}B{{/if}}` returns a
template whose content is one `ConditionalBlock`: its expressions are the
`if` expression of `p` and the blank (path-less) expression of `else`, its
content lists are `[Text A]` and `[Text B]`. -/
theorem createStringTemplate_conditional (env : Env) (view : Option ViewContext)
    (p A B : Str) (e : Expression)
    (hp : p ≠ []) (hps : NoSpace p) (hpb : NoBrace p) (hG : env.createPathExpression p = .ok e)
    (hA : A ≠ []) (hA2 : ¬ ['{', '{'] <:+: A ++ ['{'])
    (hB : B ≠ []) (hB2 : ¬ ['{', '{'] <:+: B ++ ['{']) :
    createStringTemplate env
        (['{', '{', 'i', 'f', ' '] ++ p ++ ['}', '}'] ++ A
          ++ ['{', '{', 'e', 'l', 's', 'e', '}', '}'] ++ B
          ++ ['{', '{', '/', 'i', 'f', '}', '}']) view
      = .ok (.template (some [.conditionalBlock
          [e.setMeta (blockMeta (['i', 'f', ' '] ++ p) ['i', 'f'] none),
           .blank (some (blockMeta ['e', 'l', 's', 'e'] ['e', 'l', 's', 'e'] none))]
          [[.text A], [.text B]]])) := by
  have hw : WellFormed [.expression (['i', 'f'] ++ ' ' :: p), .literal A,
      .expression ['e', 'l', 's', 'e'], .literal B, .expression ('/' :: ['i', 'f'])] :=
    ⟨balanced_of_noBrace _ (noBrace_keyword_path _ p (by decide) hpb), hA, hA2,
      balanced_of_noBrace _ (by decide), hB, hB2, balanced_of_noBrace _ (by decide), trivial⟩
  have h1 := createExpression_path env.createPathExpression ['i', 'f'] p e (by decide) hp hps hG
  have h2 := createExpression_else env.createPathExpression
  have h3 := createExpression_end env.createPathExpression ['i', 'f'] (by decide)
  rw [createStringTemplate, conditional_text, parseText_pieces _ _ _ _ hw]
  simp only [runPieces, h1, h2, h3]
  simp [Except.bind, parseTextLiteral, parseTextExpression, parseBlockExpression, State.new,
    State.push, State.child, State.toParent, State.last, State.setLast, Node.withShared,
    Node.expression, Node.expressions, truthy, blockMeta, endMeta, unexpected]

/-- C4, witness: `{{if x}}A{{else}}B{{/if}}`. -/
theorem createStringTemplate_conditional_witness :
    createStringTemplate plainEnv
        "\x7b\x7bif x\x7d\x7dA\x7b\x7belse\x7d\x7dB\x7b\x7b/if\x7d\x7d".toList none
      = .ok (.template (some [.conditionalBlock
          [.other ['x'] (some (blockMeta "if x".toList "if".toList none)),
           .blank (some (blockMeta "else".toList "else".toList none))]
          [[.text ['A']], [.text ['B']]]])) :=
  createStringTemplate_conditional plainEnv none ['x'] ['A'] ['B'] (.other ['x'] none)
    (by decide) (by decide) (by decide) rfl (by decide) (by decide) (by decide) (by decide)

/-- The text `{{each p as a}}X{{else}}Y{{/each}}`. -/
theorem each_text (p a X Y : Str) :
    ['{', '{', 'e', 'a', 'c', 'h', ' '] ++ p ++ [' ', 'a', 's', ' '] ++ a ++ ['}', '}'] ++ X
        ++ ['{', '{', 'e', 'l', 's', 'e', '}', '}'] ++ Y
        ++ ['{', '{', '/', 'e', 'a', 'c', 'h', '}', '}']
      = renderPieces [.expression (['e', 'a', 'c', 'h'] ++ ' ' :: (p ++ ' ' :: 'a' :: 's' :: ' ' :: a)),
          .literal X, .expression ['e', 'l', 's', 'e'], .literal Y,
          .expression ('/' :: ['e', 'a', 'c', 'h'])] := by
  simp [renderPieces, Piece.render]

/-- C5, as stated, fails when `X` ends in `{`: with `X` the string `{`, the
scanner takes `{{{else}}` from its first two braces and the parse ends in the
lexical error. -/
theorem each_counterexample :
    createStringTemplate plainEnv
        "\x7b\x7beach items as #item\x7d\x7d\x7b\x7b\x7belse\x7d\x7dY\x7b\x7b/each\x7d\x7d".toList
        none
      = .error (.mismatchedBraces
        "\x7b\x7beach items as #item\x7d\x7d\x7b\x7b\x7belse\x7d\x7dY\x7b\x7b/each\x7d\x7d".toList)
    := by
  rfl

/-- C5, amended. For a non-empty path `p` that the grammar accepts and a
non-empty alias `a`, both without white space or braces, and non-empty `X`
and `Y` that hold no `{{` and do not end in `{`, `createStringTemplate` on
`{{each p as a}}X{{else}}Y{{/each}}` returns a template whose content is one
`EachBlock`: its expression is the one of `p` with the alias `a`, its content
is `[Text X]` and its `elseContent` is `[Text Y]`. -/
theorem createStringTemplate_each (env : Env) (view : Option ViewContext)
    (p a X Y : Str) (e : Expression)
    (hp : p ≠ []) (hps : NoSpace p) (hpb : NoBrace p) (hG : env.createPathExpression p = .ok e)
    (ha : a ≠ []) (has : NoSpace a) (hab : NoBrace a)
    (hX : X ≠ []) (hX2 : ¬ ['{', '{'] <:+: X ++ ['{'])
    (hY : Y ≠ []) (hY2 : ¬ ['{', '{'] <:+: Y ++ ['{']) :
    createStringTemplate env
        (['{', '{', 'e', 'a', 'c', 'h', ' '] ++ p ++ [' ', 'a', 's', ' '] ++ a ++ ['}', '}'] ++ X
          ++ ['{', '{', 'e', 'l', 's', 'e', '}', '}'] ++ Y
          ++ ['{', '{', '/', 'e', 'a', 'c', 'h', '}', '}']) view
      = .ok (.template (some [.eachBlock
          (e.setMeta (blockMeta (['e', 'a', 'c', 'h', ' '] ++ p ++ [' ', 'a', 's', ' '] ++ a)
            ['e', 'a', 'c', 'h'] (some a)))
          [.text X] (some [.text Y])])) := by
  have hnb : NoBrace (['e', 'a', 'c', 'h'] ++ ' ' :: (p ++ ' ' :: 'a' :: 's' :: ' ' :: a)) := by
    obtain ⟨h1, h2⟩ := hpb
    obtain ⟨h3, h4⟩ := hab
    constructor <;> simp [h1, h2, h3, h4]
  have hw : WellFormed [.expression (['e', 'a', 'c', 'h'] ++ ' ' :: (p ++ ' ' :: 'a' :: 's' :: ' ' :: a)),
      .literal X, .expression ['e', 'l', 's', 'e'], .literal Y,
      .expression ('/' :: ['e', 'a', 'c', 'h'])] :=
    ⟨balanced_of_noBrace _ hnb, hX, hX2, balanced_of_noBrace _ (by decide), hY, hY2,
      balanced_of_noBrace _ (by decide), trivial⟩
  have h1 := createExpression_path_alias env.createPathExpression ['e', 'a', 'c', 'h'] p a e
    (by decide) hp hps ha has hG
  have h2 := createExpression_else env.createPathExpression
  have h3 := createExpression_end env.createPathExpression ['e', 'a', 'c', 'h'] (by decide)
  rw [createStringTemplate, each_text, parseText_pieces _ _ _ _ hw]
  simp only [runPieces, h1, h2, h3]
  simp [Except.bind, parseTextLiteral, parseTextExpression, parseBlockExpression, State.new,
    State.push, State.child, State.toParent, State.last, State.setLast, Node.withShared,
    Node.expression, Node.expressions, truthy, blockMeta, endMeta, unexpected]

/-- C5, witness: `{{each items as #item}}X{{else}}Y{{/each}}`. -/
theorem createStringTemplate_each_witness :
    createStringTemplate plainEnv
        "\x7b\x7beach items as #item\x7d\x7dX\x7b\x7belse\x7d\x7dY\x7b\x7b/each\x7d\x7d".toList none
      = .ok (.template (some [.eachBlock
          (.other "items".toList
            (some (blockMeta "each items as #item".toList "each".toList (some "#item".toList))))
          [.text ['X']] (some [.text ['Y']])])) :=
  createStringTemplate_each plainEnv none "items".toList "#item".toList ['X'] ['Y']
    (.other "items".toList none)
    (by decide) (by decide) (by decide) rfl (by decide) (by decide) (by decide)
    (by decide) (by decide) (by decide) (by decide)

/-- The text `{{t p}}A{{/u}}`. -/
theorem block_text (t p u : Str) :
    ['{', '{'] ++ t ++ [' '] ++ p ++ ['}', '}'] ++ ['A'] ++ ['{', '{', '/'] ++ u ++ ['}', '}']
      = renderPieces [.expression (t ++ ' ' :: p), .literal ['A'], .expression ('/' :: u)] := by
  simp [renderPieces, Piece.render]

/-- C6. For a block-start keyword `t`, an accepted path `p` (not empty, no
white space, no braces) and an end-marker name `u` (no white space, no braces),
`createStringTemplate` on `{{t p}}A{{/u}}` returns the block with body
`[Text A]` when `u` is `t`, is empty or is `end`, and fails with `Mismatched
closing template tag: /u` for every other `u`. -/
theorem createStringTemplate_block_end (env : Env) (view : Option ViewContext)
    (t p u : Str) (e : Expression) (ht : t ∈ startKeywords)
    (hp : p ≠ []) (hps : NoSpace p) (hpb : NoBrace p) (hG : env.createPathExpression p = .ok e)
    (hus : NoSpace u) (hub : NoBrace u) :
    createStringTemplate env
        (['{', '{'] ++ t ++ [' '] ++ p ++ ['}', '}'] ++ ['A'] ++ ['{', '{', '/'] ++ u ++ ['}', '}'])
        view
      = if u = t ∨ u = [] ∨ u = ['e', 'n', 'd'] then
          .ok (.template (some [blockNode t (e.setMeta (blockMeta (t ++ ' ' :: p) t none))
            [.text ['A']]]))
        else .error (.mismatchedClosingTemplateTag ('/' :: u)) := by
  have hnu : NoBrace ('/' :: u) := by
    obtain ⟨h1, h2⟩ := hub
    constructor <;> simp [h1, h2]
  have hw : WellFormed [.expression (t ++ ' ' :: p), .literal ['A'], .expression ('/' :: u)] :=
    ⟨balanced_of_noBrace _ (noBrace_keyword_path t p ht hpb), by decide, by decide,
      balanced_of_noBrace _ hnu, trivial⟩
  have h1 := createExpression_path env.createPathExpression t p e ht hp hps hG
  have h3 := createExpression_end env.createPathExpression u hus
  rw [createStringTemplate, block_text, parseText_pieces _ _ _ _ hw]
  simp only [runPieces, h1, h3]
  simp only [startKeywords, List.mem_cons, List.mem_singleton, List.not_mem_nil, or_false] at ht
  by_cases hu : u = []
  · subst hu
    rcases ht with h | h | h | h <;> subst h <;>
      simp [Except.bind, parseTextLiteral, parseTextExpression, parseBlockExpression, State.new,
        State.push, State.child, State.toParent, State.last, State.setLast, Node.withShared,
        Node.expression, Node.expressions, truthy, blockMeta, endMeta, unexpected, blockNode]
  · by_cases hok : u = t ∨ u = [] ∨ u = ['e', 'n', 'd']
    · rw [if_pos hok]
      rcases hok with h0 | h0 | h0
      · subst h0
        rcases ht with h | h | h | h <;> subst h <;>
          simp [Except.bind, parseTextLiteral, parseTextExpression, parseBlockExpression,
            State.new, State.push, State.child, State.toParent, State.last, State.setLast,
            Node.withShared, Node.expression, Node.expressions, truthy, blockMeta, endMeta,
            unexpected, blockNode]
      · exact absurd h0 hu
      · subst h0
        rcases ht with h | h | h | h <;> subst h <;>
          simp [Except.bind, parseTextLiteral, parseTextExpression, parseBlockExpression,
            State.new, State.push, State.child, State.toParent, State.last, State.setLast,
            Node.withShared, Node.expression, Node.expressions, truthy, blockMeta, endMeta,
            unexpected, blockNode]
    · rw [if_neg hok]
      push_neg at hok
      obtain ⟨n1, _, n3⟩ := hok
      obtain ⟨c, cs, rfl⟩ := List.exists_cons_of_ne_nil hu
      rcases ht with h | h | h | h <;> subst h <;>
        simp [Except.bind, parseTextLiteral, parseTextExpression, parseBlockExpression,
          State.new, State.push, State.child, State.toParent, State.last, State.setLast,
          Node.withShared, Node.expression, Node.expressions, truthy, blockMeta, endMeta,
          unexpected, blockNode, hu, n1, n3]

/-- C6, witness: `{{if x}}A{{/each}}` fails with the mismatch error. -/
theorem createStringTemplate_block_end_witness :
    createStringTemplate plainEnv "\x7b\x7bif x\x7d\x7dA\x7b\x7b/each\x7d\x7d".toList none
      = .error (.mismatchedClosingTemplateTag "/each".toList) :=
  createStringTemplate_block_end plainEnv none "if".toList ['x'] "each".toList (.other ['x'] none)
    (by decide) (by decide) (by decide) (by decide) rfl (by decide) (by decide)

/-- C7. A continuation expression (`else` or `else if`) is accepted exactly
when the parser can move to the parent frame and the last item there is a
`ConditionalBlock`, or an `EachBlock` for a bare `else`; with any other last
item (none, a `Block`, an `EachBlock` for `else if`) it fails with `Error
parsing template: source`. It is accepted in no other state. -/
theorem parseBlockExpression_continuation (expression : Expression) (meta : ExpressionMeta)
    (st : State) (hm : expression.meta = some meta) (hend : meta.isEnd = false)
    (hbt : meta.blockType = some ['e', 'l', 's', 'e'] ∨
      meta.blockType = some ['e', 'l', 's', 'e', ' ', 'i', 'f']) :
    (∀ st1 last, st.toParent = .ok st1 → st1.last = .ok last →
      (isContinuationTarget meta.blockType last = true →
        ∃ st2, parseBlockExpression expression st = .ok st2) ∧
      (isContinuationTarget meta.blockType last = false →
        parseBlockExpression expression st = .error (.parsingTemplate (some meta.source)))) ∧
    (∀ st2, parseBlockExpression expression st = .ok st2 →
      ∃ st1 last, st.toParent = .ok st1 ∧ st1.last = .ok last ∧
        isContinuationTarget meta.blockType last = true) := by
  have key : ∀ st1 last, st.toParent = .ok st1 → st1.last = .ok last →
      (isContinuationTarget meta.blockType last = true →
        ∃ st2, parseBlockExpression expression st = .ok st2) ∧
      (isContinuationTarget meta.blockType last = false →
        parseBlockExpression expression st = .error (.parsingTemplate (some meta.source))) := by
    intro st1 last h1 h2
    have hframes : ∃ f rest, st1.frames = f :: rest := by
      cases hf : st1.frames with
      | nil => simp [State.last, hf] at h2
      | cons f rest => exact ⟨f, rest, rfl⟩
    obtain ⟨f, rest, hf⟩ := hframes
    have hcond : (meta.blockType = some ['e', 'l', 's', 'e'] ∨
        meta.blockType = some ['e', 'l', 's', 'e', ' ', 'i', 'f']) = True := eq_true hbt
    cases last with
    | none =>
      constructor
      · intro ht
        simp [isContinuationTarget] at ht
      · intro _
        simp [parseBlockExpression, hm, hend, h1, h2, hcond, unexpected]
    | some n =>
      cases n with
      | conditionalBlock es cs =>
        constructor
        · intro _
          simp [parseBlockExpression, hm, hend, h1, h2, hcond, State.setLast, State.child, hf]
        · intro ht
          simp [isContinuationTarget] at ht
      | eachBlock e c el =>
        constructor
        · intro ht
          have hb : meta.blockType = some ['e', 'l', 's', 'e'] := by
            simpa [isContinuationTarget] using ht
          simp [parseBlockExpression, hm, hend, h1, h2, hb, State.setLast, State.child, hf]
        · intro ht
          have hb : ¬ meta.blockType = some ['e', 'l', 's', 'e'] := by
            simpa [isContinuationTarget] using ht
          have hb2 := hbt.resolve_left hb
          simp [parseBlockExpression, hm, hend, h1, h2, hb2, unexpected]
      | template _ =>
        constructor
        · intro ht
          simp [isContinuationTarget] at ht
        · intro _
          simp [parseBlockExpression, hm, hend, h1, h2, hcond, unexpected]
      | text _ =>
        constructor
        · intro ht
          simp [isContinuationTarget] at ht
        · intro _
          simp [parseBlockExpression, hm, hend, h1, h2, hcond, unexpected]
      | dynamicText _ =>
        constructor
        · intro ht
          simp [isContinuationTarget] at ht
        · intro _
          simp [parseBlockExpression, hm, hend, h1, h2, hcond, unexpected]
      | block _ _ =>
        constructor
        · intro ht
          simp [isContinuationTarget] at ht
        · intro _
          simp [parseBlockExpression, hm, hend, h1, h2, hcond, unexpected]
      | element _ _ _ _ _ =>
        constructor
        · intro ht
          simp [isContinuationTarget] at ht
        · intro _
          simp [parseBlockExpression, hm, hend, h1, h2, hcond, unexpected]
      | viewPointer _ _ _ _ =>
        constructor
        · intro ht
          simp [isContinuationTarget] at ht
        · intro _
          simp [parseBlockExpression, hm, hend, h1, h2, hcond, unexpected]
      | dynamicViewPointer _ _ _ =>
        constructor
        · intro ht
          simp [isContinuationTarget] at ht
        · intro _
          simp [parseBlockExpression, hm, hend, h1, h2, hcond, unexpected]
      | comment _ =>
        constructor
        · intro ht
          simp [isContinuationTarget] at ht
        · intro _
          simp [parseBlockExpression, hm, hend, h1, h2, hcond, unexpected]
      | doctype _ _ _ =>
        constructor
        · intro ht
          simp [isContinuationTarget] at ht
        · intro _
          simp [parseBlockExpression, hm, hend, h1, h2, hcond, unexpected]
  refine ⟨key, ?_⟩
  intro st2 hok
  cases h1 : st.toParent with
  | error err =>
    simp [parseBlockExpression, hm, hend, h1] at hok
    rcases hbt with hb | hb <;> simp [hb] at hok
  | ok st1 =>
    cases h2 : st1.last with
    | error err =>
      simp [parseBlockExpression, hm, hend, h1, h2] at hok
      rcases hbt with hb | hb <;> simp [hb] at hok
    | ok last =>
      refine ⟨st1, last, rfl, h2, ?_⟩
      by_contra hn
      have hfalse : isContinuationTarget meta.blockType last = false := by
        simpa using hn
      rw [(key st1 last h1 h2).2 hfalse] at hok
      cases hok

/-- C7, witness: in the state reached after `{{with x}}A`, and in the state
reached after `{{each xs}}A` for `else if q`, the continuation is refused
with the structural error. -/
theorem parseBlockExpression_continuation_witness :
    parseBlockExpression (.blank (some (blockMeta "else".toList "else".toList none)))
        ⟨none, [⟨[.text ['A']], true⟩,
          ⟨[.block (.other ['x'] (some (blockMeta "with x".toList "with".toList none))) []],
            false⟩]⟩
      = .error (.parsingTemplate (some "else".toList)) ∧
    parseBlockExpression (.other ['q'] (some (blockMeta "else if q".toList "else if".toList none)))
        ⟨none, [⟨[.text ['A']], true⟩,
          ⟨[.eachBlock (.other "xs".toList (some (blockMeta "each xs".toList "each".toList none)))
              [] none], false⟩]⟩
      = .error (.parsingTemplate (some "else if q".toList)) :=
  ⟨((parseBlockExpression_continuation
      (.blank (some (blockMeta "else".toList "else".toList none)))
      (blockMeta "else".toList "else".toList none)
      ⟨none, [⟨[.text ['A']], true⟩,
        ⟨[.block (.other ['x'] (some (blockMeta "with x".toList "with".toList none))) []],
          false⟩]⟩ rfl rfl (Or.inl rfl)).1
      ⟨none, [⟨[.block (.other ['x'] (some (blockMeta "with x".toList "with".toList none)))
        [.text ['A']]], false⟩]⟩ _ rfl rfl).2 rfl,
   ((parseBlockExpression_continuation
      (.other ['q'] (some (blockMeta "else if q".toList "else if".toList none)))
      (blockMeta "else if q".toList "else if".toList none)
      ⟨none, [⟨[.text ['A']], true⟩,
        ⟨[.eachBlock (.other "xs".toList (some (blockMeta "each xs".toList "each".toList none)))
            [] none], false⟩]⟩ rfl rfl (Or.inr rfl)).1
      ⟨none, [⟨[.eachBlock
        (.other "xs".toList (some (blockMeta "each xs".toList "each".toList none)))
        [.text ['A']] none], false⟩]⟩ _ rfl rfl).2 rfl⟩

/-- The text `{{t p}}A`. -/
theorem unclosed_text (t p A : Str) :
    ['{', '{'] ++ t ++ [' '] ++ p ++ ['}', '}'] ++ A
      = renderPieces [.expression (t ++ ' ' :: p), .literal A] := by
  simp [renderPieces, Piece.render]

/-- C8, as stated, fails: on `{{if x}}A`, where the block is never closed,
`createStringTemplate` raises no error; it returns a template, and its
content is the body of the open block, not the root content list (which holds
the `ConditionalBlock`). -/
theorem createStringTemplate_unclosed_counterexample :
    createStringTemplate plainEnv "\x7b\x7bif x\x7d\x7dA".toList none
      = .ok (.template (some [.text ['A']])) := by
  rfl

/-- C8, amended. `createStringTemplate` makes no check at the end of the
input: for a block start `{{t p}}` that is never closed, followed by the text
`A`, it returns a template, and the content of that template is the content
list of the frame that is current at the end of the scan, `[Text A]`, the body
of the open block. -/
theorem createStringTemplate_unclosed (env : Env) (view : Option ViewContext)
    (t p A : Str) (e : Expression) (ht : t ∈ startKeywords)
    (hp : p ≠ []) (hps : NoSpace p) (hpb : NoBrace p) (hG : env.createPathExpression p = .ok e)
    (hA : A ≠ []) (hA2 : ¬ ['{', '{'] <:+: A) :
    createStringTemplate env (['{', '{'] ++ t ++ [' '] ++ p ++ ['}', '}'] ++ A) view
      = .ok (.template (some [.text A])) := by
  have hw : WellFormed [.expression (t ++ ' ' :: p), .literal A] :=
    ⟨balanced_of_noBrace _ (noBrace_keyword_path t p ht hpb), hA, hA2⟩
  have h1 := createExpression_path env.createPathExpression t p e ht hp hps hG
  rw [createStringTemplate, unclosed_text, parseText_pieces _ _ _ _ hw]
  simp only [runPieces, h1]
  simp only [startKeywords, List.mem_cons, List.mem_singleton, List.not_mem_nil, or_false] at ht
  rcases ht with h | h | h | h <;> subst h <;>
    simp [Except.bind, parseTextLiteral, parseTextExpression, parseBlockExpression, State.new,
      State.push, State.child, truthy, blockMeta]

/-- C8, witness: `{{each xs}}row` returns the template of `[Text row]`. -/
theorem createStringTemplate_unclosed_witness :
    createStringTemplate plainEnv "\x7b\x7beach xs\x7d\x7drow".toList none
      = .ok (.template (some [.text "row".toList])) :=
  createStringTemplate_unclosed plainEnv none "each".toList "xs".toList "row".toList
    (.other "xs".toList none) (by decide) (by decide) (by decide) (by decide) rfl
    (by decide) (by decide)

/-! ## Element ends: claim C9 -/

/-- C9, the failing input: an end tag in the initial state, where no element
is open. `parseHtmlEnd` moves to the parent of the root frame, which is
`undefined`, and the call `parseNode.last()` throws a `TypeError`; the error
`Mismatched closing HTML tag` is not raised. -/
theorem parseHtmlEnd_root (env : Env) (view : Option ViewContext) (tag tagName : Str) :
    parseHtmlEnd env tag tagName (State.new view) = .error (.typeError "parseNode.last") := by
  rfl

/-- Where a parent frame exists, `parseHtmlEnd` follows the discipline of the
claim: a last item of the parent frame that is not an element named `tagName`
gives `Mismatched closing HTML tag: tag`. -/
theorem parseHtmlEnd_mismatch (env : Env) (tag tagName : Str) (st st1 : State)
    (last : Option Node) (h1 : st.toParent = .ok st1) (h2 : st1.last = .ok last)
    (hl : ∀ a c s h, last ≠ some (.element tagName a c s h)) :
    parseHtmlEnd env tag tagName st = .error (.mismatchedClosingHtmlTag tag) := by
  cases last with
  | none => simp [parseHtmlEnd, h1, h2]
  | some n =>
    cases n with
    | element t a c s h =>
      have hne : ¬ t = tagName := by
        intro e
        subst e
        exact hl a c s h rfl
      simp [parseHtmlEnd, h1, h2, hne]
    | _ => simp [parseHtmlEnd, h1, h2]

/-- About `parseHtmlEnd` succeeds only if, after the move to the parent frame, the
last item of that frame is an element named `tagName`. -/
theorem parseHtmlEnd_ok (env : Env) (tag tagName : Str) (st st2 : State)
    (h : parseHtmlEnd env tag tagName st = .ok st2) :
    ∃ st1 a c s hk, st.toParent = .ok st1 ∧
      st1.last = .ok (some (.element tagName a c s hk)) := by
  cases h1 : st.toParent with
  | error err => simp [parseHtmlEnd, h1] at h
  | ok st1 =>
    cases h2 : st1.last with
    | error err => simp [parseHtmlEnd, h1, h2] at h
    | ok last =>
      by_contra hn
      push_neg at hn
      have := parseHtmlEnd_mismatch env tag tagName st st1 last h1 h2 (by
        intro a c s hk e
        exact hn st1 a c s hk rfl (e ▸ h2))
      rw [this] at h
      cases h

/-! ## Attribute values: claim C10 -/

theorem parseTextExpression_plain (env : Env) (e : Expression) (st : State)
    (h : isPlain e = true) : parseTextExpression env e st = parseValueExpression e st := by
  unfold isPlain at h
  cases hm : e.meta with
  | none => simp [hm] at h
  | some m =>
    simp [hm] at h
    simp [parseTextExpression, hm, h.1, h.2]

/-- Scanning literals and plain value expressions appends their nodes, in
source order, to the current frame. -/
theorem runPieces_plain (env : Env) (view : Option ViewContext) (sh : Bool)
    (rest : List ParseNode) :
    ∀ (ps : List Piece) (nodes c : List Node),
      plainNodes env.createPathExpression ps = some nodes →
      runPieces env.createPathExpression parseTextLiteral (parseTextExpression env) ps
          ⟨view, ⟨c, sh⟩ :: rest⟩
        = .ok ⟨view, ⟨c ++ nodes, sh⟩ :: rest⟩ := by
  intro ps
  induction ps with
  | nil =>
    intro nodes c h
    simp [plainNodes] at h
    subst h
    simp [runPieces]
  | cons p ps ih =>
    intro nodes c h
    cases p with
    | literal s =>
      simp only [plainNodes, Option.map_eq_some'] at h
      obtain ⟨ns, hns, rfl⟩ := h
      simp only [runPieces, parseTextLiteral, State.push, Except.bind]
      rw [ih ns _ hns]
      simp
    | expression body =>
      simp only [plainNodes] at h
      by_cases hb : body = []
      · simp [hb] at h
      · rw [if_neg hb] at h
        cases hc : createExpression env.createPathExpression body with
        | error err => simp [hc] at h
        | ok e =>
          simp only [hc] at h
          by_cases hpl : isPlain e = true
          · rw [if_pos hpl] at h
            simp only [Option.map_eq_some'] at h
            obtain ⟨ns, hns, rfl⟩ := h
            simp only [runPieces, ne_eq, hb, not_false_eq_true, if_true, hc, Except.bind,
              parseTextExpression_plain env e _ hpl, parseValueExpression, State.push]
            rw [ih ns _ hns]
            simp
          · rw [if_neg hpl] at h
            cases h

/-- The scan of one attribute value made of literals and plain value
expressions: the attribute is built from the nodes of the pieces, and the
parser is back in the frame it started from. -/
theorem parseAttributes_pieces (env : Env) (key value : Str) (view : Option ViewContext)
    (f : ParseNode) (rest : List ParseNode) (ps : List Piece) (nodes : List Node)
    (hv : value ≠ []) (htext : env.unescapeEntities value = renderPieces ps)
    (hw : WellFormed ps) (hn : plainNodes env.createPathExpression ps = some nodes) :
    parseAttributes env [(key, .str value)] ⟨view, f :: rest⟩
      = match attributeFromContent nodes with
        | none => .error (.parsingAttribute key value)
        | some attr => .ok (some [(key, attr)], ⟨view, f :: rest⟩) := by
  obtain ⟨c, cs, rfl⟩ := List.exists_cons_of_ne_nil hv
  have hrun := runPieces_plain env view false (f :: rest) ps nodes [] hn
  simp only [parseAttributes, parseAttributesLoop, State.child, htext,
    parseText_pieces _ _ _ ps hw, hrun, List.nil_append]
  cases attributeFromContent nodes with
  | none => rfl
  | some attr => simp [State.toParent, setProp]

/-- C10. The attribute that `parseAttributes` builds for one string value,
whose entity-decoded text is `text`, when the spans of `text` are literals and
plain value expressions: (1) and (2) a literal `Attribute` holding the text
when there is no `{{`; (3) a literal `Attribute` holding the value of the
literal when the text is one expression `{{body}}` whose expression is a
literal; (4) a `DynamicAttribute` wrapping the bare expression when the text
is one expression that is not a literal; (5) a `DynamicAttribute` wrapping the
template of all the nodes, in source order, when there is more than one span.
The parser is back in the frame it started from. -/
theorem parseAttributes_value (env : Env) (key value : Str) (view : Option ViewContext)
    (f : ParseNode) (rest : List ParseNode) :
    (value = [] →
      parseAttributes env [(key, .str value)] ⟨view, f :: rest⟩
        = .ok (some [(key, .attribute (.str []))], ⟨view, f :: rest⟩)) ∧
    (value ≠ [] → env.unescapeEntities value ≠ [] →
      ¬ ['{', '{'] <:+: env.unescapeEntities value →
      parseAttributes env [(key, .str value)] ⟨view, f :: rest⟩
        = .ok (some [(key, .attribute (.str (env.unescapeEntities value)))],
            ⟨view, f :: rest⟩)) ∧
    (∀ body v m, value ≠ [] → env.unescapeEntities value = ['{', '{'] ++ body ++ ['}', '}'] →
      body ≠ [] → Balanced body →
      createExpression env.createPathExpression body = .ok (.literal v m) →
      isPlain (.literal v m) = true →
      parseAttributes env [(key, .str value)] ⟨view, f :: rest⟩
        = .ok (some [(key, .attribute v)], ⟨view, f :: rest⟩)) ∧
    (∀ body e, value ≠ [] → env.unescapeEntities value = ['{', '{'] ++ body ++ ['}', '}'] →
      body ≠ [] → Balanced body →
      createExpression env.createPathExpression body = .ok e → isPlain e = true →
      (∀ v m, e ≠ .literal v m) →
      parseAttributes env [(key, .str value)] ⟨view, f :: rest⟩
        = .ok (some [(key, .dynamicAttribute (.expression e))], ⟨view, f :: rest⟩)) ∧
    (∀ ps nodes, value ≠ [] → env.unescapeEntities value = renderPieces ps → WellFormed ps →
      plainNodes env.createPathExpression ps = some nodes → 1 < nodes.length →
      parseAttributes env [(key, .str value)] ⟨view, f :: rest⟩
        = .ok (some [(key, .dynamicAttribute (.template (.template (some nodes))))],
            ⟨view, f :: rest⟩)) := by
  have hone : ∀ body : Str, (['{', '{'] ++ body ++ ['}', '}'] : Str)
      = renderPieces [.expression body] := by
    intro body
    simp [renderPieces, Piece.render]
  refine ⟨?_, ?_, ?_, ?_, ?_⟩
  · intro hv
    subst hv
    simp [parseAttributes, parseAttributesLoop, setProp]
  · intro hv ht hno
    have h := parseAttributes_pieces env key value view f rest
      [.literal (env.unescapeEntities value)] [.text (env.unescapeEntities value)] hv
      (by simp [renderPieces, Piece.render]) ⟨ht, hno⟩ (by simp [plainNodes])
    simpa [attributeFromContent] using h
  · intro body v m hv ht hb hbal hc hpl
    have h := parseAttributes_pieces env key value view f rest
      [.expression body] [.dynamicText (.literal v m)] hv (by rw [ht, hone]) ⟨hbal, trivial⟩
      (by simp [plainNodes, hb, hc, hpl])
    simpa [attributeFromContent, Node.expression] using h
  · intro body e hv ht hb hbal hc hpl hlit
    have h := parseAttributes_pieces env key value view f rest
      [.expression body] [.dynamicText e] hv (by rw [ht, hone]) ⟨hbal, trivial⟩
      (by simp [plainNodes, hb, hc, hpl])
    rw [h]
    cases e with
    | literal v m => exact absurd rfl (hlit v m)
    | _ => rfl
  · intro ps nodes hv ht hw hn hlen
    have h := parseAttributes_pieces env key value view f rest ps nodes hv ht hw hn
    rw [h]
    match nodes, hlen with
    | _ :: _ :: _, _ => rfl

/-- C10, witness: the value `a {{x}} b` gives a `DynamicAttribute` that wraps
the template of three items, `Text 'a '`, `DynamicText x` and `Text ' b'`; the
value `{{x}}` gives a `DynamicAttribute` that wraps the bare expression. -/
theorem parseAttributes_value_witness :
    parseAttributes plainEnv [("class".toList, .str "a \x7b\x7bx\x7d\x7d b".toList)]
        ⟨none, [⟨[], false⟩]⟩
      = .ok (some [("class".toList, .dynamicAttribute (.template (.template (some
          [.text "a ".toList,
           .dynamicText (.other ['x'] (some ⟨['x'], none, false, none, false, none, none⟩)),
           .text " b".toList]))))], ⟨none, [⟨[], false⟩]⟩) ∧
    parseAttributes plainEnv [("class".toList, .str "\x7b\x7bx\x7d\x7d".toList)]
        ⟨none, [⟨[], false⟩]⟩
      = .ok (some [("class".toList, .dynamicAttribute (.expression
          (.other ['x'] (some ⟨['x'], none, false, none, false, none, none⟩))))],
          ⟨none, [⟨[], false⟩]⟩) :=
  ⟨(parseAttributes_value plainEnv "class".toList "a \x7b\x7bx\x7d\x7d b".toList none
      ⟨[], false⟩ []).2.2.2.2
      [.literal "a ".toList, .expression ['x'], .literal " b".toList]
      [.text "a ".toList,
       .dynamicText (.other ['x'] (some ⟨['x'], none, false, none, false, none, none⟩)),
       .text " b".toList]
      (by decide) rfl
      ⟨by decide, by decide, balanced_of_noBrace _ (by decide), by decide, by decide⟩
      rfl (by decide),
   (parseAttributes_value plainEnv "class".toList "\x7b\x7bx\x7d\x7d".toList none
      ⟨[], false⟩ []).2.2.2.1 ['x']
      (.other ['x'] (some ⟨['x'], none, false, none, false, none, none⟩))
      (by decide) rfl (by decide) (balanced_of_noBrace _ (by decide)) rfl rfl
      (fun _ _ h => Expression.noConfusion h)⟩

/-! ## Attribute values: claims C11 and C12 -/

theorem plainNodes_length (G : Grammar) :
    ∀ (ps : List Piece) (nodes : List Node), plainNodes G ps = some nodes →
      nodes.length = ps.length := by
  intro ps
  induction ps with
  | nil =>
    intro nodes h
    simp [plainNodes] at h
    subst h
    rfl
  | cons p ps ih =>
    intro nodes h
    cases p with
    | literal s =>
      simp only [plainNodes, Option.map_eq_some'] at h
      obtain ⟨ns, hns, rfl⟩ := h
      simp [ih ns hns]
    | expression body =>
      simp only [plainNodes] at h
      by_cases hb : body = []
      · simp [hb] at h
      · rw [if_neg hb] at h
        cases hc : createExpression G body with
        | error err => simp [hc] at h
        | ok e =>
          simp only [hc] at h
          by_cases hpl : isPlain e = true
          · rw [if_pos hpl] at h
            simp only [Option.map_eq_some'] at h
            obtain ⟨ns, hns, rfl⟩ := h
            simp [ih ns hns]
          · rw [if_neg hpl] at h
            cases h

/-- C11, as stated, fails: the value `{{}}` holds one empty expression, for
which no callback is invoked, so the frame of the attribute stays empty and
`parseAttributes` throws `Error parsing class attribute: {{}}`; the value
`{{if x}}` ends the scan in the empty frame of the block it opens, with the
same error. -/
theorem parseAttributes_empty_counterexample :
    parseAttributes plainEnv [("class".toList, .str "\x7b\x7b\x7d\x7d".toList)] (State.new none)
      = .error (.parsingAttribute "class".toList "\x7b\x7b\x7d\x7d".toList) ∧
    parseAttributes plainEnv [("class".toList, .str "\x7b\x7bif x\x7d\x7d".toList)] (State.new none)
      = .error (.parsingAttribute "class".toList "\x7b\x7bif x\x7d\x7d".toList) := by
  constructor <;> rfl

/-- C11, amended. For a non-empty string value whose entity-decoded text is
not empty and is made of literals and non-empty plain value expressions,
scanning leaves at least one item in the frame of the attribute (one per
span), and `parseAttributes` yields an attribute: the branch `Error parsing
... attribute` is not reached. -/
theorem parseAttributes_yields (env : Env) (key value : Str) (view : Option ViewContext)
    (f : ParseNode) (rest : List ParseNode) (ps : List Piece) (nodes : List Node)
    (hv : value ≠ []) (htext : env.unescapeEntities value = renderPieces ps)
    (hne : env.unescapeEntities value ≠ [])
    (hw : WellFormed ps) (hn : plainNodes env.createPathExpression ps = some nodes) :
    nodes ≠ [] ∧
    parseText env.createPathExpression (env.unescapeEntities value) parseTextLiteral
        (parseTextExpression env) ⟨view, ⟨[], false⟩ :: f :: rest⟩
      = .ok ⟨view, ⟨nodes, false⟩ :: f :: rest⟩ ∧
    ∃ attr, parseAttributes env [(key, .str value)] ⟨view, f :: rest⟩
      = .ok (some [(key, attr)], ⟨view, f :: rest⟩) := by
  have hps : ps ≠ [] := by
    intro h
    subst h
    exact hne (by rw [htext]; rfl)
  have hnodes : nodes ≠ [] := by
    intro h
    have := plainNodes_length _ ps nodes hn
    rw [h] at this
    exact hps (List.length_eq_zero.1 this.symm)
  refine ⟨hnodes, ?_, ?_⟩
  · rw [htext, parseText_pieces _ _ _ ps hw]
    simpa using runPieces_plain env view false (f :: rest) ps nodes [] hn
  · have h := parseAttributes_pieces env key value view f rest ps nodes hv htext hw hn
    cases hc : attributeFromContent nodes with
    | none =>
      cases nodes with
      | nil => exact absurd rfl hnodes
      | cons n ns =>
        cases ns with
        | nil =>
          simp only [attributeFromContent] at hc
          split at hc
          · cases hc
          · split at hc <;> cases hc
        | cons m ms => simp [attributeFromContent] at hc
    | some attr =>
      rw [hc] at h
      exact ⟨attr, h⟩

/-- C11, witness: the value `a {{x}}` leaves two items and yields an attribute. -/
theorem parseAttributes_yields_witness :
    [Node.text "a ".toList,
      .dynamicText (.other ['x'] (some ⟨['x'], none, false, none, false, none, none⟩))] ≠ [] ∧
    parseText plainEnv.createPathExpression (plainEnv.unescapeEntities "a \x7b\x7bx\x7d\x7d".toList)
        parseTextLiteral (parseTextExpression plainEnv) ⟨none, ⟨[], false⟩ :: ⟨[], false⟩ :: []⟩
      = .ok ⟨none, ⟨[.text "a ".toList,
          .dynamicText (.other ['x'] (some ⟨['x'], none, false, none, false, none, none⟩))],
          false⟩ :: ⟨[], false⟩ :: []⟩ ∧
    ∃ attr, parseAttributes plainEnv [("class".toList, .str "a \x7b\x7bx\x7d\x7d".toList)]
        ⟨none, ⟨[], false⟩ :: []⟩
      = .ok (some [("class".toList, attr)], ⟨none, ⟨[], false⟩ :: []⟩) :=
  parseAttributes_yields plainEnv "class".toList "a \x7b\x7bx\x7d\x7d".toList none ⟨[], false⟩ []
    [.literal "a ".toList, .expression ['x']] _ (by decide) rfl (by decide)
    ⟨by decide, by decide, balanced_of_noBrace _ (by decide), trivial⟩ rfl

/-- C12, the failing inputs: the spans of `{{if x}}a{{/if}}` leave one item in
the frame of the attribute, the `ConditionalBlock`, which has no property
`expression`: the attribute is `DynamicAttribute(undefined)`. The spans of
`{{each xs}}a{{/each}}` leave the `EachBlock`: the attribute wraps the bare
expression of the block, without its content. No template of the nodes is
built. -/
theorem parseAttributes_block :
    parseAttributes plainEnv
        [("class".toList, .str "\x7b\x7bif x\x7d\x7da\x7b\x7b/if\x7d\x7d".toList)] (State.new none)
      = .ok (some [("class".toList, .dynamicAttribute .undefined)], State.new none) ∧
    parseAttributes plainEnv
        [("class".toList, .str "\x7b\x7beach xs\x7d\x7da\x7b\x7b/each\x7d\x7d".toList)]
        (State.new none)
      = .ok (some [("class".toList, .dynamicAttribute (.expression
          (.other "xs".toList (some (blockMeta "each xs".toList "each".toList none)))))],
          State.new none) := by
  constructor <;> rfl

/-! ## The matched region: claim C20 -/

/-- C20, the failing input: in `{{a}b}` the two closing braces are not
adjacent. `matchBraces` returns 6, the two characters before index 6 are `b}`,
not `}}`, and `parseText` hands the body `a}` to the classifier: the character
`b` is dropped. -/
theorem matchBraces_not_adjacent :
    indexOf "\x7b\x7ba\x7db\x7d".toList ['{', '{'] 0 = some 0 ∧
    matchBraces "\x7b\x7ba\x7db\x7d".toList 2 0 '{' '}' = .ok (some 6) ∧
    slice "\x7b\x7ba\x7db\x7d".toList 4 6 = "b\x7d".toList ∧
    slice "\x7b\x7ba\x7db\x7d".toList 2 4 = "a\x7d".toList ∧
    scanSpans anyPath "\x7b\x7ba\x7db\x7d".toList
      = .ok [Span.expression (.other "a\x7d".toList
          (some ⟨"a\x7d".toList, none, false, none, false, none, none⟩))] := by
  refine ⟨by decide, by rfl, by decide, by decide, by rfl⟩

/-! ## View pointers: claims C15 and C16 -/

/-- C16, the failing input: `{{view name, {a: b}}}`. `parseViewExpression`
builds `DynamicViewPointer(nameExpression, hooks, viewAttributes)`: the hooks
(here `undefined`) stand in the second position and the view attributes in
the third. For a `<view>` element with the dynamic name `{{name}}`,
`parseViewElement` builds `DynamicViewPointer(template, viewAttributes,
hooks)`: the opposite order. -/
theorem parseViewExpression_slots :
    createStringTemplate sampleEnv
        "\x7b\x7bview name, \x7ba: b\x7d\x7d\x7d".toList none
      = .ok (.template (some [.dynamicViewPointer
          (.expression (.other "name".toList none))
          (.hooks none)
          (.attributes (some [(['a'], .parentWrapper (.dynamicText (.other ['b'] none)) none)]))])) ∧
    parseViewElement sampleEnv
        (some (.element "view".toList
          (some [("name".toList, .dynamicAttribute (.expression (.other "name".toList none))),
            (['a'], .dynamicAttribute (.expression (.other ['b'] none)))])
          (some []) false none)) (State.new none)
      = .ok ⟨none, [⟨[.dynamicViewPointer
          (.expression (.other "name".toList none))
          (.attributes (some [(['a'],
            .parentWrapper (.dynamicText (.other ['b'] none)) (some (.other ['b'] none)))]))
          (.hooks none)], false⟩]⟩ := by
  constructor <;> rfl

/-- C15, the failing input: `<view name="foo" as="a.b"></view>` with the view
`foo` in the registry. `parseHtmlStart` takes `as` out of the attributes and
puts the hook `MarkupAs(['a', 'b'])` on the element; at the end tag the
element is replaced by a `ViewPointer` built from its attributes alone, so the
pointer has no `as` attribute and its hooks are `undefined`: the hook is lost
with the element. -/
theorem viewPointer_as_hook :
    parseHtmlStart sampleEnv "<view>".toList "view".toList
        [("name".toList, .str "foo".toList), ("as".toList, .str "a.b".toList)] false
        (State.new (some fooRegistry))
      = .ok ⟨some fooRegistry, [⟨[], true⟩,
          ⟨[.element "view".toList (some [("name".toList, .attribute (.str "foo".toList))])
            (some []) false (some [.markupAs [['a'], ['b']]])], false⟩]⟩ ∧
    parseHtmlEnd sampleEnv "</view>".toList "view".toList
        ⟨some fooRegistry, [⟨[], true⟩,
          ⟨[.element "view".toList (some [("name".toList, .attribute (.str "foo".toList))])
            (some []) false (some [.markupAs [['a'], ['b']]])], false⟩]⟩
      = .ok ⟨some fooRegistry,
          [⟨[.viewPointer (.str "foo".toList) (some []) none fooView], false⟩]⟩ := by
  constructor <;> rfl

/-! ## Children of a view element: claim C17 -/

/-- C17, the failing input: a view that declares an attribute named `false`,
and a text child. For a child that is not an element the source computes the
name `false`, which reads the declared name `false` in `view.attributesMap`:
the text child is taken as that attribute and does not stay in the remaining
content. At the end tag of `<view name="bar">x</view>` the pointer gets the
attribute `false` and no `content`. -/
theorem parseContentAttributes_text_child :
    remainsInBody barView (.text ['x']) = true ∧
    parseContentAttributes (some [.text ['x']]) barView []
      = .ok ([], [("false".toList, .parentWrapper (.template none) none)]) ∧
    parseHtmlEnd sampleEnv "</view>".toList "view".toList
        ⟨some barRegistry, [⟨[.text ['x']], true⟩,
          ⟨[.element "view".toList (some [("name".toList, .attribute (.str "bar".toList))])
            (some []) false none], false⟩]⟩
      = .ok ⟨some barRegistry, [⟨[.viewPointer (.str "bar".toList)
          (some [("false".toList, .parentWrapper (.template none) none)]) none barView],
          false⟩]⟩ := by
  refine ⟨by rfl, by rfl, by rfl⟩

/-- When the view declares no attribute and no array named `false`, the
remaining content that `parseContentAttributes` returns is the list of the
children that stay in the body, in source order. -/
theorem parseContentLoop_remaining (view : View)
    (h1 : declares view.attributesMap ['f', 'a', 'l', 's', 'e'] = false)
    (h2 : declares view.arraysMap ['f', 'a', 'l', 's', 'e'] = false) :
    ∀ (items remaining : List Node) (va : ViewAttributes) (remaining1 : List Node)
      (va1 : ViewAttributes),
      parseContentLoop view items remaining va = .ok (remaining1, va1) →
      remaining1 = remaining ++ items.filter (remainsInBody view) := by
  intro items
  induction items with
  | nil =>
    intro remaining va remaining1 va1 h
    simp [parseContentLoop] at h
    simp [h.1]
  | cons item rest ih =>
    intro remaining va remaining1 va1 h
    rw [parseContentLoop] at h
    cases ht : item.tagName with
    | none =>
      have hr : remainsInBody view item = true := by simp [remainsInBody, ht]
      simp [ht, h1, h2] at h
      have := ih _ _ _ _ h
      simp [this, hr]
    | some t =>
      simp only [ht, Option.getD_some] at h
      by_cases ha : t = ['a', 't', 't', 'r', 'i', 'b', 'u', 't', 'e']
      · have hr : remainsInBody view item = false := by simp [remainsInBody, ht, ha]
        simp only [ha, if_true] at h
        cases hp : parseNameAttribute item with
        | error e => simp [hp] at h
        | ok r =>
          simp only [hp] at h
          have := ih _ _ _ _ h
          simp [this, hr]
      · have ha' : ¬ some t = some ['a', 't', 't', 'r', 'i', 'b', 'u', 't', 'e'] := by simpa using ha
        rw [if_neg ha'] at h
        by_cases hd : declares view.attributesMap t = true
        · have hr : remainsInBody view item = false := by simp [remainsInBody, ht, hd]
          simp only [hd, if_true] at h
          have := ih _ _ _ _ h
          simp [this, hr]
        · rw [if_neg hd] at h
          by_cases hb : t = ['a', 'r', 'r', 'a', 'y']
          · have hr : remainsInBody view item = false := by simp [remainsInBody, ht, hb]
            simp only [hb, if_true] at h
            cases hp : parseNameAttribute item with
            | error e => simp [hp] at h
            | ok r =>
              simp only [hp] at h
              cases hq : parseArrayElement r.2 (jsString r.1) va with
              | error e => simp [hq] at h
              | ok va2 =>
                simp only [hq] at h
                have := ih _ _ _ _ h
                simp [this, hr]
          · have hb' : ¬ some t = some ['a', 'r', 'r', 'a', 'y'] := by simpa using hb
            rw [if_neg hb'] at h
            by_cases hd2 : declares view.arraysMap t = true
            · have hr : remainsInBody view item = false := by
                simp [remainsInBody, ht, hd2]
              simp only [hd2, if_true] at h
              cases hq : parseArrayElement item t va with
              | error e => simp [hq] at h
              | ok va2 =>
                simp only [hq] at h
                have := ih _ _ _ _ h
                simp [this, hr]
            · rw [if_neg hd2] at h
              have hr : remainsInBody view item = true := by
                simp [remainsInBody, ht, ha, hb, hd, hd2]
              have := ih _ _ _ _ h
              simp [this, hr]

/-! ## View resolution: claims C13 and C14 -/

theorem objectFromObjectExpression_ne (e : Expression) (n : Str) :
    objectFromObjectExpression e ≠ .error (.noViewFound n) := by
  intro h
  unfold objectFromObjectExpression at h
  split at h <;> simp [unexpected] at h
  split at h <;> simp at h

theorem hooksFromAttributes_ne {α : Type} (truthyOf : α → Bool) (dataOf : α → JsValue)
    (env : Env) (attributes : Option (List (Str × α))) (type : HookType) (n : Str) :
    hooksFromAttributes truthyOf dataOf env attributes type ≠ .error (.noViewFound n) := by
  intro h
  unfold hooksFromAttributes at h
  cases attributes with
  | none => simp at h
  | some attrs =>
    simp only at h
    split at h
    · rename_i e he
      split at he
      · simp at he
      · split at he
        · split at he <;> simp at he
          rw [← he] at h
          simp at h
        · simp at he
    · rename_i hooks attrs1 he
      split at h
      · rename_i e2 he2
        split at he2
        · simp at he2
        · split at he2
          · split at he2
            · simp at he2
              rw [← he2] at h
              simp at h
            · split at he2
              · rename_i e3 he3
                simp at he2
                rw [← he2] at h
                simp at h
                rw [h] at he3
                exact objectFromObjectExpression_ne _ n he3
              · simp at he2
          · simp at he2
      · simp at h

theorem push_ne (node : Node) (st : State) (n : Str) :
    st.push node ≠ .error (.noViewFound n) := by
  intro h
  unfold State.push at h
  split at h <;> simp at h

theorem parseNameAttribute_ne (element : Node) (n : Str) :
    parseNameAttribute element ≠ .error (.noViewFound n) := by
  intro h
  unfold parseNameAttribute at h
  split at h
  · simp at h
  · split at h
    · simp at h
    · simp only at h
      split at h <;> simp at h

theorem parseArrayElement_ne (element : Node) (name : Str) (va : ViewAttributes) (n : Str) :
    parseArrayElement element name va ≠ .error (.noViewFound n) := by
  intro h
  unfold parseArrayElement at h
  simp only at h
  split at h
  · rename_i e he
    split at he
    · simp at he
    · split at he <;> simp at he
      rw [← he] at h
      simp at h
  · split at h
    · simp at h
    · split at h <;> simp at h
    · simp at h

theorem parseContentLoop_ne (view : View) (n : Str) :
    ∀ (items remaining : List Node) (va : ViewAttributes),
      parseContentLoop view items remaining va ≠ .error (.noViewFound n) := by
  intro items
  induction items with
  | nil =>
    intro remaining va h
    simp [parseContentLoop] at h
  | cons item rest ih =>
    intro remaining va h
    rw [parseContentLoop] at h
    split at h
    · split at h
      · rename_i e he
        simp at h
        rw [h] at he
        exact parseNameAttribute_ne _ n he
      · exact ih _ _ h
    · split at h
      · exact ih _ _ h
      · split at h
        · split at h
          · rename_i e he
            simp at h
            rw [h] at he
            exact parseNameAttribute_ne _ n he
          · split at h
            · rename_i e he
              simp at h
              rw [h] at he
              exact parseArrayElement_ne _ _ _ n he
            · exact ih _ _ h
        · split at h
          · split at h
            · rename_i e he
              simp at h
              rw [h] at he
              exact parseArrayElement_ne _ _ _ n he
            · exact ih _ _ h
          · exact ih _ _ h

/-- About `parseNamedViewElement`: it never ends in `No view found`, and when
it succeeds it has appended a `ViewPointer` that carries the given view. -/
theorem parseNamedViewElement_result (env : Env) (element : Node) (view : View)
    (name : JsValue) (st : State) :
    (∀ n, parseNamedViewElement env element view name st ≠ .error (.noViewFound n)) ∧
    (∀ st1, parseNamedViewElement env element view name st = .ok st1 →
      ∃ va hooks, st.push (.viewPointer (.str view.name) (some va) hooks view) = .ok st1) := by
  unfold parseNamedViewElement
  simp only
  cases hh : hooksFromAttributes ViewValue.truthy ViewValue.data env
      (some (viewAttributesFromElement element)) HookType.component with
  | error e =>
    constructor
    · intro n h
      simp at h
      rw [h] at hh
      exact hooksFromAttributes_ne _ _ _ _ _ n hh
    · intro st1 h
      simp at h
  | ok r =>
    obtain ⟨hooks, va1⟩ := r
    simp only
    cases hc : parseContentAttributes element.content view (va1.getD []) with
    | error e =>
      constructor
      · intro n h
        simp at h
        rw [h] at hc
        unfold parseContentAttributes at hc
        split at hc
        · simp at hc
        · exact parseContentLoop_ne _ n _ _ _ hc
      · intro st1 h
        simp at h
    | ok r2 =>
      obtain ⟨remaining, va2⟩ := r2
      simp only [finishParseViewElement]
      constructor
      · intro n h
        exact push_ne _ _ n h
      · intro st1 h
        exact ⟨_, _, h⟩

/-- C13, as stated, fails: in `<view name="foo"><attribute name="{{x}}">
</attribute></view>` the lookup of `foo` returns a view, and the parse still
appends no `ViewPointer`: the child `<attribute>` has no literal name and the
parse ends in the error `The <attribute> element requires a literal name
attribute`. -/
theorem parseViewElement_counterexample :
    fooRegistry.find "foo".toList = some fooView ∧
    parseHtmlEnd sampleEnv "</view>".toList "view".toList
        ⟨some fooRegistry,
          [⟨[.element "attribute".toList
              (some [("name".toList, .dynamicAttribute (.expression (.other ['x'] none)))])
              (some []) false none], true⟩,
           ⟨[.element "view".toList (some [("name".toList, .attribute (.str "foo".toList))])
              (some []) false none], false⟩]⟩
      = .error (.requiresLiteralName "attribute".toList) := by
  constructor <;> rfl

/-- C13, amended. For a `<view>` element whose name attribute is the literal
string `n`, `parseViewElement` looks `n` up in the registry of the view
context: it fails with `No view found for "n"` exactly when the lookup returns
no view; when the lookup returns a view and the conversion of the attributes
and children of the element raises no error of its own, the parse appends a
`ViewPointer` that carries the view the lookup returned. -/
theorem parseViewElement_literal (env : Env) (ctx : ViewContext) (f : ParseNode)
    (rest : List ParseNode) (t : Str) (attrs : AttributesMap) (content : Option (List Node))
    (selfClosing : Bool) (hooks : Option (List Hook)) (n : Str)
    (hname : getProp ['n', 'a', 'm', 'e'] attrs = some (.attribute (.str n))) :
    (parseViewElement env (some (.element t (some attrs) content selfClosing hooks))
        ⟨some ctx, f :: rest⟩ = .error (.noViewFound n) ↔ ctx.find n = none) ∧
    (∀ n1, n1 ≠ n →
      parseViewElement env (some (.element t (some attrs) content selfClosing hooks))
        ⟨some ctx, f :: rest⟩ ≠ .error (.noViewFound n1)) ∧
    (∀ v st1, ctx.find n = some v →
      parseViewElement env (some (.element t (some attrs) content selfClosing hooks))
        ⟨some ctx, f :: rest⟩ = .ok st1 →
      ∃ va hk, st1 = ⟨some ctx,
        ⟨f.content ++ [.viewPointer (.str v.name) (some va) hk v], f.shared⟩ :: rest⟩) := by
  have hunf : parseViewElement env (some (.element t (some attrs) content selfClosing hooks))
        ⟨some ctx, f :: rest⟩
      = match ctx.find n with
        | none => .error (.noViewFound n)
        | some view =>
          parseNamedViewElement env
            (Node.deleteName (.element t (some attrs) content selfClosing hooks)) view (.str n)
            ⟨some ctx, f :: rest⟩ := by
    simp only [parseViewElement, Node.attributes, hname, Attribute.template, Attribute.data,
      findView, jsString]
    cases ctx.find n <;> rfl
  rw [hunf]
  cases hf : ctx.find n with
  | none =>
    refine ⟨by simp, ?_, ?_⟩
    · intro n1 hn1 h
      simp at h
      exact hn1 h.symm
    · intro v st1 hv
      cases hv
  | some view =>
    have hr := parseNamedViewElement_result env
      (Node.deleteName (.element t (some attrs) content selfClosing hooks)) view (.str n)
      ⟨some ctx, f :: rest⟩
    refine ⟨?_, ?_, ?_⟩
    · constructor
      · intro h
        exact absurd h (hr.1 n)
      · intro h
        cases h
    · intro n1 _
      exact hr.1 n1
    · intro v st1 hv h
      cases hv
      obtain ⟨va, hk, hp⟩ := hr.2 st1 h
      refine ⟨va, hk, ?_⟩
      simp [State.push] at hp
      exact hp.symm

/-- C13, witness: for `<view name="foo"></view>` with `foo` in the registry
the `ViewPointer` of the view `foo` is appended; with the name `baz`, which the
registry does not hold, the parse fails with `No view found for "baz"`. -/
theorem parseViewElement_literal_witness :
    (∃ va hk, (⟨some fooRegistry, [⟨[.viewPointer (.str "foo".toList) (some []) none fooView],
        false⟩]⟩ : State)
      = ⟨some fooRegistry, ⟨[] ++ [.viewPointer (.str fooView.name) (some va) hk fooView],
          false⟩ :: []⟩) ∧
    parseViewElement sampleEnv
        (some (.element "view".toList (some [("name".toList, .attribute (.str "baz".toList))])
          (some []) false none)) ⟨some fooRegistry, [⟨[], false⟩]⟩
      = .error (.noViewFound "baz".toList) :=
  ⟨(parseViewElement_literal sampleEnv fooRegistry ⟨[], false⟩ [] "view".toList
      [("name".toList, .attribute (.str "foo".toList))] (some []) false none "foo".toList
      rfl).2.2 fooView _ rfl rfl,
   (parseViewElement_literal sampleEnv fooRegistry ⟨[], false⟩ [] "view".toList
      [("name".toList, .attribute (.str "baz".toList))] (some []) false none "baz".toList
      rfl).1.2 rfl⟩

/-- C14, as stated, fails for a literal expression: for `<view
name="{{'foo'}}"></view>` the attribute scan yields the literal `Attribute`
holding `foo`, and the end tag looks `foo` up: with the view in the registry
a static `ViewPointer` is appended, not a `DynamicViewPointer`; without it the
parse fails with `No view found for "foo"`. -/
theorem viewElement_literal_expression_counterexample :
    parseHtmlStart sampleEnv "<view>".toList "view".toList
        [("name".toList, .str "\x7b\x7b\x27foo\x27\x7d\x7d".toList)] false
        (State.new (some fooRegistry))
      = .ok ⟨some fooRegistry, [⟨[], true⟩,
          ⟨[.element "view".toList (some [("name".toList, .attribute (.str "foo".toList))])
            (some []) false none], false⟩]⟩ ∧
    parseHtmlEnd sampleEnv "</view>".toList "view".toList
        ⟨some fooRegistry, [⟨[], true⟩,
          ⟨[.element "view".toList (some [("name".toList, .attribute (.str "foo".toList))])
            (some []) false none], false⟩]⟩
      = .ok ⟨some fooRegistry,
          [⟨[.viewPointer (.str "foo".toList) (some []) none fooView], false⟩]⟩ ∧
    parseHtmlEnd sampleEnv "</view>".toList "view".toList
        ⟨some barRegistry, [⟨[], true⟩,
          ⟨[.element "view".toList (some [("name".toList, .attribute (.str "foo".toList))])
            (some []) false none], false⟩]⟩
      = .error (.noViewFound "foo".toList) := by
  refine ⟨by rfl, by rfl, by rfl⟩

/-- C14, amended. For a plain value expression `e` that is not a literal, a
`<view>` element whose only attribute is the name `{{e}}` makes no lookup in
the view registry (the result is the same for every view context, also when
there is none) and yields a `DynamicViewPointer` on the bare expression: the
start tag appends the element and opens its frame; the end tag, whatever
children the frame holds, replaces the element by the pointer, whose `content`
attribute wraps the children when there are some. -/
theorem viewElement_dynamic_name (env : Env) (view : Option ViewContext) (f : ParseNode)
    (rest : List ParseNode) (tag endTag value body : Str) (e : Expression)
    (hvoid : env.voidElements ['v', 'i', 'e', 'w'] = false)
    (hv : value ≠ []) (htext : env.unescapeEntities value = ['{', '{'] ++ body ++ ['}', '}'])
    (hb : body ≠ []) (hbal : Balanced body)
    (hc : createExpression env.createPathExpression body = .ok e) (hpl : isPlain e = true)
    (hlit : ∀ v m, e ≠ .literal v m) :
    parseHtmlStart env tag ['v', 'i', 'e', 'w'] [(['n', 'a', 'm', 'e'], .str value)] false
        ⟨view, f :: rest⟩
      = .ok ⟨view, ⟨[], true⟩ ::
          ⟨f.content ++ [.element ['v', 'i', 'e', 'w']
            (some [(['n', 'a', 'm', 'e'], .dynamicAttribute (.expression e))])
            (some []) false none], f.shared⟩ :: rest⟩ ∧
    ∀ children : List Node,
      parseHtmlEnd env endTag ['v', 'i', 'e', 'w']
          ⟨view, ⟨children, true⟩ ::
            ⟨f.content ++ [.element ['v', 'i', 'e', 'w']
              (some [(['n', 'a', 'm', 'e'], .dynamicAttribute (.expression e))])
              (some []) false none], f.shared⟩ :: rest⟩
        = .ok ⟨view, ⟨f.content ++ [.dynamicViewPointer (.expression e)
            (.attributes (some (if children.isEmpty then []
              else [(['c', 'o', 'n', 't', 'e', 'n', 't'],
                .parentWrapper (.template (some children)) none)])))
            (.hooks none)], f.shared⟩ :: rest⟩ := by
  have hattr : parseAttributes env [(['n', 'a', 'm', 'e'], .str value)] ⟨view, f :: rest⟩
      = .ok (some [(['n', 'a', 'm', 'e'], .dynamicAttribute (.expression e))],
          ⟨view, f :: rest⟩) := by
    have h := parseAttributes_pieces env ['n', 'a', 'm', 'e'] value view f rest
      [.expression body] [.dynamicText e] hv
      (by rw [htext]; simp [renderPieces, Piece.render]) ⟨hbal, trivial⟩
      (by simp [plainNodes, hb, hc, hpl])
    rw [h]
    cases e with
    | literal v m => exact absurd rfl (hlit v m)
    | _ => rfl
  constructor
  · simp [parseHtmlStart, hattr, hooksFromAttributes, getProp, hvoid, State.push, State.child]
  · intro children
    cases children with
    | nil =>
      simp [parseHtmlEnd, State.toParent, State.last, Node.withShared, parseElementClose,
        State.pop, parseViewElement, Node.attributes, getProp, Attribute.template,
        Node.deleteName, deleteProp, viewAttributesFromElement, hooksFromAttributes,
        finishParseViewElement, Node.content, State.push]
    | cons c cs =>
      simp [parseHtmlEnd, State.toParent, State.last, Node.withShared, parseElementClose,
        State.pop, parseViewElement, Node.attributes, getProp, Attribute.template,
        Node.deleteName, deleteProp, viewAttributesFromElement, hooksFromAttributes,
        finishParseViewElement, Node.content, State.push, setProp]

/-- C14, witness: `<view name="{{x}}">` with one text child, without any view
context. -/
theorem viewElement_dynamic_name_witness :
    parseHtmlStart plainEnv "<view>".toList "view".toList
        [("name".toList, .str "\x7b\x7bx\x7d\x7d".toList)] false ⟨none, [⟨[], false⟩]⟩
      = .ok ⟨none, [⟨[], true⟩,
          ⟨[.element "view".toList (some [("name".toList, .dynamicAttribute (.expression
              (.other ['x'] (some ⟨['x'], none, false, none, false, none, none⟩))))])
            (some []) false none], false⟩]⟩ ∧
    parseHtmlEnd plainEnv "</view>".toList "view".toList
        ⟨none, [⟨[.text ['a']], true⟩,
          ⟨[.element "view".toList (some [("name".toList, .dynamicAttribute (.expression
              (.other ['x'] (some ⟨['x'], none, false, none, false, none, none⟩))))])
            (some []) false none], false⟩]⟩
      = .ok ⟨none, [⟨[.dynamicViewPointer
          (.expression (.other ['x'] (some ⟨['x'], none, false, none, false, none, none⟩)))
          (.attributes (some [("content".toList,
            .parentWrapper (.template (some [.text ['a']])) none)]))
          (.hooks none)], false⟩]⟩ :=
  ⟨(viewElement_dynamic_name plainEnv none ⟨[], false⟩ [] "<view>".toList "</view>".toList
      "\x7b\x7bx\x7d\x7d".toList ['x']
      (.other ['x'] (some ⟨['x'], none, false, none, false, none, none⟩))
      rfl (by decide) rfl (by decide) (balanced_of_noBrace _ (by decide)) rfl rfl
      (fun _ _ h => Expression.noConfusion h)).1,
   (viewElement_dynamic_name plainEnv none ⟨[], false⟩ [] "<view>".toList "</view>".toList
      "\x7b\x7bx\x7d\x7d".toList ['x']
      (.other ['x'] (some ⟨['x'], none, false, none, false, none, none⟩))
      rfl (by decide) rfl (by decide) (balanced_of_noBrace _ (by decide)) rfl rfl
      (fun _ _ h => Expression.noConfusion h)).2 [.text ['a']]⟩

/-! ## Keyword prefixes of a value expression: claim C18 -/

theorem run_opt (a : Re) (inp : Str) (caps : Captures)
    (k : Str → Captures → Option Captures) :
    (Re.opt a).run inp caps k
      = match a.run inp caps k with
        | some r => some r
        | none => k inp caps := by
  rw [Re.run]

theorem run_star (c : CharClass) (inp : Str) (caps : Captures)
    (k : Str → Captures → Option Captures) :
    (Re.star c).run inp caps k = manyGreedy c inp (fun r => k r caps) := by
  rw [Re.run]

theorem run_plus_fail (c : CharClass) (greedy : Bool) (inp : Str) (caps : Captures)
    (k : Str → Captures → Option Captures) (h : ∀ x ∈ inp.head?, c.test x = false) :
    (Re.plus c greedy).run inp caps k = none := by
  cases inp with
  | nil => rw [Re.run]
  | cons x xs =>
    have hx := h x (by simp)
    cases greedy <;> simp [Re.run, hx]

theorem run_lit_none (s inp : Str) (caps : Captures) (k : Str → Captures → Option Captures)
    (h : ∀ r, inp = s ++ r → k r caps = none) : (Re.lit s).run inp caps k = none := by
  rw [Re.run]
  by_cases hp : s.isPrefixOf inp = true
  · obtain ⟨r, hr⟩ := List.isPrefixOf_iff_prefix.1 hp
    rw [if_pos hp, ← hr, List.drop_left]
    exact h r hr.symm
  · rw [if_neg hp]

theorem manyGreedy_prefix {α : Type} (c : CharClass) (a rest : Str) (k : Str → Option α)
    (ha : ∀ x ∈ a, c.test x = true) (hr : ∀ x ∈ rest.head?, c.test x = false)
    (hk : (k rest).isSome) : manyGreedy c (a ++ rest) k = k rest := by
  induction a with
  | nil => exact manyGreedy_stop c rest k hr
  | cons x xs ih =>
    have hx := ha x (by simp)
    have hxs := ih (fun y hy => ha y (by simp [hy]))
    rw [List.cons_append]
    simp only [manyGreedy, hx, if_true, hxs]
    cases hk0 : k rest with
    | none => simp [hk0] at hk
    | some r => rfl

theorem valueKeyword_run (kw rest : Str) (caps : Captures)
    (k : Str → Captures → Option Captures) (hkw : kw ∈ valueKeywords)
    (hk : (k rest caps).isSome) :
    valueKeyword.run (kw ++ rest) caps k = k rest caps := by
  obtain ⟨v, hv⟩ := Option.isSome_iff_exists.1 hk
  simp only [valueKeywords, List.mem_cons, List.mem_singleton, List.not_mem_nil, or_false] at hkw
  rcases hkw with h | h | h | h <;> subst h
  · rw [valueKeyword, run_alt, run_lit, hv]
  · rw [valueKeyword, run_alt, run_lit_fail _ _ _ _ (by simp [List.isPrefixOf])]
    simp only []
    rw [run_alt, run_lit, hv]
  · rw [valueKeyword, run_alt, run_lit_fail _ _ _ _ (by simp [List.isPrefixOf])]
    simp only []
    rw [run_alt, run_lit_fail _ _ _ _ (by simp [List.isPrefixOf])]
    simp only []
    rw [run_alt, run_lit, hv]
  · rw [valueKeyword, run_alt, run_lit_fail _ _ _ _ (by simp [List.isPrefixOf])]
    simp only []
    rw [run_alt, run_lit_fail _ _ _ _ (by simp [List.isPrefixOf])]
    simp only []
    rw [run_alt, run_lit_fail _ _ _ _ (by simp [List.isPrefixOf])]
    simp only []
    rw [run_lit]

theorem valueKeyword_none (inp : Str) (caps : Captures)
    (k : Str → Captures → Option Captures)
    (h : ∀ kw ∈ valueKeywords, ∀ r, inp = kw ++ r → k r caps = none) :
    valueKeyword.run inp caps k = none := by
  rw [valueKeyword, run_alt, run_lit_none _ _ _ _ (h _ (by simp [valueKeywords]))]
  simp only []
  rw [run_alt, run_lit_none _ _ _ _ (h _ (by simp [valueKeywords]))]
  simp only []
  rw [run_alt, run_lit_none _ _ _ _ (h _ (by simp [valueKeywords]))]
  simp only []
  rw [run_lit_none _ _ _ _ (h _ (by simp [valueKeywords]))]

theorem star_any_exec (rest : Str) (caps : Captures) :
    (Re.group 2 (.star .any)).run rest caps (fun _ c => some c) = some ((2, rest) :: caps) := by
  rw [run_group, run_star, manyGreedy_all _ _ _ (by intro x _; rfl) (by simp)]
  simp

/-- About `valueRegExp` on a keyword, white space and a rest that begins without
white space: the keyword and the rest are captured. -/
theorem valueRegExp_keyword (kw sp rest : Str) (hkw : kw ∈ valueKeywords) (hsp : sp ≠ [])
    (hspace : ∀ c ∈ sp, isSpace c = true) (hrest : ∀ c ∈ rest.head?, isSpace c = false) :
    valueRegExp.exec (kw ++ (sp ++ rest)) = some [(2, rest), (1, kw)] := by
  obtain ⟨w, ws, rfl⟩ := List.exists_cons_of_ne_nil hsp
  have hw : CharClass.space.test w = true := hspace w (by simp)
  have hws : ∀ x ∈ ws, CharClass.space.test x = true := fun x hx => hspace x (by simp [hx])
  have hlen : (kw ++ w :: (ws ++ rest)).length - (w :: (ws ++ rest)).length = kw.length := by
    simp
  have hinner : (Re.seq (.group 1 valueKeyword) (.plus .space true)).run
      (kw ++ (w :: ws ++ rest)) []
      (fun r c => (Re.group 2 (.star .any)).run r c (fun _ c => some c))
      = some [(2, rest), (1, kw)] := by
    rw [run_seq, run_group, valueKeyword_run kw _ _ _ hkw]
    · rw [List.cons_append, run_plus_greedy _ _ _ _ _ hw,
        manyGreedy_prefix _ ws rest _ hws hrest (by simp [star_any_exec]), star_any_exec, hlen,
        List.take_left]
    · rw [List.cons_append, run_plus_greedy _ _ _ _ _ hw,
        manyGreedy_prefix _ ws rest _ hws hrest (by simp [star_any_exec]), star_any_exec]
      rfl
  rw [Re.exec, valueRegExp, run_seq, run_opt, hinner]

/-- About `valueRegExp` on a text that begins with no keyword followed by
white space: no keyword is captured and the path is the whole text. -/
theorem valueRegExp_remainder (s : Str)
    (h : ∀ kw ∈ valueKeywords, ∀ r, s = kw ++ r → ∀ c ∈ r.head?, isSpace c = false) :
    valueRegExp.exec s = some [(2, s)] := by
  have hinner : (Re.seq (.group 1 valueKeyword) (.plus .space true)).run s []
      (fun r c => (Re.group 2 (.star .any)).run r c (fun _ c => some c)) = none := by
    rw [run_seq, run_group]
    apply valueKeyword_none
    intro kw hkw r hr
    exact run_plus_fail _ _ _ _ _ (h kw hkw r hr)
  rw [Re.exec, valueRegExp, run_seq, run_opt, hinner]
  simp only []
  exact star_any_exec s []

theorem valueKeywords_head (kw : Str) (hkw : kw ∈ valueKeywords) :
    ∃ c cs, kw = c :: cs ∧ isSpace c = false := by
  simp only [valueKeywords, List.mem_cons, List.mem_singleton, List.not_mem_nil, or_false] at hkw
  rcases hkw with h | h | h | h <;> subst h <;> exact ⟨_, _, rfl, by decide⟩

theorem renderPrefixes_head (ps : List (Str × Str)) (rem : Str)
    (hps : ∀ p ∈ ps, p.1 ∈ valueKeywords)
    (hrem : ∀ c ∈ rem.head?, isSpace c = false) :
    ∀ c ∈ (renderPrefixes ps rem).head?, isSpace c = false := by
  cases ps with
  | nil => exact hrem
  | cons p ps =>
    obtain ⟨kw, sp⟩ := p
    obtain ⟨c, cs, rfl, hc⟩ := valueKeywords_head kw (hps (_, sp) (by simp))
    intro x hx
    simp [renderPrefixes] at hx
    rw [← hx]
    exact hc

/-- The loop of `createExpression` consumes the keyword prefixes one by one,
within its budget, and stops at the remainder. -/
theorem valueLoop_prefixes (rem : Str)
    (hrem : ∀ c ∈ rem.head?, isSpace c = false)
    (hnokw : ∀ kw ∈ valueKeywords, ∀ r, rem = kw ++ r → ∀ c ∈ r.head?, isSpace c = false) :
    ∀ (ps : List (Str × Str)),
      (∀ p ∈ ps, p.1 ∈ valueKeywords ∧ p.2 ≠ [] ∧ ∀ c ∈ p.2, isSpace c = true) →
      ∀ (fuel : Nat) (meta : ExpressionMeta), ps.length < fuel →
        valueLoop fuel (some (renderPrefixes ps rem)) meta
          = .ok (some rem, (ps.map (fun p => p.1)).foldl applyKeyword meta) := by
  intro ps
  induction ps with
  | nil =>
    intro _ fuel meta hf
    cases fuel with
    | zero => simp at hf
    | succ f =>
      simp [valueLoop, renderPrefixes, valueRegExp_remainder rem hnokw, Captures.get,
        List.lookup, truthy]
  | cons p ps ih =>
    intro hps fuel meta hf
    obtain ⟨kw, sp⟩ := p
    obtain ⟨hkw, hsp, hspace⟩ := hps (kw, sp) (by simp)
    have hps' : ∀ p ∈ ps, p.1 ∈ valueKeywords ∧ p.2 ≠ [] ∧ ∀ c ∈ p.2, isSpace c = true :=
      fun q hq => hps q (by simp [hq])
    cases fuel with
    | zero => simp at hf
    | succ f =>
      have hhead := renderPrefixes_head ps rem (fun q hq => (hps' q hq).1) hrem
      have hexec := valueRegExp_keyword kw sp (renderPrefixes ps rem) hkw hsp hspace hhead
      have hih := ih hps' f (applyKeyword meta kw) (by simpa using hf)
      obtain ⟨c, cs, rfl, _⟩ := valueKeywords_head kw hkw
      simp only [valueLoop, renderPrefixes, Option.getD_some, hexec, Captures.get, List.lookup,
        truthy]
      simp only [List.map_cons, List.foldl_cons]
      simp only [valueKeywords, List.mem_cons, List.mem_singleton, List.not_mem_nil,
        or_false] at hkw
      rcases hkw with h | h | h | h <;> rw [h] at hih ⊢ <;> simpa [applyKeyword] using hih

theorem getLast?_cons_getD {α : Type} (a : α) (l : List α) :
    (a :: l).getLast? = some (l.getLast?.getD a) := by
  cases l with
  | nil => rfl
  | cons b bs =>
    rw [List.getLast?_cons_cons]
    cases h : (b :: bs).getLast? with
    | none => simp at h
    | some x => rfl

theorem lastBind_cons_bind (kw : Str) (rest : List Str)
    (h : kw = ['u', 'n', 'b', 'o', 'u', 'n', 'd'] ∨ kw = ['b', 'o', 'u', 'n', 'd']) :
    lastBind (kw :: rest) = some ((lastBind rest).getD kw) := by
  unfold lastBind
  rw [List.filter_cons, if_pos (by simpa using h), getLast?_cons_getD]

theorem lastBind_cons_other (kw : Str) (rest : List Str)
    (h : ¬ (kw = ['u', 'n', 'b', 'o', 'u', 'n', 'd'] ∨ kw = ['b', 'o', 'u', 'n', 'd'])) :
    lastBind (kw :: rest) = lastBind rest := by
  unfold lastBind
  rw [List.filter_cons, if_neg (by simpa using h)]

/-- The metadata after the keyword prefixes, field by field. -/
theorem foldl_applyKeyword (kws : List Str) (hk : ∀ k ∈ kws, k ∈ valueKeywords) :
    ∀ meta : ExpressionMeta,
      kws.foldl applyKeyword meta
        = ⟨meta.source, meta.blockType, meta.isEnd, meta.as,
            meta.unescaped || decide (['u', 'n', 'e', 's', 'c', 'a', 'p', 'e', 'd'] ∈ kws),
            (match lastBind kws with
              | some b => some b
              | none => meta.bindType),
            if ['v', 'i', 'e', 'w'] ∈ kws then some ['v', 'i', 'e', 'w'] else meta.valueType⟩ := by
  induction kws with
  | nil =>
    intro meta
    cases meta
    simp [lastBind]
  | cons kw rest ih =>
    intro meta
    have hkw := hk kw (by simp)
    have hrest := ih (fun k hk1 => hk k (by simp [hk1]))
    rw [List.foldl_cons, hrest]
    simp only [valueKeywords, List.mem_cons, List.mem_singleton, List.not_mem_nil,
      or_false] at hkw
    rcases hkw with h | h | h | h <;> subst h
    · rw [lastBind_cons_other _ _ (by decide)]
      simp [applyKeyword]
    · rw [lastBind_cons_bind _ _ (by decide)]
      cases lastBind rest <;> simp [applyKeyword]
    · rw [lastBind_cons_bind _ _ (by decide)]
      cases lastBind rest <;> simp [applyKeyword]
    · rw [lastBind_cons_other _ _ (by decide)]
      simp [applyKeyword]

theorem renderPrefixes_length (rem : Str) :
    ∀ (ps : List (Str × Str)), (∀ p ∈ ps, p.2 ≠ []) →
      ps.length ≤ (renderPrefixes ps rem).length := by
  intro ps
  induction ps with
  | nil => intro _; simp
  | cons p ps ih =>
    intro h
    obtain ⟨kw, sp⟩ := p
    have h1 : sp ≠ [] := h (kw, sp) (by simp)
    have h2 := ih (fun q hq => h q (by simp [hq]))
    have h3 : 0 < sp.length := List.length_pos.2 h1
    simp [renderPrefixes]
    omega

theorem renderPrefixes_getLast (rem : Str) (hne : rem ≠ []) :
    ∀ (ps : List (Str × Str)), (renderPrefixes ps rem).getLast? = rem.getLast? := by
  intro ps
  induction ps with
  | nil => rfl
  | cons p ps ih =>
    obtain ⟨kw, sp⟩ := p
    have hr : renderPrefixes ps rem ≠ [] := by
      intro h
      rw [h] at ih
      exact hne (List.getLast?_eq_none_iff.1 ih.symm)
    rw [renderPrefixes, getLast?_append_ne_nil _ _ (by simp [hr]),
      getLast?_append_ne_nil _ _ hr, ih]

theorem blockRegExp_valueKeyword (kw rest : Str) (hkw : kw ∈ valueKeywords) :
    blockRegExp.exec (kw ++ rest) = none := by
  rw [Re.exec, blockRegExp, run_seq, run_group, blockKeyword]
  simp only [valueKeywords, List.mem_cons, List.mem_singleton, List.not_mem_nil,
    or_false] at hkw
  rcases hkw with h | h | h | h <;> subst h <;> simp [run_alt, Re.run, List.isPrefixOf]

theorem classify_prefixes (rem : Str) (p : Str × Str) (ps : List (Str × Str))
    (hkw : ∀ q ∈ p :: ps, q.1 ∈ valueKeywords ∧ q.2 ≠ [] ∧ ∀ c ∈ q.2, isSpace c = true)
    (hrem : ∀ c ∈ rem.head?, isSpace c = false)
    (hnokw : ∀ kw ∈ valueKeywords, ∀ r, rem = kw ++ r → ∀ c ∈ r.head?, isSpace c = false) :
    classify (renderPrefixes (p :: ps) rem)
      = .ok (some rem, ((p :: ps).map (fun q => q.1)).foldl applyKeyword
          (ExpressionMeta.new (renderPrefixes (p :: ps) rem))) := by
  have hloop := valueLoop_prefixes rem hrem hnokw (p :: ps) hkw
    ((renderPrefixes (p :: ps) rem).length + 1) (ExpressionMeta.new (renderPrefixes (p :: ps) rem))
    (Nat.lt_succ_of_le (renderPrefixes_length rem (p :: ps) (fun q hq => (hkw q hq).2.1)))
  obtain ⟨kw, sp⟩ := p
  obtain ⟨hk, hsp, hspace⟩ := hkw (kw, sp) (by simp)
  obtain ⟨w, ws, rfl⟩ := List.exists_cons_of_ne_nil hsp
  have hw : isSpace w = true := hspace w (by simp)
  have hblock : blockRegExp.exec (renderPrefixes ((kw, w :: ws) :: ps) rem) = none :=
    blockRegExp_valueKeyword kw _ hk
  have hsrc : ¬ (renderPrefixes ((kw, w :: ws) :: ps) rem = ['e', 'l', 's', 'e'] ∨
      renderPrefixes ((kw, w :: ws) :: ps) rem = ['u', 'n', 'b', 'o', 'u', 'n', 'd'] ∨
      renderPrefixes ((kw, w :: ws) :: ps) rem = ['b', 'o', 'u', 'n', 'd']) := by
    have hmem : w ∈ renderPrefixes ((kw, w :: ws) :: ps) rem := by simp [renderPrefixes]
    have hno : ∀ c ∈ ['e', 'l', 's', 'e'] ++ ['u', 'n', 'b', 'o', 'u', 'n', 'd'],
        isSpace c = false := by decide
    rintro (h | h | h) <;> rw [h] at hmem <;>
      exact absurd hw (by
        rw [hno w (by
          revert hmem
          simp only [List.mem_append, List.mem_cons]
          tauto)]
        simp)
  have hslash : charAt (renderPrefixes ((kw, w :: ws) :: ps) rem) 0 ≠ ['/'] := by
    simp only [valueKeywords, List.mem_cons, List.mem_singleton, List.not_mem_nil,
      or_false] at hk
    rcases hk with h | h | h | h <;> subst h <;> simp [renderPrefixes, charAt]
  rw [classify, hblock]
  simp only [if_neg hsrc, if_neg hslash]
  exact hloop

/-- C18: for a value expression made of one or more prefixes, each a keyword
among `view`, `unbound`, `bound`, `unescaped` followed by white space, and then
a non-empty trimmed remainder that does not start with a keyword followed by
white space, `createExpression` hands exactly the remainder to the path
grammar, and the metadata of the result has the whole source, the unescaped
flag set exactly when `unescaped` occurs, the bind type equal to the last of
`bound` and `unbound` among the prefixes, and the value type `view` exactly when
`view` occurs. -/
theorem createExpression_value_prefixes (G : Grammar) (ps : List (Str × Str)) (rem : Str)
    (hps : ps ≠ [])
    (hkw : ∀ p ∈ ps, p.1 ∈ valueKeywords ∧ p.2 ≠ [] ∧ ∀ c ∈ p.2, isSpace c = true)
    (hne : rem ≠ [])
    (hhead : ∀ c ∈ rem.head?, isSpace c = false)
    (hlast : ∀ c ∈ rem.getLast?, isSpace c = false)
    (hnokw : ∀ kw ∈ valueKeywords, ∀ r, rem = kw ++ r → ∀ c ∈ r.head?, isSpace c = false) :
    createExpression G (renderPrefixes ps rem)
      = match G rem with
        | .ok e => .ok (e.setMeta
            ⟨renderPrefixes ps rem, none, false, none,
              decide (['u', 'n', 'e', 's', 'c', 'a', 'p', 'e', 'd'] ∈ ps.map (fun p => p.1)),
              lastBind (ps.map (fun p => p.1)),
              if ['v', 'i', 'e', 'w'] ∈ ps.map (fun p => p.1) then some ['v', 'i', 'e', 'w']
              else none⟩)
        | .error err => .error (.withinExpression err (renderPrefixes ps rem)) := by
  obtain ⟨p, ps, rfl⟩ := List.exists_cons_of_ne_nil hps
  have htrim : trim (renderPrefixes (p :: ps) rem) = renderPrefixes (p :: ps) rem := by
    apply trim_eq_self
    · obtain ⟨c, cs, hc, hsp⟩ := valueKeywords_head p.1 (hkw p (by simp)).1
      obtain ⟨kw, sp⟩ := p
      simp only at hc
      subst hc
      intro d hd
      simp only [renderPrefixes, List.cons_append, List.head?_cons, Option.mem_def,
        Option.some.injEq] at hd
      rw [← hd]
      exact hsp
    · rw [renderPrefixes_getLast rem hne]
      exact hlast
  have hfold := foldl_applyKeyword ((p :: ps).map (fun q => q.1))
    (fun k hk => by
      obtain ⟨q, hq, rfl⟩ := List.mem_map.1 hk
      exact (hkw q hq).1)
    (ExpressionMeta.new (renderPrefixes (p :: ps) rem))
  obtain ⟨x, xs, rfl⟩ := List.exists_cons_of_ne_nil hne
  rw [createExpression, htrim]
  simp only [classify_prefixes (x :: xs) p ps hkw hhead hnokw, truthy, if_true,
    Option.getD_some, hfold]
  cases G (x :: xs) with
  | error err => rfl
  | ok e =>
    simp only [ExpressionMeta.new, Bool.false_or]
    cases lastBind ((p :: ps).map (fun q => q.1)) <;> rfl

/-- C18, witness: `bound unbound x` has bind type `unbound` and path `x`. -/
theorem createExpression_value_prefixes_witness :
    createExpression sampleGrammar "bound unbound x".toList
      = .ok (.other ['x'] (some ⟨"bound unbound x".toList, none, false, none, false,
          some "unbound".toList, none⟩)) :=
  createExpression_value_prefixes sampleGrammar
    [(['b', 'o', 'u', 'n', 'd'], [' ']), (['u', 'n', 'b', 'o', 'u', 'n', 'd'], [' '])] ['x']
    (by simp) (by decide) (by simp) (by decide) (by decide)
    (by
      intro kw hkw r hr
      simp only [valueKeywords, List.mem_cons, List.mem_singleton, List.not_mem_nil,
        or_false] at hkw
      rcases hkw with h | h | h | h <;> subst h <;> simp at hr)

/-! ## Parallel lists of a conditional block: claim C19 -/

theorem balancedNodes_eq_all (l : List Node) : balancedNodes l = l.all Node.balanced := by
  induction l with
  | nil => rfl
  | cons n ns ih => simp [balancedNodes, ih]

theorem balancedLists_eq_all (l : List (List Node)) : balancedLists l = l.all balancedNodes := by
  induction l with
  | nil => rfl
  | cons n ns ih => simp [balancedLists, ih]

theorem balancedAttributes_eq_all (l : List (Str × Attribute)) :
    balancedAttributes l = l.all (fun kv => kv.2.balanced) := by
  induction l with
  | nil => rfl
  | cons n ns ih =>
    obtain ⟨k, a⟩ := n
    simp [balancedAttributes, ih]

theorem balancedViewAttributes_eq_all (l : List (Str × ViewValue)) :
    balancedViewAttributes l = l.all (fun kv => kv.2.balanced) := by
  induction l with
  | nil => rfl
  | cons n ns ih =>
    obtain ⟨k, a⟩ := n
    simp [balancedViewAttributes, ih]

theorem balancedViewItems_eq_all (l : List (List (Str × ViewValue))) :
    balancedViewItems l = l.all balancedViewAttributes := by
  induction l with
  | nil => rfl
  | cons n ns ih => simp [balancedViewItems, ih]

theorem balancedNodes_append (a b : List Node) :
    balancedNodes (a ++ b) = (balancedNodes a && balancedNodes b) := by
  simp [balancedNodes_eq_all]

theorem balancedNodes_dropLast (l : List Node) (h : balancedNodes l = true) :
    balancedNodes l.dropLast = true := by
  rw [balancedNodes_eq_all] at h ⊢
  rw [List.all_eq_true] at h ⊢
  exact fun x hx => h x (List.mem_of_mem_dropLast hx)

theorem balanced_of_getLast (l : List Node) (n : Node) (h : balancedNodes l = true)
    (hl : l.getLast? = some n) : n.balanced = true := by
  rw [balancedNodes_eq_all, List.all_eq_true] at h
  exact h n (List.mem_of_getLast?_eq_some hl)

theorem all_setProp {α : Type} (P : α → Bool) (key : Str) (v : α) (l : List (Str × α))
    (hv : P v = true) (hl : l.all (fun kv => P kv.2) = true) :
    (setProp key v l).all (fun kv => P kv.2) = true := by
  induction l with
  | nil => simp [setProp, hv]
  | cons kv rest ih =>
    obtain ⟨k, w⟩ := kv
    simp only [List.all_cons, Bool.and_eq_true] at hl
    unfold setProp
    split
    · simp only [List.all_cons, Bool.and_eq_true]
      exact ⟨hv, hl.2⟩
    · simp only [List.all_cons, Bool.and_eq_true]
      exact ⟨hl.1, ih hl.2⟩

theorem all_deleteProp {α : Type} (P : α → Bool) (key : Str) (l : List (Str × α))
    (hl : l.all (fun kv => P kv.2) = true) :
    (deleteProp key l).all (fun kv => P kv.2) = true := by
  rw [List.all_eq_true] at hl ⊢
  intro x hx
  exact hl x (List.mem_of_mem_filter hx)

theorem all_getProp {α : Type} (P : α → Bool) (key : Str) (l : List (Str × α)) (v : α)
    (hl : l.all (fun kv => P kv.2) = true) (hg : getProp key l = some v) : P v = true := by
  rw [List.all_eq_true] at hl
  unfold getProp at hg
  cases hf : l.find? (fun kv => kv.1 = key) with
  | none => simp [hf] at hg
  | some kv =>
    simp only [hf, Option.map_some', Option.some.injEq] at hg
    subst hg
    exact hl kv (List.mem_of_find?_eq_some hf)

theorem withShared_balanced (n : Node) (items : List Node) (hn : n.balanced = true)
    (hi : balancedNodes items = true) : (n.withShared items).balanced = true := by
  cases n with
  | conditionalBlock es cs =>
    simp only [Node.balanced, Bool.and_eq_true, decide_eq_true_eq] at hn
    obtain ⟨⟨hlen, hpos⟩, hcs⟩ := hn
    simp only [Node.withShared, Node.balanced, Bool.and_eq_true, decide_eq_true_eq]
    refine ⟨⟨?_, ?_⟩, ?_⟩
    · simp only [List.length_append, List.length_dropLast, List.length_singleton]
      omega
    · simp
    · rw [balancedLists_eq_all] at hcs ⊢
      rw [List.all_append, Bool.and_eq_true]
      constructor
      · rw [List.all_eq_true] at hcs ⊢
        exact fun x hx => hcs x (List.mem_of_mem_dropLast hx)
      · simp [hi]
  | eachBlock e c el =>
    cases el with
    | none => simpa [Node.withShared, Node.balanced] using hi
    | some l =>
      simp only [Node.balanced, Bool.and_eq_true] at hn
      simp [Node.withShared, Node.balanced, hn.1, hi]
  | block e c => simpa [Node.withShared, Node.balanced] using hi
  | element t a c s h =>
    cases c with
    | none => exact hn
    | some l =>
      cases a with
      | none => simpa [Node.withShared, Node.balanced] using hi
      | some m =>
        simp only [Node.balanced, Bool.and_eq_true] at hn
        simp [Node.withShared, Node.balanced, hn.1, hi]
  | template _ => exact hn
  | text _ => exact hn
  | dynamicText _ => exact hn
  | viewPointer _ _ _ _ => exact hn
  | dynamicViewPointer _ _ _ => exact hn
  | comment _ => exact hn
  | doctype _ _ _ => exact hn

theorem new_balanced (view : Option ViewContext) : (State.new view).balanced = true := rfl

theorem toParent_balanced (st st1 : State) (h : st.balanced = true)
    (hp : st.toParent = .ok st1) : st1.balanced = true := by
  obtain ⟨view, frames⟩ := st
  cases frames with
  | nil => simp [State.toParent] at hp
  | cons f rest =>
    cases rest with
    | nil =>
      simp only [State.toParent, Except.ok.injEq] at hp
      subst hp
      rfl
    | cons p rest =>
      simp only [State.balanced, List.all_cons, Bool.and_eq_true] at h
      obtain ⟨hf, hpb, hrest⟩ := h
      simp only [State.toParent] at hp
      split at hp
      · cases hl : p.content.getLast? with
        | none =>
          simp only [hl, Except.ok.injEq] at hp
          subst hp
          simp [State.balanced, hpb, hrest]
        | some n =>
          simp only [hl, Except.ok.injEq] at hp
          subst hp
          simp only [State.balanced, List.all_cons, Bool.and_eq_true]
          refine ⟨?_, hrest⟩
          rw [balancedNodes_append, Bool.and_eq_true]
          refine ⟨balancedNodes_dropLast _ hpb, ?_⟩
          simp [balancedNodes, withShared_balanced n f.content (balanced_of_getLast _ _ hpb hl) hf]
      · simp only [Except.ok.injEq] at hp
        subst hp
        simp [State.balanced, hpb, hrest]

theorem last_balanced (st : State) (n : Node) (h : st.balanced = true)
    (hl : st.last = .ok (some n)) : n.balanced = true := by
  obtain ⟨view, frames⟩ := st
  cases frames with
  | nil => simp [State.last] at hl
  | cons f rest =>
    simp only [State.balanced, List.all_cons, Bool.and_eq_true] at h
    simp only [State.last, Except.ok.injEq] at hl
    exact balanced_of_getLast _ _ h.1 hl

theorem push_balanced (st st1 : State) (n : Node) (h : st.balanced = true)
    (hn : n.balanced = true) (hp : st.push n = .ok st1) : st1.balanced = true := by
  obtain ⟨view, frames⟩ := st
  cases frames with
  | nil => simp [State.push] at hp
  | cons f rest =>
    simp only [State.balanced, List.all_cons, Bool.and_eq_true] at h
    simp only [State.push, Except.ok.injEq] at hp
    subst hp
    simp [State.balanced, balancedNodes_append, balancedNodes, h.1, h.2, hn]

theorem pop_balanced (st st1 : State) (o : Option Node) (h : st.balanced = true)
    (hp : st.pop = .ok (o, st1)) :
    st1.balanced = true ∧ ∀ n, o = some n → n.balanced = true := by
  obtain ⟨view, frames⟩ := st
  cases frames with
  | nil => simp [State.pop] at hp
  | cons f rest =>
    simp only [State.balanced, List.all_cons, Bool.and_eq_true] at h
    simp only [State.pop, Except.ok.injEq, Prod.mk.injEq] at hp
    obtain ⟨ho, hs⟩ := hp
    subst hs
    constructor
    · simp [State.balanced, balancedNodes_dropLast _ h.1, h.2]
    · intro n hn
      rw [hn] at ho
      exact balanced_of_getLast _ _ h.1 ho

theorem child_balanced (st st1 : State) (b : Bool) (h : st.balanced = true)
    (hp : st.child b = .ok st1) : st1.balanced = true := by
  obtain ⟨view, frames⟩ := st
  cases frames with
  | nil => simp [State.child] at hp
  | cons f rest =>
    simp only [State.child, Except.ok.injEq] at hp
    subst hp
    simpa [State.balanced, balancedNodes] using h

theorem setLast_balanced (st : State) (n : Node) (h : st.balanced = true)
    (hn : n.balanced = true) : (st.setLast n).balanced = true := by
  obtain ⟨view, frames⟩ := st
  cases frames with
  | nil => exact h
  | cons f rest =>
    simp only [State.balanced, List.all_cons, Bool.and_eq_true] at h
    simp [State.setLast, State.balanced, balancedNodes_append, balancedNodes,
      balancedNodes_dropLast _ h.1, h.2, hn]

theorem parseTextLiteral_balanced (data : Str) (st st1 : State) (h : st.balanced = true)
    (hp : parseTextLiteral data st = .ok st1) : st1.balanced = true :=
  push_balanced st st1 (.text data) h rfl hp

theorem parseValueExpression_balanced (expression : Expression) (st st1 : State)
    (h : st.balanced = true) (hp : parseValueExpression expression st = .ok st1) :
    st1.balanced = true :=
  push_balanced st st1 (.dynamicText expression) h rfl hp

theorem parseBlockExpression_balanced (expression : Expression) (st st2 : State)
    (h : st.balanced = true) (hp : parseBlockExpression expression st = .ok st2) :
    st2.balanced = true := by
  unfold parseBlockExpression at hp
  cases hm : expression.meta with
  | none => simp [hm] at hp
  | some meta =>
    simp only [hm] at hp
    cases hend : meta.isEnd with
    | true =>
      simp only [hend, if_true] at hp
      cases h1 : st.toParent with
      | error e => simp [h1] at hp
      | ok st1 =>
        have hb1 := toParent_balanced st st1 h h1
        simp only [h1] at hp
        cases h2 : st1.last with
        | error e => simp [h2] at hp
        | ok last =>
          simp only [h2] at hp
          split at hp
          · cases hp
          · split at hp
            · cases hp
            · split at hp
              · cases hp
                exact hb1
              · cases hp
    | false =>
      simp only [hend, Bool.false_eq_true, if_false] at hp
      split at hp
      · cases h1 : st.toParent with
        | error e => simp [h1] at hp
        | ok st1 =>
          have hb1 := toParent_balanced st st1 h h1
          simp only [h1] at hp
          cases h2 : st1.last with
          | error e => simp [h2] at hp
          | ok last =>
            simp only [h2] at hp
            cases last with
            | none => simp [unexpected] at hp
            | some n =>
              have hl := last_balanced st1 n hb1 h2
              cases n with
              | conditionalBlock es cs =>
                simp only [Node.balanced, Bool.and_eq_true, decide_eq_true_eq] at hl
                refine child_balanced _ st2 true (setLast_balanced st1 _ hb1 ?_) hp
                simp only [Node.balanced, Bool.and_eq_true, decide_eq_true_eq,
                  List.length_append, List.length_singleton]
                refine ⟨⟨by omega, by omega⟩, ?_⟩
                rw [balancedLists_eq_all, List.all_append, ← balancedLists_eq_all, hl.2]
                rfl
              | eachBlock e c el =>
                simp only [] at hp
                split at hp
                · cases hp
                · refine child_balanced _ st2 true (setLast_balanced st1 _ hb1 ?_) hp
                  cases el with
                  | none => simpa [Node.balanced, balancedNodes] using hl
                  | some l =>
                    simp only [Node.balanced, Bool.and_eq_true] at hl
                    simp [Node.balanced, balancedNodes, hl.1]
              | _ => simp [unexpected] at hp
      · cases h1 : st.push (if meta.blockType = some ['i', 'f'] ∨
            meta.blockType = some ['u', 'n', 'l', 'e', 's', 's'] then
              Node.conditionalBlock [expression] [[]]
            else if meta.blockType = some ['e', 'a', 'c', 'h'] then
              Node.eachBlock expression [] none
            else Node.block expression []) with
        | error e => simp [h1] at hp
        | ok st1 =>
          simp only [h1] at hp
          refine child_balanced st1 st2 true (push_balanced st st1 _ h ?_ h1) hp
          split
          · rfl
          · split <;> rfl

theorem foldl_setProp_all {α β : Type} (P : α → Bool) (f : β → Str) (g : β → α) (l : List β)
    (hg : ∀ b ∈ l, P (g b) = true) :
    ∀ acc : List (Str × α), acc.all (fun kv => P kv.2) = true →
      (l.foldl (fun acc b => setProp (f b) (g b) acc) acc).all (fun kv => P kv.2) = true := by
  induction l with
  | nil => exact fun acc h => h
  | cons b bs ih =>
    intro acc h
    rw [List.foldl_cons]
    exact ih (fun x hx => hg x (by simp [hx])) _
      (all_setProp P _ _ _ (hg b (by simp)) h)

theorem attributes_balanced (n : Node) (a : AttributesMap) (hn : n.balanced = true)
    (ha : n.attributes = some a) : balancedAttributes a = true := by
  cases n with
  | element t a1 c s h =>
    simp only [Node.attributes] at ha
    subst ha
    cases c with
    | none => simpa [Node.balanced] using hn
    | some l =>
      simp only [Node.balanced, Bool.and_eq_true] at hn
      exact hn.1
  | _ => simp [Node.attributes] at ha

theorem content_balanced (n : Node) (hn : n.balanced = true) :
    Node.balanced (.template n.content) = true := by
  cases n with
  | template c => exact hn
  | eachBlock e c el =>
    cases el with
    | none => simpa [Node.content, Node.balanced] using hn
    | some l =>
      simp only [Node.balanced, Bool.and_eq_true] at hn
      simpa [Node.content, Node.balanced] using hn.1
  | block e c => simpa [Node.content, Node.balanced] using hn
  | element t a c s h =>
    cases c with
    | none => rfl
    | some l =>
      cases a with
      | none => simpa [Node.content, Node.balanced] using hn
      | some m =>
        simp only [Node.balanced, Bool.and_eq_true] at hn
        simpa [Node.content, Node.balanced] using hn.2
  | _ => rfl

theorem deleteName_balanced (n : Node) (hn : n.balanced = true) :
    n.deleteName.balanced = true := by
  cases n with
  | element t a c s h =>
    cases a with
    | none => exact hn
    | some m =>
      have hd : ∀ m : AttributesMap, balancedAttributes m = true →
          balancedAttributes (deleteProp ['n', 'a', 'm', 'e'] m) = true := by
        intro m hm
        rw [balancedAttributes_eq_all] at hm ⊢
        exact all_deleteProp Attribute.balanced _ _ hm
      cases c with
      | none =>
        simp only [Node.balanced] at hn
        simpa [Node.deleteName, Node.balanced] using hd m hn
      | some l =>
        simp only [Node.balanced, Bool.and_eq_true] at hn
        simp [Node.deleteName, Node.balanced, hd m hn.1, hn.2]
  | _ => exact hn

theorem viewAttributesFromElement_balanced (element : Node) (hn : element.balanced = true) :
    balancedViewAttributes (viewAttributesFromElement element) = true := by
  rw [balancedViewAttributes_eq_all]
  unfold viewAttributesFromElement
  apply foldl_setProp_all ViewValue.balanced
  · intro kv hkv
    have hall : balancedAttributes (element.attributes.getD []) = true := by
      cases ha : element.attributes with
      | none => rfl
      | some a => exact attributes_balanced element a hn ha
    rw [balancedAttributes_eq_all, List.all_eq_true] at hall
    have hb := hall kv hkv
    obtain ⟨k, v⟩ := kv
    rcases v with d | t
    · rfl
    · cases t with
      | undefined => rfl
      | expression e => rfl
      | template t => simpa [Attribute.balanced, Dynamic.balanced, ViewValue.balanced] using hb
  · rfl

theorem attributesFromExpression_balanced (expression : Option Expression)
    (va : ViewAttributes) (h : attributesFromExpression expression = .ok (some va)) :
    balancedViewAttributes va = true := by
  cases expression with
  | none => simp [attributesFromExpression] at h
  | some e =>
    simp only [attributesFromExpression] at h
    cases ho : objectFromObjectExpression e with
    | error err => simp [ho] at h
    | ok object =>
      simp only [ho, Except.ok.injEq, Option.some.injEq] at h
      subst h
      rw [balancedViewAttributes_eq_all]
      apply foldl_setProp_all ViewValue.balanced
      · intro kv _
        obtain ⟨k, v⟩ := kv
        cases v with
        | js v => rfl
        | expression e =>
          cases e <;> rfl
      · rfl

theorem hooksFromAttributes_all {α : Type} (P : α → Bool) (truthyOf : α → Bool)
    (dataOf : α → JsValue) (env : Env) (attributes : Option (List (Str × α)))
    (type : HookType) (hooks : Option (List Hook)) (attributes1 : Option (List (Str × α)))
    (ha : ∀ a, attributes = some a → a.all (fun kv => P kv.2) = true)
    (h : hooksFromAttributes truthyOf dataOf env attributes type = .ok (hooks, attributes1)) :
    ∀ a, attributes1 = some a → a.all (fun kv => P kv.2) = true := by
  cases attributes with
  | none =>
    simp only [hooksFromAttributes, Except.ok.injEq, Prod.mk.injEq] at h
    intro a ha1
    rw [← h.2] at ha1
    cases ha1
  | some attrs =>
    have h0 := ha attrs rfl
    unfold hooksFromAttributes at h
    simp only [] at h
    split at h
    · cases h
    · rename_i hooks1 attrs1 hAs
      have h1 : attrs1.all (fun kv => P kv.2) = true := by
        split at hAs
        · cases hAs
          exact h0
        · split at hAs
          · split at hAs
            · cases hAs
              exact all_deleteProp P _ _ h0
            · cases hAs
          · cases hAs
            exact h0
      split at h
      · cases h
      · rename_i hooks2 attrs2 hOn
        have h2 : attrs2.all (fun kv => P kv.2) = true := by
          split at hOn
          · cases hOn
            exact h1
          · split at hOn
            · split at hOn
              · cases hOn
              · split at hOn
                · cases hOn
                · cases hOn
                  exact all_deleteProp P _ _ h1
            · cases hOn
              exact h1
        simp only [Except.ok.injEq, Prod.mk.injEq] at h
        intro a ha1
        rw [← h.2] at ha1
        cases ha1
        exact h2

theorem parseNameAttribute_balanced (element element1 : Node) (name : JsValue)
    (hn : element.balanced = true) (h : parseNameAttribute element = .ok (name, element1)) :
    element1.balanced = true := by
  unfold parseNameAttribute at h
  split at h
  · cases h
  · split at h
    · cases h
    · simp only [] at h
      split at h
      · cases h
      · simp only [Except.ok.injEq, Prod.mk.injEq] at h
        rw [← h.2]
        exact deleteName_balanced element hn

theorem parseAttributeElement_balanced (element : Node) (name : Str)
    (viewAttributes : ViewAttributes) (hn : element.balanced = true)
    (hv : balancedViewAttributes viewAttributes = true) :
    balancedViewAttributes (parseAttributeElement element name viewAttributes) = true := by
  rw [balancedViewAttributes_eq_all] at hv ⊢
  exact all_setProp ViewValue.balanced _ _ _ (content_balanced element hn) hv

theorem parseArrayElement_balanced (element : Node) (name : Str)
    (viewAttributes viewAttributes1 : ViewAttributes) (hn : element.balanced = true)
    (hv : balancedViewAttributes viewAttributes = true)
    (h : parseArrayElement element name viewAttributes = .ok viewAttributes1) :
    balancedViewAttributes viewAttributes1 = true := by
  have hitem := viewAttributesFromElement_balanced element hn
  have hc := content_balanced element hn
  unfold parseArrayElement at h
  simp only [] at h
  split at h
  · cases h
  · rename_i item1 hw
    have h1 : balancedViewAttributes item1 = true := by
      split at hw
      · cases hw
        exact hitem
      · split at hw
        · cases hw
        · cases hw
          exact hitem
        · rename_i content _ hcontent
          cases hw
          rw [balancedViewAttributes_eq_all] at hitem ⊢
          refine all_setProp ViewValue.balanced _ _ _ ?_ hitem
          rw [hcontent] at hc
          exact hc
    have hset : ∀ items : List ViewAttributes, balancedViewItems items = true →
        balancedViewAttributes (setProp name (ViewValue.array (items ++ [item1]))
          viewAttributes) = true := by
      intro items hi
      rw [balancedViewAttributes_eq_all] at hv ⊢
      refine all_setProp ViewValue.balanced _ _ _ ?_ hv
      rw [balancedViewItems_eq_all] at hi
      simp [ViewValue.balanced, balancedViewItems_eq_all, hi, h1]
    split at h
    · rename_i items hg
      cases h
      apply hset
      rw [balancedViewAttributes_eq_all] at hv
      exact all_getProp ViewValue.balanced _ _ _ hv hg
    · split at h
      · cases h
      · cases h
        exact hset [] rfl
    · cases h
      exact hset [] rfl

theorem parseContentLoop_balanced (view : View) :
    ∀ (items remaining : List Node) (viewAttributes : ViewAttributes)
      (remaining1 : List Node) (viewAttributes1 : ViewAttributes),
      balancedNodes items = true → balancedNodes remaining = true →
      balancedViewAttributes viewAttributes = true →
      parseContentLoop view items remaining viewAttributes = .ok (remaining1, viewAttributes1) →
      balancedNodes remaining1 = true ∧ balancedViewAttributes viewAttributes1 = true := by
  intro items
  induction items with
  | nil =>
    intro remaining va remaining1 va1 _ hr hv h
    simp only [parseContentLoop, Except.ok.injEq, Prod.mk.injEq] at h
    rw [← h.1, ← h.2]
    exact ⟨hr, hv⟩
  | cons item rest ih =>
    intro remaining va remaining1 va1 hi hr hv h
    simp only [balancedNodes, Bool.and_eq_true] at hi
    obtain ⟨hitem, hrest⟩ := hi
    unfold parseContentLoop at h
    simp only [] at h
    split at h
    · split at h
      · cases h
      · rename_i name1 item1 hname
        exact ih _ _ _ _ hrest hr (parseAttributeElement_balanced _ _ _
          (parseNameAttribute_balanced _ _ _ hitem hname) hv) h
    · split at h
      · exact ih _ _ _ _ hrest hr (parseAttributeElement_balanced _ _ _ hitem hv) h
      · split at h
        · split at h
          · cases h
          · rename_i name1 item1 hname
            split at h
            · cases h
            · rename_i va2 harr
              exact ih _ _ _ _ hrest hr (parseArrayElement_balanced _ _ _ _
                (parseNameAttribute_balanced _ _ _ hitem hname) hv harr) h
        · split at h
          · split at h
            · cases h
            · rename_i va2 harr
              exact ih _ _ _ _ hrest hr (parseArrayElement_balanced _ _ _ _ hitem hv harr) h
          · refine ih _ _ _ _ hrest ?_ hv h
            rw [balancedNodes_append, hr]
            simp [balancedNodes, hitem]

theorem parseContentAttributes_balanced (content : Option (List Node)) (view : View)
    (viewAttributes : ViewAttributes) (remaining : List Node) (viewAttributes1 : ViewAttributes)
    (hc : Node.balanced (.template content) = true)
    (hv : balancedViewAttributes viewAttributes = true)
    (h : parseContentAttributes content view viewAttributes = .ok (remaining, viewAttributes1)) :
    balancedNodes remaining = true ∧ balancedViewAttributes viewAttributes1 = true := by
  cases content with
  | none =>
    simp only [parseContentAttributes, Except.ok.injEq, Prod.mk.injEq] at h
    rw [← h.1, ← h.2]
    exact ⟨rfl, hv⟩
  | some items =>
    exact parseContentLoop_balanced view items [] viewAttributes remaining viewAttributes1
      hc rfl hv h

theorem finishParseViewElement_balanced (viewAttributes : ViewAttributes)
    (remaining : List Node) (viewPointer : ViewAttributes → Node) (st st1 : State)
    (hs : st.balanced = true) (hv : balancedViewAttributes viewAttributes = true)
    (hr : balancedNodes remaining = true)
    (hp : ∀ va, balancedViewAttributes va = true → (viewPointer va).balanced = true)
    (h : finishParseViewElement viewAttributes remaining viewPointer st = .ok st1) :
    st1.balanced = true := by
  unfold finishParseViewElement at h
  refine push_balanced st st1 _ hs (hp _ ?_) h
  split
  · rw [balancedViewAttributes_eq_all] at hv ⊢
    exact all_setProp ViewValue.balanced _ _ _ hr hv
  · exact hv

theorem hooksFromViewAttributes_balanced (env : Env) (viewAttributes : Option ViewAttributes)
    (hooks : Option (List Hook)) (viewAttributes1 : Option ViewAttributes)
    (hv : ∀ a, viewAttributes = some a → balancedViewAttributes a = true)
    (h : hooksFromAttributes ViewValue.truthy ViewValue.data env viewAttributes .component
      = .ok (hooks, viewAttributes1)) :
    ∀ a, viewAttributes1 = some a → balancedViewAttributes a = true := by
  intro a ha
  rw [balancedViewAttributes_eq_all]
  refine hooksFromAttributes_all ViewValue.balanced _ _ env viewAttributes _ hooks
    viewAttributes1 ?_ h a ha
  intro b hb
  rw [← balancedViewAttributes_eq_all]
  exact hv b hb

theorem parseNamedViewElement_balanced (env : Env) (element : Node) (view : View)
    (name : JsValue) (st st1 : State) (hs : st.balanced = true)
    (hn : element.balanced = true)
    (h : parseNamedViewElement env element view name st = .ok st1) : st1.balanced = true := by
  unfold parseNamedViewElement at h
  simp only [] at h
  split at h
  · cases h
  · rename_i hooks va1 hh
    have h1 := hooksFromViewAttributes_balanced env _ hooks va1
      (fun a ha => by
        cases ha
        exact viewAttributesFromElement_balanced element hn) hh
    have h1d : balancedViewAttributes (va1.getD []) = true := by
      cases va1 with
      | none => rfl
      | some a => exact h1 a rfl
    split at h
    · cases h
    · rename_i remaining va2 hc
      obtain ⟨hr, hv2⟩ := parseContentAttributes_balanced _ _ _ _ _
        (content_balanced element hn) h1d hc
      exact finishParseViewElement_balanced _ _ _ st st1 hs hv2 hr
        (fun va hva => by simpa [Node.balanced] using hva) h

theorem parseViewElement_balanced (env : Env) (element : Option Node) (st st1 : State)
    (hs : st.balanced = true) (hn : ∀ e, element = some e → e.balanced = true)
    (h : parseViewElement env element st = .ok st1) : st1.balanced = true := by
  cases element with
  | none => simp [parseViewElement] at h
  | some element =>
    have hne := hn element rfl
    have hd := deleteName_balanced element hne
    simp only [parseViewElement] at h
    split at h
    · cases h
    · rename_i attributes hattr
      have hab := attributes_balanced element attributes hne hattr
      split at h
      · cases h
      · rename_i nameAttribute hname
        rw [balancedAttributes_eq_all] at hab
        have hnb := all_getProp Attribute.balanced _ _ _ hab hname
        split at h
        · split at h
          · cases h
          · exact parseNamedViewElement_balanced env _ _ _ st st1 hs hd h
        · rename_i template _
          split at h
          · cases h
          · rename_i hooks va1 hh
            have h1 := hooksFromViewAttributes_balanced env _ hooks va1
              (fun a ha => by
                cases ha
                exact viewAttributesFromElement_balanced _ hd) hh
            have h1d : balancedViewAttributes (va1.getD []) = true := by
              cases va1 with
              | none => rfl
              | some a => exact h1 a rfl
            have hr : balancedNodes (element.deleteName.content.getD []) = true := by
              have hc := content_balanced _ hd
              cases hcc : element.deleteName.content with
              | none => rfl
              | some c =>
                rw [hcc] at hc
                exact hc
            have ht : nameAttribute.template.balanced = true := by
              rcases nameAttribute with d | t
              · rfl
              · exact hnb
            refine finishParseViewElement_balanced _ _ _ st st1 hs h1d hr ?_ h
            intro va hva
            simp [Node.balanced, ViewSlot.balanced, ht, hva]

theorem parseViewExpression_balanced (env : Env) (expression : Expression) (st st1 : State)
    (hs : st.balanced = true) (h : parseViewExpression env expression st = .ok st1) :
    st1.balanced = true := by
  unfold parseViewExpression at h
  simp only [] at h
  split at h
  · cases h
  · rename_i va hva
    split at h
    · cases h
    · rename_i hooks va1 hh
      have h1 := hooksFromViewAttributes_balanced env va hooks va1
        (fun a ha => by
          subst ha
          exact attributesFromExpression_balanced _ a hva) hh
      have hslot : ViewSlot.balanced (.attributes va1) = true := by
        cases va1 with
        | none => rfl
        | some a => exact h1 a rfl
      split at h
      · split at h
        · cases h
        · refine push_balanced st st1 _ hs ?_ h
          cases va1 with
          | none => rfl
          | some a => exact h1 a rfl
      · refine push_balanced st st1 _ hs ?_ h
        rw [Node.balanced, hslot]
        rfl
      · refine push_balanced st st1 _ hs ?_ h
        rw [Node.balanced, hslot]
        rfl

theorem parseTextExpression_balanced (env : Env) (expression : Expression) (st st1 : State)
    (hs : st.balanced = true) (h : parseTextExpression env expression st = .ok st1) :
    st1.balanced = true := by
  unfold parseTextExpression at h
  split at h
  · cases h
  · split at h
    · exact parseBlockExpression_balanced expression st st1 hs h
    · split at h
      · exact parseViewExpression_balanced env expression st st1 hs h
      · exact parseValueExpression_balanced expression st st1 hs h

/-- A property of the state that both callbacks keep is kept by the scanner. -/
theorem parseTextLoop_invariant {σ : Type} (P : σ → Prop) (G : Grammar) (data : Str)
    (onLiteral : Str → σ → Except Error σ) (onExpression : Expression → σ → Except Error σ)
    (hl : ∀ d s s1, P s → onLiteral d s = .ok s1 → P s1)
    (he : ∀ e s s1, P s → onExpression e s = .ok s1 → P s1) :
    ∀ (fuel : Nat) (current : Str) (last : Option Str) (st st1 : σ), P st →
      parseTextLoop G data onLiteral onExpression fuel current last st = .ok st1 → P st1 := by
  intro fuel
  induction fuel with
  | zero =>
    intro current last st st1 _ h
    simp [parseTextLoop] at h
  | succ f ih =>
    intro current last st st1 hP h
    unfold parseTextLoop at h
    split at h
    · cases h
      exact hP
    · split at h
      · cases h
      · split at h
        · exact hl _ _ _ hP h
        · split at h
          · cases h
          · cases h
          · split at h
            · cases h
            · rename_i sa hsa
              have hPa : P sa := by
                split at hsa
                · exact hl _ _ _ hP hsa
                · cases hsa
                  exact hP
              simp only [] at h
              split at h
              · cases h
              · rename_i sb hsb
                have hPb : P sb := by
                  split at hsb
                  · simp only [Except.bind] at hsb
                    split at hsb
                    · cases hsb
                    · exact he _ _ _ hPa hsb
                  · cases hsb
                    exact hPa
                exact ih _ _ _ _ hPb h

theorem parseText_invariant {σ : Type} (P : σ → Prop) (G : Grammar) (data : Str)
    (onLiteral : Str → σ → Except Error σ) (onExpression : Expression → σ → Except Error σ)
    (hl : ∀ d s s1, P s → onLiteral d s = .ok s1 → P s1)
    (he : ∀ e s s1, P s → onExpression e s = .ok s1 → P s1)
    (st st1 : σ) (hP : P st) (h : parseText G data onLiteral onExpression st = .ok st1) :
    P st1 :=
  parseTextLoop_invariant P G data onLiteral onExpression hl he _ _ _ st st1 hP h

theorem parseText_balanced (env : Env) (data : Str) (st st1 : State) (hs : st.balanced = true)
    (h : parseText env.createPathExpression data parseTextLiteral (parseTextExpression env) st
      = .ok st1) : st1.balanced = true :=
  parseText_invariant (fun s => s.balanced = true) _ _ _ _
    (fun d s s1 hb hp => parseTextLiteral_balanced d s s1 hb hp)
    (fun e s s1 hb hp => parseTextExpression_balanced env e s s1 hb hp) st st1 hs h

theorem parseElementClose_balanced (env : Env) (tagName : Str) (st st1 : State)
    (hs : st.balanced = true) (h : parseElementClose env tagName st = .ok st1) :
    st1.balanced = true := by
  unfold parseElementClose at h
  split at h
  · split at h
    · cases h
    · rename_i element st2 hpop
      obtain ⟨h2, he⟩ := pop_balanced st st2 element hs hpop
      exact parseViewElement_balanced env element st2 st1 h2 he h
  · split at h
    · cases h
    · split at h
      · cases h
        exact hs
      · split at h
        · cases h
          exact hs
        · split at h
          · cases h
          · cases h
          · rename_i element st2 hpop
            obtain ⟨h2, he⟩ := pop_balanced st st2 (some element) hs hpop
            exact parseNamedViewElement_balanced env element _ _ st2 st1 h2 (he element rfl) h

theorem parseHtmlEnd_balanced (env : Env) (tag tagName : Str) (st st1 : State)
    (hs : st.balanced = true) (h : parseHtmlEnd env tag tagName st = .ok st1) :
    st1.balanced = true := by
  unfold parseHtmlEnd at h
  split at h
  · cases h
  · rename_i st2 hpar
    have h2 := toParent_balanced st st2 hs hpar
    split at h
    · cases h
    · split at h
      · split at h
        · exact parseElementClose_balanced env tagName st2 st1 h2 h
        · cases h
      · cases h

theorem attributeFromContent_balanced (content : List Node) (attr : Attribute)
    (hc : balancedNodes content = true) (h : attributeFromContent content = some attr) :
    attr.balanced = true := by
  unfold attributeFromContent at h
  split at h
  · cases h
  · split at h
    · cases h
      rfl
    · split at h
      · cases h
        rfl
      · cases h
        rfl
      · cases h
        rfl
  · cases h
    exact hc

theorem parseAttributesLoop_balanced (env : Env) :
    ∀ (attributes : List (Str × JsValue)) (attributesMap : Option AttributesMap) (st : State)
      (attributesMap1 : Option AttributesMap) (st1 : State),
      st.balanced = true → (∀ m, attributesMap = some m → balancedAttributes m = true) →
      parseAttributesLoop env attributes attributesMap st = .ok (attributesMap1, st1) →
      st1.balanced = true ∧ ∀ m, attributesMap1 = some m → balancedAttributes m = true := by
  intro attributes
  induction attributes with
  | nil =>
    intro map st map1 st1 hs hm h
    simp only [parseAttributesLoop, Except.ok.injEq, Prod.mk.injEq] at h
    rw [← h.1, ← h.2]
    exact ⟨hs, hm⟩
  | cons kv rest ih =>
    intro map st map1 st1 hs hm h
    obtain ⟨key, value⟩ := kv
    have hmap : balancedAttributes (map.getD []) = true := by
      cases map with
      | none => rfl
      | some m => exact hm m rfl
    have hset : ∀ attr : Attribute, attr.balanced = true →
        ∀ m, some (setProp key attr (map.getD [])) = some m → balancedAttributes m = true := by
      intro attr ha m hmm
      cases hmm
      rw [balancedAttributes_eq_all] at hmap ⊢
      exact all_setProp Attribute.balanced _ _ _ ha hmap
    unfold parseAttributesLoop at h
    simp only [] at h
    split at h
    · rename_i c cs
      split at h
      · cases h
      · rename_i sa hsa
        have ha := child_balanced st sa false hs hsa
        split at h
        · cases h
        · rename_i sb hsb
          have hb := parseText_balanced env _ sa sb ha hsb
          split at h
          · cases h
          · rename_i f frest hframes
            have hf : balancedNodes f.content = true := by
              have hb1 := hb
              simp only [State.balanced, hframes, List.all_cons, Bool.and_eq_true] at hb1
              exact hb1.1
            split at h
            · cases h
            · rename_i attr hattr
              split at h
              · cases h
              · rename_i sc hsc
                exact ih _ _ _ _ (toParent_balanced sb sc hb hsc)
                  (hset attr (attributeFromContent_balanced _ _ hf hattr)) h
    · exact ih _ _ _ _ hs (hset (.attribute value) rfl) h

theorem parseHtmlStart_balanced (env : Env) (tag tagName : Str)
    (attributes : List (Str × JsValue)) (selfClosing : Bool) (st st1 : State)
    (hs : st.balanced = true)
    (h : parseHtmlStart env tag tagName attributes selfClosing st = .ok st1) :
    st1.balanced = true := by
  unfold parseHtmlStart at h
  split at h
  · cases h
  · rename_i map sa hpa
    obtain ⟨ha, hm⟩ := parseAttributesLoop_balanced env attributes none st map sa hs
      (fun m hmm => by cases hmm) hpa
    split at h
    · cases h
    · rename_i hooks map1 hh
      have hm1 : ∀ m, map1 = some m → balancedAttributes m = true := by
        intro m hmm
        rw [balancedAttributes_eq_all]
        refine hooksFromAttributes_all Attribute.balanced _ _ env map _ hooks map1 ?_ hh m hmm
        intro b hb
        rw [← balancedAttributes_eq_all]
        exact hm b hb
      split at h
      · split at h
        · cases h
        · rename_i sb hsb
          have hb : sb.balanced = true := by
            refine push_balanced sa sb _ ha ?_ hsb
            cases map1 with
            | none => rfl
            | some m => exact hm1 m rfl
          split at h
          · exact parseElementClose_balanced env tagName sb st1 hb h
          · cases h
            exact hb
      · split at h
        · cases h
        · rename_i sb hsb
          refine child_balanced sb st1 true (push_balanced sa sb _ ha ?_ hsb) h
          cases map1 with
          | none => rfl
          | some m => simpa [Node.balanced, balancedNodes] using hm1 m rfl

theorem parseHtmlComment_balanced (conditional : Bool) (data : Str) (st st1 : State)
    (hs : st.balanced = true) (h : parseHtmlComment conditional data st = .ok st1) :
    st1.balanced = true := by
  unfold parseHtmlComment at h
  split at h
  · cases h
    exact hs
  · exact push_balanced st st1 (.comment data) hs rfl h

theorem parseHtmlOther_balanced (tag : Str) (doctypeMatch : Option Captures) (st st1 : State)
    (hs : st.balanced = true) (h : parseHtmlOther tag doctypeMatch st = .ok st1) :
    st1.balanced = true := by
  unfold parseHtmlOther at h
  split at h
  · refine push_balanced st st1 _ hs ?_ h
    rfl
  · cases h

/-- The invariant of the parser: in every reachable state every
`ConditionalBlock` has as many expressions as content lists. -/
theorem reachable_balanced (env : Env) (view : Option ViewContext) (st : State)
    (h : Reachable env view st) : st.balanced = true := by
  induction h with
  | root => rfl
  | htmlStart tag tagName attributes selfClosing st st1 _ hp ih =>
    exact parseHtmlStart_balanced env tag tagName attributes selfClosing st st1 ih hp
  | htmlEnd tag tagName st st1 _ hp ih => exact parseHtmlEnd_balanced env tag tagName st st1 ih hp
  | htmlText data st st1 _ hp ih => exact parseText_balanced env _ st st1 ih hp
  | htmlComment conditional data st st1 _ hp ih =>
    exact parseHtmlComment_balanced conditional data st st1 ih hp
  | htmlOther tag doctypeMatch st st1 _ hp ih =>
    exact parseHtmlOther_balanced tag doctypeMatch st st1 ih hp
  | frameOpen st st1 _ hp ih => exact child_balanced st st1 false ih hp
  | frameClose st st1 _ hp ih => exact toParent_balanced st st1 ih hp
  | textLiteral data st st1 _ hp ih => exact parseTextLiteral_balanced data st st1 ih hp
  | textExpression expression st st1 _ hp ih =>
    exact parseTextExpression_balanced env expression st st1 ih hp

/-- C19: in every reachable parser state, every `ConditionalBlock` held by a
frame, at any depth, has as many expressions as content lists (and at least
one of each). In such a state a block start `if` or `unless` pushes a block
with exactly one expression and one content list, and an `else` or `else if`
that finds a `ConditionalBlock` as the last item of the parent frame finds it
with lists of equal length and appends exactly one entry to both: the
expression, and the empty content list of the new frame. -/
theorem conditionalBlock_parallel (env : Env) (view : Option ViewContext) (st : State)
    (h : Reachable env view st) :
    st.balanced = true ∧
    ∀ (expression : Expression) (meta : ExpressionMeta),
      expression.meta = some meta → meta.isEnd = false →
      ((meta.blockType = some ['i', 'f'] ∨ meta.blockType = some ['u', 'n', 'l', 'e', 's', 's']) →
        ∀ f rest, st.frames = f :: rest →
          parseBlockExpression expression st
            = .ok ⟨st.view, ⟨[], true⟩ ::
                ⟨f.content ++ [.conditionalBlock [expression] [[]]], f.shared⟩ :: rest⟩) ∧
      ((meta.blockType = some ['e', 'l', 's', 'e'] ∨
          meta.blockType = some ['e', 'l', 's', 'e', ' ', 'i', 'f']) →
        ∀ st1 es cs, st.toParent = .ok st1 → st1.last = .ok (some (.conditionalBlock es cs)) →
          es.length = cs.length ∧
          parseBlockExpression expression st
            = (st1.setLast (.conditionalBlock (es ++ [expression]) (cs ++ [[]]))).child true) := by
  have hb := reachable_balanced env view st h
  refine ⟨hb, ?_⟩
  intro expression meta hm hend
  constructor
  · intro hbt f rest hf
    have hne : ¬ (meta.blockType = some ['e', 'l', 's', 'e'] ∨
        meta.blockType = some ['e', 'l', 's', 'e', ' ', 'i', 'f']) := by
      rcases hbt with h1 | h1 <;> simp [h1]
    obtain ⟨v, frames⟩ := st
    simp only at hf
    subst hf
    simp only [parseBlockExpression, hm, hend, Bool.false_eq_true, if_false, if_neg hne,
      if_pos hbt, State.push, State.child]
  · intro hbt st1 es cs h1 h2
    have hl := last_balanced st1 _ (toParent_balanced st st1 hb h1) h2
    simp only [Node.balanced, Bool.and_eq_true, decide_eq_true_eq] at hl
    refine ⟨hl.1.1, ?_⟩
    simp only [parseBlockExpression, hm, hend, Bool.false_eq_true, if_false, if_pos hbt, h1, h2]

/-- C19, witness: the state reached after `{{if x}}` holds a block with one
expression and one content list, and `{{else}}` then gives it two of each. -/
theorem conditionalBlock_parallel_witness :
    State.balanced ⟨none, [⟨[], true⟩,
        ⟨[.conditionalBlock [.other ['x'] (some (blockMeta "if x".toList "if".toList none))]
          [[]]], false⟩]⟩ = true ∧
    (List.length [Expression.other ['x'] (some (blockMeta "if x".toList "if".toList none))]
        = List.length [([] : List Node)] ∧
    parseBlockExpression (.blank (some (blockMeta "else".toList "else".toList none)))
        ⟨none, [⟨[], true⟩,
          ⟨[.conditionalBlock [.other ['x'] (some (blockMeta "if x".toList "if".toList none))]
            [[]]], false⟩]⟩
      = .ok ⟨none, [⟨[], true⟩,
          ⟨[.conditionalBlock
              [.other ['x'] (some (blockMeta "if x".toList "if".toList none)),
                .blank (some (blockMeta "else".toList "else".toList none))]
              [[], []]], false⟩]⟩) :=
  ⟨(conditionalBlock_parallel plainEnv none _
      (Reachable.textExpression
        (.other ['x'] (some (blockMeta "if x".toList "if".toList none)))
        (State.new none) _ Reachable.root rfl)).1,
   ((conditionalBlock_parallel plainEnv none _
      (Reachable.textExpression
        (.other ['x'] (some (blockMeta "if x".toList "if".toList none)))
        (State.new none) _ Reachable.root rfl)).2
      (.blank (some (blockMeta "else".toList "else".toList none)))
      (blockMeta "else".toList "else".toList none) rfl rfl).2 (Or.inl rfl)
      ⟨none, [⟨[.conditionalBlock
        [.other ['x'] (some (blockMeta "if x".toList "if".toList none))] [[]]], false⟩]⟩
      [.other ['x'] (some (blockMeta "if x".toList "if".toList none))] [[]] rfl rfl⟩

/-! ## Termination of the scanner: claim C21 -/

theorem scanDepth_ge : ∀ (s : Str) (n off r : Nat), scanDepth n s off = some r → off ≤ r := by
  intro s
  induction s with
  | nil =>
    intro n off r h
    cases n with
    | zero =>
      simp only [scanDepth, Option.some.injEq] at h
      omega
    | succ m => simp [scanDepth] at h
  | cons c cs ih =>
    intro n off r h
    cases n with
    | zero =>
      simp only [scanDepth, Option.some.injEq] at h
      omega
    | succ m =>
      simp only [scanDepth] at h
      split at h
      · have := ih _ _ _ h
        omega
      · split at h
        · have := ih _ _ _ h
          omega
        · have := ih _ _ _ h
          omega

/-- An iteration of the scanner that goes on leaves a strictly shorter suffix
of the text. -/
theorem sliceFrom_shorter (current : Str) (start «end» : Nat) (hne : current ≠ [])
    (hm : matchBraces current 2 start '{' '}' = .ok (some «end»)) :
    sliceFrom current «end» <:+ current ∧
      (sliceFrom current «end»).length < current.length := by
  rw [matchBraces_eq_scanDepth] at hm
  simp only [Except.ok.injEq] at hm
  have hge := scanDepth_ge _ _ _ _ hm
  have hpos : 0 < current.length := List.length_pos.2 hne
  refine ⟨List.drop_suffix _ _, ?_⟩
  simp only [sliceFrom, List.length_drop]
  omega

theorem manyGreedy_suffix {α : Type} (c : CharClass) (k : Str → Option α) :
    ∀ s : Str, ∃ r, r <:+ s ∧ manyGreedy c s k = k r := by
  intro s
  induction s with
  | nil => exact ⟨[], List.suffix_refl _, rfl⟩
  | cons x xs ih =>
    obtain ⟨r, hr, hrun⟩ := ih
    unfold manyGreedy
    split
    · cases hm : manyGreedy c xs k with
      | some v =>
        refine ⟨r, hr.trans (List.suffix_cons x xs), ?_⟩
        rw [← hrun, hm]
      | none => exact ⟨x :: xs, List.suffix_refl _, rfl⟩
    · exact ⟨x :: xs, List.suffix_refl _, rfl⟩

theorem run_lit_cases (s inp : Str) (caps : Captures) (k : Str → Captures → Option Captures) :
    (Re.lit s).run inp caps k = none ∨
      ∃ r, inp = s ++ r ∧ (Re.lit s).run inp caps k = k r caps := by
  by_cases h : s.isPrefixOf inp = true
  · obtain ⟨r, rfl⟩ := List.isPrefixOf_iff_prefix.1 h
    exact Or.inr ⟨r, rfl, run_lit s r caps k⟩
  · exact Or.inl (run_lit_fail s inp caps k (Bool.eq_false_iff.2 h))

theorem run_alt_cases (a b : Re) (inp : Str) (caps : Captures)
    (k : Str → Captures → Option Captures) :
    (Re.alt a b).run inp caps k = a.run inp caps k ∨
      (Re.alt a b).run inp caps k = b.run inp caps k := by
  rw [run_alt]
  cases a.run inp caps k with
  | none => exact Or.inr rfl
  | some r => exact Or.inl rfl

theorem valueKeyword_cases (inp : Str) (caps : Captures)
    (k : Str → Captures → Option Captures) :
    valueKeyword.run inp caps k = none ∨
      ∃ kw r, kw ∈ valueKeywords ∧ inp = kw ++ r ∧ valueKeyword.run inp caps k = k r caps := by
  have hlit : ∀ kw ∈ valueKeywords, ∀ v, v = (Re.lit kw).run inp caps k →
      v = none ∨ ∃ kw r, kw ∈ valueKeywords ∧ inp = kw ++ r ∧ v = k r caps := by
    intro kw hkw v hv
    rcases run_lit_cases kw inp caps k with h | ⟨r, hr, h⟩
    · exact Or.inl (hv.trans h)
    · exact Or.inr ⟨kw, r, hkw, hr, hv.trans h⟩
  unfold valueKeyword
  rcases run_alt_cases (.lit ['v', 'i', 'e', 'w']) _ inp caps k with h | h
  · exact hlit _ (by decide) _ h
  · rw [h]
    rcases run_alt_cases (.lit ['u', 'n', 'b', 'o', 'u', 'n', 'd']) _ inp caps k with h | h
    · exact hlit _ (by decide) _ h
    · rw [h]
      rcases run_alt_cases (.lit ['b', 'o', 'u', 'n', 'd']) _ inp caps k with h | h
      · exact hlit _ (by decide) _ h
      · exact hlit _ (by decide) _ h

/-- The two shapes of a match of `valueRegExp`: no keyword and the whole
input as group 2, or a keyword as group 1 and a strictly shorter text as
group 2. The regular expression matches every input. -/
theorem valueRegExp_cases (s : Str) :
    valueRegExp.exec s = some [(2, s)] ∨
      ∃ kw p, kw ∈ valueKeywords ∧ p.length < s.length ∧
        valueRegExp.exec s = some [(2, p), (1, kw)] := by
  rw [Re.exec, valueRegExp, run_seq, run_opt, run_seq, run_group]
  rcases valueKeyword_cases s []
      (fun r c => (Re.plus .space true).run r ((1, s.take (s.length - r.length)) :: c)
        (fun r c => (Re.group 2 (.star .any)).run r c (fun _ c => some c))) with h | h
  · rw [h]
    exact Or.inl (star_any_exec s [])
  · obtain ⟨kw, r, hkw, hs, hrun⟩ := h
    rw [hrun]
    cases r with
    | nil =>
      rw [run_plus_fail _ _ _ _ _ (by simp)]
      exact Or.inl (star_any_exec s [])
    | cons x xs =>
      by_cases hx : CharClass.space.test x = true
      · rw [run_plus_greedy _ _ _ _ _ hx]
        obtain ⟨p, hp, hm⟩ := manyGreedy_suffix CharClass.space
          (fun r => (Re.group 2 (.star .any)).run r
            [(1, s.take (s.length - (x :: xs).length))] (fun _ c => some c)) xs
        rw [hm, star_any_exec]
        refine Or.inr ⟨kw, p, hkw, ?_, ?_⟩
        · have := hp.length_le
          rw [hs]
          simp only [List.length_append, List.length_cons]
          omega
        · simp only []
          rw [hs]
          simp
      · rw [run_plus_fail _ _ _ _ _ (by simpa using hx)]
        exact Or.inl (star_any_exec s [])

/-- The keyword loop of `createExpression` ends within its budget, with a
result: every iteration that goes on leaves a strictly shorter text. -/
theorem valueLoop_total :
    ∀ (fuel : Nat) (path : Option Str) (meta : ExpressionMeta), (path.getD []).length < fuel →
      ∃ r, valueLoop fuel path meta = .ok r := by
  intro fuel
  induction fuel with
  | zero => intro path meta h; simp at h
  | succ f ih =>
    intro path meta h
    rcases valueRegExp_cases (path.getD []) with hm | ⟨kw, p, hkw, hlen, hm⟩
    · refine ⟨(some (path.getD []), meta), ?_⟩
      simp [valueLoop, hm, Captures.get, List.lookup, truthy]
    · have hne : kw ≠ [] := by
        obtain ⟨c, cs, rfl, _⟩ := valueKeywords_head kw hkw
        simp
      obtain ⟨c, cs, rfl⟩ := List.exists_cons_of_ne_nil hne
      have hget1 : Captures.get [(2, p), (1, c :: cs)] 1 = some (c :: cs) := rfl
      have hget2 : Captures.get [(2, p), (1, c :: cs)] 2 = some p := rfl
      simp only [valueLoop, hm, hget1, hget2, truthy, if_true]
      exact ih _ _ (by simpa using (by omega : p.length < f))

theorem classify_total (source : Str) : ∃ r, classify source = .ok r := by
  unfold classify
  simp only []
  split
  · exact ⟨_, rfl⟩
  · split
    · exact ⟨_, rfl⟩
    · split
      · exact ⟨_, rfl⟩
      · exact valueLoop_total _ _ _ (by simp)

/-- The only error of `createExpression` is the error of the path grammar,
with the source appended. -/
theorem createExpression_error (G : Grammar) (source : Str) (e : Error)
    (h : createExpression G source = .error e) : ∃ err src, e = .withinExpression err src := by
  unfold createExpression at h
  obtain ⟨r, hr⟩ := classify_total (trim source)
  simp only [hr] at h
  split at h
  · split at h
    · cases h
    · cases h
      exact ⟨_, _, rfl⟩
  · cases h

/-- The errors `Error parsing template text` and the exhausted budget do not
come from the loop of the scanner: within the budget, when the text of the
last iteration (if any) is longer than the current one, such an error is the
error of a callback invocation. -/
theorem parseTextLoop_error_origin {σ : Type} (G : Grammar) (data : Str)
    (onLiteral : Str → σ → Except Error σ) (onExpression : Expression → σ → Except Error σ) :
    ∀ (fuel : Nat) (current : Str) (last : Option Str) (st : σ) (e : Error),
      current.length < fuel → (∀ l, last = some l → current.length < l.length) →
      parseTextLoop G data onLiteral onExpression fuel current last st = .error e →
      (e = .fuel ∨ ∃ t, e = .parsingTemplateText t) →
      (∃ d s, onLiteral d s = .error e) ∨ (∃ x s, onExpression x s = .error e) := by
  intro fuel
  induction fuel with
  | zero =>
    intro current last st e hf
    simp at hf
  | succ f ih =>
    intro current last st e hf hlast h he
    unfold parseTextLoop at h
    split at h
    · cases h
    · rename_i hne
      split at h
      · rename_i heq
        have := hlast current heq.symm
        omega
      · split at h
        · exact Or.inl ⟨_, _, h⟩
        · split at h
          · rename_i err hmb
            rw [matchBraces_eq_scanDepth] at hmb
            cases hmb
          · cases h
            rcases he with he | ⟨t, he⟩ <;> cases he
          · rename_i endIdx hmb
            obtain ⟨_, hshort⟩ := sliceFrom_shorter current _ endIdx hne hmb
            split at h
            · rename_i err hsa
              cases h
              split at hsa
              · exact Or.inl ⟨_, _, hsa⟩
              · cases hsa
            · simp only [] at h
              split at h
              · rename_i sa _ err hsb
                cases h
                split at hsb
                · simp only [Except.bind] at hsb
                  split at hsb
                  · rename_i err1 hc
                    cases hsb
                    obtain ⟨m, src, hm⟩ := createExpression_error G _ _ hc
                    rcases he with he | ⟨t, he⟩ <;> rw [hm] at he <;> cases he
                  · exact Or.inr ⟨_, _, hsb⟩
                · cases hsb
              · exact ih _ _ _ _ (by omega)
                  (fun l hl => by
                    cases hl
                    exact hshort) h he

/-- The result of the loop of the scanner does not depend on the budget, once
the budget exceeds the length of the text. -/
theorem parseTextLoop_fuel {σ : Type} (G : Grammar) (data : Str)
    (onLiteral : Str → σ → Except Error σ) (onExpression : Expression → σ → Except Error σ) :
    ∀ (fuel1 fuel2 : Nat) (current : Str) (last : Option Str) (st : σ),
      current.length < fuel1 → current.length < fuel2 →
      parseTextLoop G data onLiteral onExpression fuel1 current last st
        = parseTextLoop G data onLiteral onExpression fuel2 current last st := by
  intro fuel1
  induction fuel1 with
  | zero =>
    intro fuel2 current last st h1
    simp at h1
  | succ f1 ih =>
    intro fuel2 current last st h1 h2
    cases fuel2 with
    | zero => simp at h2
    | succ f2 =>
      by_cases hne : current = []
      · simp [parseTextLoop, hne]
      by_cases hl : some current = last
      · simp [parseTextLoop, hne, hl]
      cases hidx : indexOf current ['{', '{'] 0 with
      | none => simp only [parseTextLoop, hne, hl, hidx, if_false]
      | some start =>
        cases hmb : matchBraces current 2 start '{' '}' with
        | error err => simp only [parseTextLoop, hne, hl, hidx, hmb, if_false]
        | ok r =>
          cases r with
          | none => simp only [parseTextLoop, hne, hl, hidx, hmb, if_false]
          | some endIdx =>
            obtain ⟨_, hshort⟩ := sliceFrom_shorter current start endIdx hne hmb
            simp only [parseTextLoop, hne, hl, hidx, hmb, if_false]
            cases (if start > 0 then onLiteral (slice current 0 start) st else Except.ok st) with
            | error err => rfl
            | ok sa =>
              simp only []
              cases (if slice current (start + 2) (endIdx - 2) ≠ [] then
                  (createExpression G (slice current (start + 2) (endIdx - 2))).bind
                    (fun expression => onExpression expression sa)
                else Except.ok sa) with
              | error err => rfl
              | ok sb => exact ih f2 _ _ _ (by omega) (by omega)

theorem push_not_loop (n : Node) (st : State) (e : Error) (h : st.push n = .error e) :
    e.isLoopError = false := by
  unfold State.push at h
  split at h <;> cases h
  rfl

theorem toParent_not_loop (st : State) (e : Error) (h : st.toParent = .error e) :
    e.isLoopError = false := by
  unfold State.toParent at h
  split at h
  · cases h
    rfl
  · cases h
  · split at h
    · split at h <;> cases h
    · cases h

theorem last_not_loop (st : State) (e : Error) (h : st.last = .error e) :
    e.isLoopError = false := by
  unfold State.last at h
  split at h <;> cases h
  rfl

theorem child_not_loop (b : Bool) (st : State) (e : Error) (h : st.child b = .error e) :
    e.isLoopError = false := by
  unfold State.child at h
  split at h <;> cases h
  rfl

theorem parseBlockExpression_not_loop (expression : Expression) (st : State) (e : Error)
    (h : parseBlockExpression expression st = .error e) : e.isLoopError = false := by
  unfold parseBlockExpression at h
  split at h
  · cases h
    rfl
  · simp only [] at h
    split at h
    · split at h
      · rename_i err hp
        cases h
        exact toParent_not_loop _ _ hp
      · split at h
        · rename_i err hl
          cases h
          exact last_not_loop _ _ hl
        · split at h
          · cases h
            rfl
          · split at h
            · cases h
              rfl
            · split at h
              · cases h
              · cases h
                rfl
    · split at h
      · split at h
        · rename_i err hp
          cases h
          exact toParent_not_loop _ _ hp
        · split at h
          · rename_i err hl
            cases h
            exact last_not_loop _ _ hl
          · split at h
            · exact child_not_loop _ _ _ h
            · split at h
              · cases h
                rfl
              · exact child_not_loop _ _ _ h
            · cases h
              rfl
      · split at h
        · rename_i err hp
          cases h
          exact push_not_loop _ _ _ hp
        · exact child_not_loop _ _ _ h

theorem objectFromObjectExpression_not_loop (expression : Expression) (e : Error)
    (h : objectFromObjectExpression expression = .error e) : e.isLoopError = false := by
  unfold objectFromObjectExpression at h
  split at h
  · cases h
  · cases h
  · cases h
    rfl
  · split at h
    · cases h
    · cases h
      rfl
  · cases h
    rfl

theorem attributesFromExpression_not_loop (expression : Option Expression) (e : Error)
    (h : attributesFromExpression expression = .error e) : e.isLoopError = false := by
  unfold attributesFromExpression at h
  split at h
  · cases h
  · split at h
    · rename_i err ho
      cases h
      exact objectFromObjectExpression_not_loop _ _ ho
    · cases h

theorem hooksFromAttributes_not_loop {α : Type} (truthyOf : α → Bool) (dataOf : α → JsValue)
    (env : Env) (attributes : Option (List (Str × α))) (type : HookType) (e : Error)
    (h : hooksFromAttributes truthyOf dataOf env attributes type = .error e) :
    e.isLoopError = false := by
  unfold hooksFromAttributes at h
  split at h
  · cases h
  · simp only [] at h
    split at h
    · rename_i err hAs
      cases h
      split at hAs
      · cases hAs
      · split at hAs
        · split at hAs
          · cases hAs
          · cases hAs
            rfl
        · cases hAs
    · split at h
      · rename_i err hOn
        cases h
        split at hOn
        · cases hOn
        · split at hOn
          · split at hOn
            · cases hOn
              rfl
            · split at hOn
              · rename_i err1 ho
                cases hOn
                exact objectFromObjectExpression_not_loop _ _ ho
              · cases hOn
          · cases hOn
      · cases h

theorem findView_not_loop (name : JsValue) (st : State) (e : Error)
    (h : findView name st = .error e) : e.isLoopError = false := by
  unfold findView at h
  split at h
  · cases h
    rfl
  · split at h
    · cases h
      rfl
    · split at h
      · cases h
        rfl
      · cases h

theorem parseViewExpression_not_loop (env : Env) (expression : Expression) (st : State)
    (e : Error) (h : parseViewExpression env expression st = .error e) :
    e.isLoopError = false := by
  unfold parseViewExpression at h
  simp only [] at h
  split at h
  · rename_i err ha
    cases h
    exact attributesFromExpression_not_loop _ _ ha
  · split at h
    · rename_i err hh
      cases h
      exact hooksFromAttributes_not_loop _ _ _ _ _ _ hh
    · split at h
      · split at h
        · rename_i err hf
          cases h
          exact findView_not_loop _ _ _ hf
        · exact push_not_loop _ _ _ h
      · exact push_not_loop _ _ _ h
      · exact push_not_loop _ _ _ h

theorem parseTextLiteral_not_loop (data : Str) (st : State) (e : Error)
    (h : parseTextLiteral data st = .error e) : e.isLoopError = false :=
  push_not_loop _ _ _ h

theorem parseTextExpression_not_loop (env : Env) (expression : Expression) (st : State)
    (e : Error) (h : parseTextExpression env expression st = .error e) :
    e.isLoopError = false := by
  unfold parseTextExpression at h
  split at h
  · cases h
    rfl
  · split at h
    · exact parseBlockExpression_not_loop _ _ _ h
    · split at h
      · exact parseViewExpression_not_loop _ _ _ _ h
      · exact push_not_loop _ _ _ h

/-- C21: `parseText` ends on every input, and its forward-progress guard is
never met. For callbacks that return without an error of the loop (they stay
within their budget and do not themselves raise `Error parsing template
text`): (1) an iteration that goes on replaces the text by a strictly shorter
suffix of it; (2) every budget above the length of the input gives the same
result as the budget `parseText` runs with; (3) that result is not the
exhausted budget; (4) that result is never `Error parsing template text`. -/
theorem parseText_terminates {σ : Type} (G : Grammar) (data : Str)
    (onLiteral : Str → σ → Except Error σ) (onExpression : Expression → σ → Except Error σ)
    (hl : ∀ d s e, onLiteral d s = .error e → e.isLoopError = false)
    (he : ∀ x s e, onExpression x s = .error e → e.isLoopError = false) :
    (∀ (current : Str) (start endIdx : Nat), current ≠ [] →
      matchBraces current 2 start '{' '}' = .ok (some endIdx) →
      sliceFrom current endIdx <:+ current ∧
        (sliceFrom current endIdx).length < current.length) ∧
    (∀ (st : σ) (fuel : Nat), data.length < fuel →
      parseTextLoop G data onLiteral onExpression fuel data none st
        = parseText G data onLiteral onExpression st) ∧
    (∀ st : σ, parseText G data onLiteral onExpression st ≠ .error .fuel) ∧
    (∀ (st : σ) (t : Str),
      parseText G data onLiteral onExpression st ≠ .error (.parsingTemplateText t)) := by
  have key : ∀ (st : σ) (e : Error), parseText G data onLiteral onExpression st = .error e →
      e.isLoopError = false := by
    intro st e h
    cases hb : e.isLoopError with
    | false => rfl
    | true =>
      have hor : e = .fuel ∨ ∃ t, e = .parsingTemplateText t := by
        cases e <;> simp [Error.isLoopError] at hb ⊢
      rcases parseTextLoop_error_origin G data onLiteral onExpression _ data none st e
          (Nat.lt_succ_self _) (fun l hl0 => by cases hl0) h hor with ⟨d, s, hd⟩ | ⟨x, s, hx⟩
      · rw [hl d s e hd] at hb
        cases hb
      · rw [he x s e hx] at hb
        cases hb
  refine ⟨fun current start endIdx hne hm => sliceFrom_shorter current start endIdx hne hm,
    fun st fuel hf => parseTextLoop_fuel G data onLiteral onExpression _ _ data none st hf
      (Nat.lt_succ_self _), ?_, ?_⟩
  · intro st h
    have := key st _ h
    cases this
  · intro st t h
    have := key st _ h
    cases this

/-- C21, witness: the callbacks of the parser, on the text `a{{b}}c`: the
expression ends at index 6 and leaves the suffix `c`; the run with the budget
100 is the run of `parseText`, which is neither out of budget nor stopped by
the guard. -/
theorem parseText_terminates_witness :
    (sliceFrom "a\x7b\x7bb\x7d\x7dc".toList 6 <:+ "a\x7b\x7bb\x7d\x7dc".toList ∧
      (sliceFrom "a\x7b\x7bb\x7d\x7dc".toList 6).length < "a\x7b\x7bb\x7d\x7dc".toList.length) ∧
    parseTextLoop plainEnv.createPathExpression "a\x7b\x7bb\x7d\x7dc".toList parseTextLiteral
        (parseTextExpression plainEnv) 100 "a\x7b\x7bb\x7d\x7dc".toList none (State.new none)
      = parseText plainEnv.createPathExpression "a\x7b\x7bb\x7d\x7dc".toList parseTextLiteral
          (parseTextExpression plainEnv) (State.new none) ∧
    parseText plainEnv.createPathExpression "a\x7b\x7bb\x7d\x7dc".toList parseTextLiteral
        (parseTextExpression plainEnv) (State.new none) ≠ .error .fuel ∧
    parseText plainEnv.createPathExpression "a\x7b\x7bb\x7d\x7dc".toList parseTextLiteral
        (parseTextExpression plainEnv) (State.new none)
      ≠ .error (.parsingTemplateText "a\x7b\x7bb\x7d\x7dc".toList) :=
  have T := parseText_terminates plainEnv.createPathExpression "a\x7b\x7bb\x7d\x7dc".toList
    parseTextLiteral (parseTextExpression plainEnv)
    (fun d s e h => parseTextLiteral_not_loop d s e h)
    (fun x s e h => parseTextExpression_not_loop plainEnv x s e h)
  ⟨T.1 "a\x7b\x7bb\x7d\x7dc".toList 1 6 (by decide) (by rfl), T.2.1 (State.new none) 100 (by decide),
    T.2.2.1 (State.new none), T.2.2.2 (State.new none) "a\x7b\x7bb\x7d\x7dc".toList⟩

end DerbyParsing
